import Mathlib

/-!
# Verification of the sprint-supervisor runner

A shallow embedding, in Lean 4, of the parts of the `apps/runner` package that
the specification's checkable claims are about:

* the intent parser and canonical intent hashing (`apps/runner/intents.py`);
* the durable run ledger (`apps/runner/ledger.py`);
* the backend HTTP client's payload handling (`apps/runner/http_client.py`);
* the dependency-graph sanitizer and its Tarjan cycle detector, the
  Backlog→Ready promotion loop, the elapsed-time helpers, the blocked-retry
  and watchdog reconciliation handlers, the retryability predicate, and the
  per-issue in-flight slot gate (`apps/runner/runner.py`).

Python dictionaries/JSON values are modelled by the inductive type `Json`
(objects as association lists in insertion order); machine-independent
integers model Python ints; fallible operations return `Except`/`Option`.
All definitions are executable and follow the Python source line by line;
theorems at the end settle each claim.
-/

/-- Whitespace characters recognised by Python's `str.strip()` (ASCII part). -/
def isPySpace (c : Char) : Bool :=
  c = ' ' || c = '\t' || c = '\n' || c = '\x0d' || c = '\x0b' || c = '\x0c'

/-- Python `str.strip()`: drop leading and trailing whitespace. -/
def pyStrip (s : String) : String :=
  ⟨(s.data.dropWhile isPySpace).reverse.dropWhile isPySpace |>.reverse⟩

/-- Python `str.upper()` restricted to ASCII (all strings the runner compares
are ASCII). -/
def pyUpper (s : String) : String := ⟨s.data.map Char.toUpper⟩

/-- JSON values as produced by `json.loads`: objects keep their key order as
an association list (Python dicts preserve insertion order and never hold a
duplicate key). -/
inductive Json where
  | null : Json
  | bool (b : Bool) : Json
  | num (n : Int) : Json
  | str (s : String) : Json
  | arr (xs : List Json) : Json
  | obj (kvs : List (String × Json)) : Json
deriving Repr

mutual

/-- Structural equality test on `Json` (Python `==` on decoded JSON values
with like-for-like key order). -/
def Json.beq : Json → Json → Bool
  | .null, .null => true
  | .bool a, .bool b => a = b
  | .num a, .num b => a = b
  | .str a, .str b => a = b
  | .arr xs, .arr ys => Json.beqList xs ys
  | .obj xs, .obj ys => Json.beqPairs xs ys
  | _, _ => false

def Json.beqList : List Json → List Json → Bool
  | [], [] => true
  | x :: xs, y :: ys => Json.beq x y && Json.beqList xs ys
  | _, _ => false

def Json.beqPairs : List (String × Json) → List (String × Json) → Bool
  | [], [] => true
  | (k, v) :: xs, (k', v') :: ys => k = k' && Json.beq v v' && Json.beqPairs xs ys
  | _, _ => false

end

mutual

/-- Node count of a JSON value, used as recursion fuel. -/
def Json.size : Json → Nat
  | .null | .bool _ | .num _ | .str _ => 1
  | .arr xs => 1 + Json.sizeList xs
  | .obj kvs => 1 + Json.sizePairs kvs

def Json.sizeList : List Json → Nat
  | [] => 0
  | x :: xs => Json.size x + Json.sizeList xs

def Json.sizePairs : List (String × Json) → Nat
  | [] => 0
  | (_, v) :: xs => Json.size v + Json.sizePairs xs

end

theorem Json.size_pos (v : Json) : 0 < v.size := by
  cases v <;> simp [Json.size]

theorem Json.beq_iff : ∀ a b : Json, Json.beq a b = true ↔ a = b := by
  have main : ∀ k, ∀ a b : Json, Json.size a ≤ k → (Json.beq a b = true ↔ a = b) := by
    intro k
    induction k using Nat.strong_induction_on with
    | _ k ih =>
      have listH : ∀ m, m < k → ∀ xs ys : List Json, Json.sizeList xs ≤ m →
          (Json.beqList xs ys = true ↔ xs = ys) := by
        intro m hm xs
        induction xs with
        | nil => intro ys h; cases ys <;> simp [Json.beqList]
        | cons x xs ihx =>
          intro ys h
          cases ys with
          | nil => simp [Json.beqList]
          | cons y ys =>
            have hx : Json.size x ≤ m := by simp [Json.sizeList] at h; omega
            have hxs : Json.sizeList xs ≤ m := by
              have := Json.size_pos x
              simp [Json.sizeList] at h
              omega
            simp [Json.beqList, ih m hm x y hx, ihx ys hxs]
      have pairsH : ∀ m, m < k → ∀ xs ys : List (String × Json), Json.sizePairs xs ≤ m →
          (Json.beqPairs xs ys = true ↔ xs = ys) := by
        intro m hm xs
        induction xs with
        | nil => intro ys h; cases ys <;> simp [Json.beqPairs]
        | cons x xs ihx =>
          intro ys h
          cases ys with
          | nil => simp [Json.beqPairs]
          | cons y ys =>
            obtain ⟨kk, v⟩ := x
            obtain ⟨kk', v'⟩ := y
            have hx : Json.size v ≤ m := by simp [Json.sizePairs] at h; omega
            have hxs : Json.sizePairs xs ≤ m := by
              have := Json.size_pos v
              simp [Json.sizePairs] at h
              omega
            simp [Json.beqPairs, ih m hm v v' hx, ihx ys hxs]
      intro a b h
      cases a with
      | null => cases b <;> simp [Json.beq]
      | bool x => cases b <;> simp [Json.beq]
      | num x => cases b <;> simp [Json.beq]
      | str x => cases b <;> simp [Json.beq]
      | arr xs =>
        cases b <;> simp [Json.beq]
        rename_i ys
        have hk : 0 < k := by have := Json.size_pos (Json.arr xs); omega
        rw [listH (k - 1) (by omega) xs ys (by simp [Json.size] at h; omega)]
      | obj xs =>
        cases b <;> simp [Json.beq]
        rename_i ys
        have hk : 0 < k := by have := Json.size_pos (Json.obj xs); omega
        rw [pairsH (k - 1) (by omega) xs ys (by simp [Json.size] at h; omega)]
  intro a b
  exact main (Json.size a) a b le_rfl

instance : DecidableEq Json := fun a b => decidable_of_iff _ (Json.beq_iff a b)

/-- `dict.get(k)`: first binding of `k` (Python dicts have unique keys, so
first-match lookup agrees with dict lookup). -/
def pyGet (kvs : List (String × Json)) (k : String) : Option Json :=
  match kvs with
  | [] => none
  | (k', v) :: rest => if k' = k then some v else pyGet rest k

/-- Python truthiness of a JSON value (`bool(x)`). -/
def pyTruthy : Json → Bool
  | .null => false
  | .bool b => b
  | .num n => n != 0
  | .str s => s != ""
  | .arr xs => !xs.isEmpty
  | .obj kvs => !kvs.isEmpty

/-- `str(x or "")` as the runner applies it to ledger/state fields: a string
stays itself, a missing or falsy value becomes `""` (the handlers below only
ever feed strings or missing values through this). -/
def pyStrOrEmpty : Option Json → String
  | some (.str s) => s
  | _ => ""

/-- Equal code points force equal characters. -/
theorem charEqOfToNat {a b : Char} (h : a.toNat = b.toNat) : a = b :=
  Char.eq_of_val_eq (UInt32.eq_of_toBitVec_eq (BitVec.eq_of_toNat_eq h))

/-- Code-point comparison of character lists, matching Python `str` ordering
(`sorted` on strings compares code points lexicographically). -/
def charListLe : List Char → List Char → Bool
  | [], _ => true
  | _ :: _, [] => false
  | a :: as, b :: bs =>
    if a.toNat < b.toNat then true
    else if b.toNat < a.toNat then false
    else charListLe as bs

/-- Python string `≤` by code points. -/
def strLe (a b : String) : Bool := charListLe a.data b.data

theorem charListLe_total (a b : List Char) : charListLe a b || charListLe b a := by
  induction a generalizing b with
  | nil => simp [charListLe]
  | cons x xs ih =>
    cases b with
    | nil => simp [charListLe]
    | cons y ys =>
      by_cases h1 : x.toNat < y.toNat
      · simp [charListLe, h1]
      · by_cases h2 : y.toNat < x.toNat
        · simp [charListLe, h1, h2]
        · simpa [charListLe, h1, h2] using ih ys

theorem charListLe_refl (a : List Char) : charListLe a a := by
  induction a with
  | nil => simp [charListLe]
  | cons x xs ih => simp [charListLe, ih]

theorem charListLe_antisymm {a b : List Char} (h1 : charListLe a b) (h2 : charListLe b a) :
    a = b := by
  induction a generalizing b with
  | nil =>
    cases b with
    | nil => rfl
    | cons y ys => simp [charListLe] at h2
  | cons x xs ih =>
    cases b with
    | nil => simp [charListLe] at h1
    | cons y ys =>
      by_cases hxy : x.toNat < y.toNat
      · rw [charListLe] at h2
        simp [show ¬ y.toNat < x.toNat by omega, hxy] at h2
      · by_cases hyx : y.toNat < x.toNat
        · rw [charListLe] at h1
          simp [hxy, hyx] at h1
        · have hx : x = y := charEqOfToNat (by omega)
          subst hx
          rw [charListLe] at h1 h2
          simp [hxy] at h1 h2
          rw [ih h1 h2]

theorem charListLe_trans {a b c : List Char} (h1 : charListLe a b) (h2 : charListLe b c) :
    charListLe a c := by
  induction a generalizing b c with
  | nil => simp [charListLe]
  | cons x xs ih =>
    cases b with
    | nil => simp [charListLe] at h1
    | cons y ys =>
      cases c with
      | nil => simp [charListLe] at h2
      | cons z zs =>
        rw [charListLe] at h1 h2 ⊢
        by_cases hxy : x.toNat < y.toNat
        · by_cases hyz : y.toNat < z.toNat
          · simp [show x.toNat < z.toNat by omega]
          · by_cases hzy : z.toNat < y.toNat
            · simp [hyz, hzy] at h2
            · simp [show x.toNat < z.toNat by omega]
        · by_cases hyx : y.toNat < x.toNat
          · simp [hxy, hyx] at h1
          · simp [hxy, hyx] at h1
            by_cases hyz : y.toNat < z.toNat
            · simp [show x.toNat < z.toNat by omega]
            · by_cases hzy : z.toNat < y.toNat
              · simp [hyz, hzy] at h2
              · simp [hyz, hzy] at h2
                have hxz : ¬ x.toNat < z.toNat := by omega
                have hzx : ¬ z.toNat < x.toNat := by omega
                simp [hxz, hzx]
                exact ih h1 h2

/-- Insert into a list sorted by `le` (used to model Python's `sorted`). -/
def insertBy {α : Type} (le : α → α → Bool) (x : α) : List α → List α
  | [] => [x]
  | y :: rest => if le x y then x :: y :: rest else y :: insertBy le x rest

/-- Insertion sort by `le`; agrees with Python's `sorted` for a total order
(and for the runner's uses the keys are distinct, so the result is the unique
sorted permutation). -/
def sortBy {α : Type} (le : α → α → Bool) : List α → List α
  | [] => []
  | x :: rest => insertBy le x (sortBy le rest)

theorem insertBy_perm {α : Type} (le : α → α → Bool) (x : α) (l : List α) :
    (insertBy le x l).Perm (x :: l) := by
  induction l with
  | nil => simp [insertBy]
  | cons y rest ih =>
    by_cases h : le x y
    · simp [insertBy, h]
    · simp only [insertBy, h, if_false]
      exact (ih.cons y).trans (List.Perm.swap x y rest)

theorem sortBy_perm {α : Type} (le : α → α → Bool) (l : List α) :
    (sortBy le l).Perm l := by
  induction l with
  | nil => simp [sortBy]
  | cons x rest ih =>
    exact (insertBy_perm le x (sortBy le rest)).trans (ih.cons x)

/- ## `apps/runner/intents.py` -/

def ALLOWED_ROLES : List String := ["EXECUTOR", "REVIEWER"]

def INTENT_TYPE : String := "RUN_INTENT"

/-- `ALLOWED_ENDPOINTS_BY_ROLE` with `.get(role, set())` semantics. -/
def ALLOWED_ENDPOINTS_BY_ROLE (role : String) : List String :=
  if role = "EXECUTOR" then ["/internal/executor/claim-ready-item"]
  else if role = "REVIEWER" then ["/internal/reviewer/resolve-linked-pr"]
  else []

/-- `IntentError(message, code=...)`; the structured `details` payload is not
needed by any claim and is omitted. -/
structure IntentError where
  message : String
  code : String
deriving Repr, DecidableEq

structure RunIntent where
  type : String
  role : String
  run_id : String
  endpoint : String
  body : List (String × Json)
  raw : List (String × Json)
deriving Repr, DecidableEq

/-- `parse_intent(value)`, check for check in source order. -/
def parse_intent (value : List (String × Json)) : Except IntentError RunIntent :=
  let allowed_keys : List String := ["type", "role", "run_id", "endpoint", "body"]
  if (value.map Prod.fst).filter (fun k => decide (k ∉ allowed_keys)) ≠ [] then
    .error ⟨"intent has unknown fields", "intent_unknown_fields"⟩
  else if pyGet value "type" ≠ some (.str INTENT_TYPE) then
    .error ⟨"intent type mismatch", "intent_type_mismatch"⟩
  else match pyGet value "role" with
    | some (.str role) =>
      if pyUpper (pyStrip role) ∈ ALLOWED_ROLES then
        let normalized_role := pyUpper (pyStrip role)
        match pyGet value "run_id" with
        | some (.str run_id) =>
          if pyStrip run_id ≠ "" then
            match pyGet value "endpoint" with
            | some (.str endpoint) =>
              if List.isPrefixOf "/internal/".data (pyStrip endpoint).data then
                let normalized_endpoint := pyStrip endpoint
                if normalized_endpoint ∈ ALLOWED_ENDPOINTS_BY_ROLE normalized_role then
                  match pyGet value "body" with
                  | some (.obj body) =>
                    if pyGet body "role" = some (.str normalized_role) then
                      if pyGet body "run_id" = some (.str run_id) then
                        .ok ⟨INTENT_TYPE, normalized_role, run_id, normalized_endpoint,
                             body, value⟩
                      else
                        .error ⟨"intent body.run_id must match intent run_id",
                                "intent_run_id_mismatch"⟩
                    else
                      .error ⟨"intent body.role must match intent role",
                              "intent_role_mismatch"⟩
                  | _ => .error ⟨"intent body must be an object", "intent_invalid_body"⟩
                else
                  .error ⟨"intent endpoint is not allowed for role",
                          "intent_endpoint_not_allowed"⟩
              else .error ⟨"intent endpoint is required", "intent_invalid_endpoint"⟩
            | _ => .error ⟨"intent endpoint is required", "intent_invalid_endpoint"⟩
          else .error ⟨"intent run_id is required", "intent_missing_run_id"⟩
        | _ => .error ⟨"intent run_id is required", "intent_missing_run_id"⟩
      else .error ⟨"intent role must be EXECUTOR or REVIEWER", "intent_invalid_role"⟩
    | _ => .error ⟨"intent role must be EXECUTOR or REVIEWER", "intent_invalid_role"⟩

/-- The envelope shape the planner emits (§6 of the spec): a `RUN_INTENT`
dictionary whose body's `role`/`run_id` echo the envelope. -/
def mkIntentDict (role run_id endpoint : String) : List (String × Json) :=
  [("type", .str "RUN_INTENT"), ("role", .str role), ("run_id", .str run_id),
   ("endpoint", .str endpoint),
   ("body", .obj [("role", .str role), ("run_id", .str run_id)])]

/-- An otherwise-valid EXECUTOR intent naming the reviewer resolve-linked-pr
endpoint. -/
def executorResolvePrIntent : List (String × Json) :=
  mkIntentDict "EXECUTOR" "run-1" "/internal/reviewer/resolve-linked-pr"

/-- C2 (counterexample): the EXECUTOR allow-list holds only
`/internal/executor/claim-ready-item`; an otherwise-valid EXECUTOR intent for
`/internal/reviewer/resolve-linked-pr` is rejected, and the rejection code is
`intent_endpoint_not_allowed`, which is not an `intent_invalid_*` code. -/
theorem parse_intent_executor_resolve_pr_rejected :
    parse_intent executorResolvePrIntent =
      Except.error ⟨"intent endpoint is not allowed for role", "intent_endpoint_not_allowed"⟩ ∧
    ALLOWED_ENDPOINTS_BY_ROLE "EXECUTOR" = ["/internal/executor/claim-ready-item"] ∧
    List.isPrefixOf "intent_invalid".data "intent_endpoint_not_allowed".data = false := by
  refine ⟨by rfl, by decide, by decide⟩

/-- C2 (amended): for an otherwise-valid envelope, acceptance is equivalent to
the *stripped* endpoint lying in the role's allow-list, where the EXECUTOR
allow-list holds only `/internal/executor/claim-ready-item` and the REVIEWER
allow-list only `/internal/reviewer/resolve-linked-pr`; an in-`/internal/`
endpoint outside the role's set is rejected with code
`intent_endpoint_not_allowed`. -/
theorem parse_intent_endpoint_allowlist (role run_id endpoint : String)
    (hrole : role = "EXECUTOR" ∨ role = "REVIEWER")
    (hrid : pyStrip run_id = run_id) (hrid2 : run_id ≠ "")
    (hend : pyStrip endpoint = endpoint)
    (hpre : List.isPrefixOf "/internal/".data endpoint.data = true) :
    (endpoint ∈ ALLOWED_ENDPOINTS_BY_ROLE role →
      parse_intent (mkIntentDict role run_id endpoint) =
        Except.ok ⟨"RUN_INTENT", role, run_id, endpoint,
                   [("role", .str role), ("run_id", .str run_id)],
                   mkIntentDict role run_id endpoint⟩) ∧
    (endpoint ∉ ALLOWED_ENDPOINTS_BY_ROLE role →
      parse_intent (mkIntentDict role run_id endpoint) =
        Except.error ⟨"intent endpoint is not allowed for role",
                      "intent_endpoint_not_allowed"⟩) ∧
    ALLOWED_ENDPOINTS_BY_ROLE "EXECUTOR" = ["/internal/executor/claim-ready-item"] ∧
    ALLOWED_ENDPOINTS_BY_ROLE "REVIEWER" = ["/internal/reviewer/resolve-linked-pr"] := by
  have hupE : pyUpper (pyStrip "EXECUTOR") = "EXECUTOR" := by decide
  have hupR : pyUpper (pyStrip "REVIEWER") = "REVIEWER" := by decide
  rcases hrole with rfl | rfl <;>
    refine ⟨?_, ?_, by decide, by decide⟩ <;>
    intro hmem <;>
    simp [parse_intent, mkIntentDict, pyGet, ALLOWED_ROLES, hupE, hupR, hrid, hend,
      hpre, hrid2, INTENT_TYPE, hmem]

theorem parse_intent_endpoint_allowlist_witness :
    parse_intent (mkIntentDict "EXECUTOR" "r1" "/internal/executor/claim-ready-item") =
      Except.ok ⟨"RUN_INTENT", "EXECUTOR", "r1", "/internal/executor/claim-ready-item",
                 [("role", .str "EXECUTOR"), ("run_id", .str "r1")],
                 mkIntentDict "EXECUTOR" "r1" "/internal/executor/claim-ready-item"⟩ :=
  (parse_intent_endpoint_allowlist "EXECUTOR" "r1" "/internal/executor/claim-ready-item"
    (Or.inl rfl) (by decide) (by decide) (by decide) (by decide)).1 (by decide)

/- ## `apps/runner/ledger.py` -/

/-- A row of the run ledger as stored in the `runs` map: the fields written by
`upsert`, plus `running_at` stamped by `mark_running`. -/
structure LedgerRow where
  run_id : String
  role : String
  intent_hash : String
  received_at : String
  status : String
  result : Option Json
  running_at : Option String
deriving Repr, DecidableEq

/-- `LedgerEntry` as passed to `upsert`. -/
structure LedgerEntry where
  run_id : String
  role : String
  intent_hash : String
  received_at : String
  status : String
  result : Option Json
deriving Repr, DecidableEq

/-- Replace the first binding of `k` (Python dict item assignment on an
existing key), appending when absent. -/
def setRow (runs : List (String × LedgerRow)) (k : String) (row : LedgerRow) :
    List (String × LedgerRow) :=
  match runs with
  | [] => [(k, row)]
  | (k', r) :: rest => if k' = k then (k, row) :: rest else (k', r) :: setRow rest k row

/-- `RunLedger.get`: look a run up in the `runs` map. -/
def RunLedger.get (runs : List (String × LedgerRow)) (run_id : String) : Option LedgerRow :=
  match runs with
  | [] => none
  | (k, r) :: rest => if k = run_id then some r else RunLedger.get rest run_id

/-- `RunLedger.upsert`: store the entry's fields verbatim (no `running_at`
key is written, so an existing `running_at` stamp is dropped). -/
def RunLedger.upsert (runs : List (String × LedgerRow)) (entry : LedgerEntry) :
    List (String × LedgerRow) :=
  setRow runs entry.run_id
    ⟨entry.run_id, entry.role, entry.intent_hash, entry.received_at, entry.status,
     entry.result, none⟩

/-- `RunLedger.mark_running`: fails only when the run is absent; otherwise
overwrites `status` with `running` unconditionally and stamps `running_at`
(`now` stands for `time.strftime(...)`); `result` is left as is. -/
def RunLedger.mark_running (runs : List (String × LedgerRow)) (run_id : String)
    (now : String) : Except String (List (String × LedgerRow)) :=
  match RunLedger.get runs run_id with
  | none => .error "cannot mark running: run_id not in ledger"
  | some existing =>
      .ok (setRow runs run_id
        { existing with status := "running", running_at := some now })

/-- `RunLedger.mark_result`: fails only when the run is absent; otherwise
overwrites `status` and `result` unconditionally. -/
def RunLedger.mark_result (runs : List (String × LedgerRow)) (run_id : String)
    (status : String) (result : Json) : Except String (List (String × LedgerRow)) :=
  match RunLedger.get runs run_id with
  | none => .error "cannot mark result: run_id not in ledger"
  | some existing =>
      .ok (setRow runs run_id { existing with status := status, result := some result })

/-- Outcome of the ledger section of `Runner._handle_intent` (runner.py
1931–1949): either the dispatch is skipped with the ledger untouched, or the
row is (up)serted as `queued` and then marked `running`. -/
inductive LedgerGateOutcome where
  | skipped (runs : List (String × LedgerRow))
  | dispatched (runs : List (String × LedgerRow))
deriving Repr, DecidableEq

/-- The ledger gate of `Runner._handle_intent`: skip only rows already
`succeeded`; otherwise upsert `queued` (when absent) and `mark_running`. -/
def handleIntentLedgerGate (runs : List (String × LedgerRow)) (run_id role intent_hash : String)
    (received_at now : String) : Except String LedgerGateOutcome :=
  let existing := RunLedger.get runs run_id
  match existing with
  | some row =>
      if row.status = "succeeded" then .ok (.skipped runs)
      else
        match RunLedger.mark_running runs run_id now with
        | .error e => .error e
        | .ok runs' => .ok (.dispatched runs')
  | none =>
      let runs' := RunLedger.upsert runs ⟨run_id, role, intent_hash, received_at, "queued", none⟩
      match RunLedger.mark_running runs' run_id now with
      | .error e => .error e
      | .ok runs'' => .ok (.dispatched runs'')

def c1Runs0 : List (String × LedgerRow) :=
  RunLedger.upsert [] ⟨"r", "EXECUTOR", "h", "t0", "queued", none⟩

def c1Runs1 : List (String × LedgerRow) :=
  [("r", ⟨"r", "EXECUTOR", "h", "t0", "running", none, some "t1"⟩)]

def c1Runs2 : List (String × LedgerRow) :=
  [("r", ⟨"r", "EXECUTOR", "h", "t0", "failed", some (Json.obj []), some "t1"⟩)]

def c1Runs3 : List (String × LedgerRow) :=
  [("r", ⟨"r", "EXECUTOR", "h", "t0", "running", some (Json.obj []), some "t2"⟩)]

/-- C1 (counterexample): a `failed` (terminal) row is moved back to `running`.
After `upsert`/`mark_running`/`mark_result(failed)`, a further `mark_running`
succeeds — the ledger does not reject the backward transition — and the
dispatch gate of `_handle_intent` re-dispatches the run rather than skipping
it, because only `succeeded` rows are skipped. -/
theorem ledger_terminal_row_reenters_running :
    RunLedger.mark_running c1Runs0 "r" "t1" = .ok c1Runs1 ∧
    RunLedger.mark_result c1Runs1 "r" "failed" (Json.obj []) = .ok c1Runs2 ∧
    (RunLedger.get c1Runs2 "r").map LedgerRow.status = some "failed" ∧
    RunLedger.mark_running c1Runs2 "r" "t2" = .ok c1Runs3 ∧
    (RunLedger.get c1Runs3 "r").map LedgerRow.status = some "running" ∧
    handleIntentLedgerGate c1Runs2 "r" "EXECUTOR" "h" "t0" "t2" = .ok (.dispatched c1Runs3) :=
  ⟨rfl, rfl, rfl, rfl, rfl, rfl⟩

/-- C1 (amended): the ledger's `mark_running`/`mark_result` fail exactly on
unknown `run_id`s and otherwise overwrite the row's status unconditionally
(so terminal `failed`/`skipped` rows can re-enter `running`); the forward-only
protection exists only for `succeeded` rows, enforced by the dispatch gate in
`Runner._handle_intent`, which skips a run whose existing row is `succeeded`
and leaves the ledger unchanged. -/
theorem ledger_status_discipline (runs : List (String × LedgerRow))
    (rid role hash recv now st : String) (res : Json) :
    (RunLedger.get runs rid = none →
      RunLedger.mark_running runs rid now =
        .error "cannot mark running: run_id not in ledger" ∧
      RunLedger.mark_result runs rid st res =
        .error "cannot mark result: run_id not in ledger") ∧
    (∀ row, RunLedger.get runs rid = some row →
      RunLedger.mark_running runs rid now =
        .ok (setRow runs rid { row with status := "running", running_at := some now }) ∧
      RunLedger.mark_result runs rid st res =
        .ok (setRow runs rid { row with status := st, result := some res })) ∧
    (∀ row, RunLedger.get runs rid = some row → row.status = "succeeded" →
      handleIntentLedgerGate runs rid role hash recv now = .ok (.skipped runs)) := by
  refine ⟨?_, ?_, ?_⟩ <;> intros <;>
    simp [RunLedger.mark_running, RunLedger.mark_result, handleIntentLedgerGate, *]

theorem ledger_status_discipline_witness :
    handleIntentLedgerGate [("r", ⟨"r", "EXECUTOR", "h", "t0", "succeeded", none, none⟩)]
      "r" "EXECUTOR" "h" "t0" "t9" =
      .ok (.skipped [("r", ⟨"r", "EXECUTOR", "h", "t0", "succeeded", none, none⟩)]) :=
  (ledger_status_discipline
      [("r", ⟨"r", "EXECUTOR", "h", "t0", "succeeded", none, none⟩)]
      "r" "EXECUTOR" "h" "t0" "t9" "failed" (Json.obj [])).2.2
    ⟨"r", "EXECUTOR", "h", "t0", "succeeded", none, none⟩ rfl rfl

/- ## `apps/runner/http_client.py` -/

/-- `HttpError(message, code, status_code, payload)`. -/
structure HttpError where
  message : String
  code : String
  status_code : Int
  payload : Json
deriving Repr, DecidableEq

/-- The payload-assembly tail of `_request_json` (lines 92–96): an empty body
becomes `{}`, a JSON-parseable body (`parsed = some j`, standing for
`json.loads(raw)`) is passed through whatever its type, and a body that fails
to parse is wrapped as `{"raw": raw}`. -/
def requestJsonPayload (raw : String) (parsed : Option Json) : Json :=
  if raw = "" then Json.obj []
  else
    match parsed with
    | some j => j
    | none => Json.obj [("raw", Json.str raw)]

/-- `BackendClient.get_json` after `_request_json` produced a response
(status + body): HTTP ≥ 400 raises `backend_http_error` first; then a
non-object payload raises `backend_invalid_payload`; otherwise the object is
returned. -/
def BackendClient.get_json (status_code : Int) (raw : String) (parsed : Option Json) :
    Except HttpError (List (String × Json)) :=
  let payload := requestJsonPayload raw parsed
  if 400 ≤ status_code then
    .error ⟨"backend returned HTTP " ++ toString status_code, "backend_http_error",
            status_code, payload⟩
  else
    match payload with
    | .obj kvs => .ok kvs
    | p => .error ⟨"backend JSON payload must be an object", "backend_invalid_payload",
                   status_code, p⟩

/-- `BackendClient.post_json`: identical response handling to `get_json`. -/
def BackendClient.post_json (status_code : Int) (raw : String) (parsed : Option Json) :
    Except HttpError (List (String × Json)) :=
  let payload := requestJsonPayload raw parsed
  if 400 ≤ status_code then
    .error ⟨"backend returned HTTP " ++ toString status_code, "backend_http_error",
            status_code, payload⟩
  else
    match payload with
    | .obj kvs => .ok kvs
    | p => .error ⟨"backend JSON payload must be an object", "backend_invalid_payload",
                   status_code, p⟩

/-- C4 (counterexample): a non-JSON text body at HTTP 200 is wrapped as
`{"raw": ...}` and *returned successfully* — a value derived from a
non-object response body — and a non-object JSON body at HTTP 500 raises
`backend_http_error`, not `backend_invalid_payload`. -/
theorem get_json_non_object_body_not_always_invalid_payload :
    BackendClient.get_json 200 "hello" none = .ok [("raw", Json.str "hello")] ∧
    BackendClient.post_json 200 "hello" none = .ok [("raw", Json.str "hello")] ∧
    BackendClient.get_json 500 "[1]" (some (.arr [.num 1])) =
      .error ⟨"backend returned HTTP 500", "backend_http_error", 500, .arr [.num 1]⟩ :=
  ⟨rfl, rfl, rfl⟩

/-- C4 (amended): `get_json`/`post_json` behave identically; when the HTTP
status is ≥ 400 they fail with `backend_http_error` regardless of body type;
when the status is < 400 they fail with `backend_invalid_payload` exactly when
the assembled payload is not a JSON object, and return the object otherwise —
but a body that is not valid JSON at all is wrapped as the object
`{"raw": body}` (and an empty body as `{}`), hence accepted. -/
theorem backend_json_payload_handling (status_code : Int) (raw : String) (parsed : Option Json) :
    (BackendClient.post_json status_code raw parsed =
      BackendClient.get_json status_code raw parsed) ∧
    (400 ≤ status_code →
      BackendClient.get_json status_code raw parsed =
        .error ⟨"backend returned HTTP " ++ toString status_code, "backend_http_error",
                status_code, requestJsonPayload raw parsed⟩) ∧
    (status_code < 400 →
      (∀ kvs, requestJsonPayload raw parsed = .obj kvs →
        BackendClient.get_json status_code raw parsed = .ok kvs) ∧
      ((∀ kvs, requestJsonPayload raw parsed ≠ .obj kvs) →
        BackendClient.get_json status_code raw parsed =
          .error ⟨"backend JSON payload must be an object", "backend_invalid_payload",
                  status_code, requestJsonPayload raw parsed⟩)) ∧
    (raw ≠ "" → parsed = none →
      requestJsonPayload raw parsed = .obj [("raw", Json.str raw)]) := by
  refine ⟨rfl, ?_, ?_, ?_⟩
  · intro h
    simp [BackendClient.get_json, h]
  · intro h
    constructor
    · intro kvs hk
      simp [BackendClient.get_json, show ¬ (400 ≤ status_code) by omega, hk]
    · intro hk
      have hn : ¬ (400 ≤ status_code) := by omega
      rcases hp : requestJsonPayload raw parsed with _ | b | n | s | xs | kvs <;>
        simp [BackendClient.get_json, hn, hp]
      exact absurd hp (hk kvs)
  · intro h1 h2
    simp [requestJsonPayload, h1, h2]

theorem backend_json_payload_handling_witness :
    BackendClient.get_json 200 "[1]" (some (.arr [.num 1])) =
      .error ⟨"backend JSON payload must be an object", "backend_invalid_payload",
              200, requestJsonPayload "[1]" (some (.arr [.num 1]))⟩ :=
  ((backend_json_payload_handling 200 "[1]" (some (.arr [.num 1]))).2.2.1
    (by omega)).2 (by intro kvs h; simp [requestJsonPayload] at h)

/- ## `Runner._reserve_issue_slot` / `Runner._release_issue_slot` -/

/-- An entry of `in_flight_by_issue`: `{"run_id": ..., "role": ...}`. -/
structure InFlightRec where
  run_id : String
  role : String
deriving Repr, DecidableEq

def inFlightGet (m : List (Int × InFlightRec)) (issue : Int) : Option InFlightRec :=
  match m with
  | [] => none
  | (k, r) :: rest => if k = issue then some r else inFlightGet rest issue

def inFlightSet (m : List (Int × InFlightRec)) (issue : Int) (rec : InFlightRec) :
    List (Int × InFlightRec) :=
  match m with
  | [] => [(issue, rec)]
  | (k, r) :: rest =>
      if k = issue then (issue, rec) :: rest else (k, r) :: inFlightSet rest issue rec

def inFlightDel (m : List (Int × InFlightRec)) (issue : Int) : List (Int × InFlightRec) :=
  match m with
  | [] => []
  | (k, r) :: rest => if k = issue then rest else (k, r) :: inFlightDel rest issue

/-- Result of one traversal of `_reserve_issue_slot`'s wait loop under a
static environment: `blocked` stands for the condvar wait (map untouched). -/
inductive ReserveOutcome where
  | bypass | stopped | acquired | alreadyHeld | blocked
deriving Repr, DecidableEq

/-- `Runner._reserve_issue_slot` (runner.py 1142–1173): non-positive issue
numbers and empty run ids return before touching the map; a stopped runner
returns without reserving; a free slot is taken; a slot already held by this
`run_id` is kept; a slot held by another run leaves the map unchanged and
waits. -/
def reserveIssueSlot (shouldStop : Bool) (m : List (Int × InFlightRec)) (issue : Int)
    (run_id role : String) : List (Int × InFlightRec) × ReserveOutcome :=
  if issue ≤ 0 then (m, .bypass)
  else if run_id = "" then (m, .bypass)
  else if shouldStop then (m, .stopped)
  else
    match inFlightGet m issue with
    | none => (inFlightSet m issue ⟨run_id, role⟩, .acquired)
    | some current =>
        if current.run_id = run_id then (m, .alreadyHeld) else (m, .blocked)

/-- `Runner._release_issue_slot` (runner.py 1175–1182): delete the issue's
entry only when it is held by the releasing `run_id`. -/
def releaseIssueSlot (m : List (Int × InFlightRec)) (issue : Int) (run_id : String) :
    List (Int × InFlightRec) :=
  if issue ≤ 0 then m
  else if run_id = "" then m
  else
    match inFlightGet m issue with
    | some current => if current.run_id = run_id then inFlightDel m issue else m
    | none => m

/-- C10: `_reserve_issue_slot` leaves the in-flight map unchanged and returns
at once for non-positive issue numbers and empty run ids (such runs bypass
per-issue serialization) and when the slot is already held by the same
`run_id`; `_release_issue_slot` removes the issue's entry exactly when the
stored `run_id` equals the releasing one, and leaves the map unchanged in
every other case. -/
theorem in_flight_gate_frame (stop : Bool) (m : List (Int × InFlightRec)) (issue : Int)
    (run_id role : String) :
    ((issue ≤ 0 ∨ run_id = "") →
      reserveIssueSlot stop m issue run_id role = (m, .bypass)) ∧
    (∀ cur, inFlightGet m issue = some cur → cur.run_id = run_id →
      0 < issue → run_id ≠ "" → stop = false →
      reserveIssueSlot stop m issue run_id role = (m, .alreadyHeld)) ∧
    ((issue ≤ 0 ∨ run_id = "") → releaseIssueSlot m issue run_id = m) ∧
    (inFlightGet m issue = none → releaseIssueSlot m issue run_id = m) ∧
    (∀ cur, inFlightGet m issue = some cur → cur.run_id ≠ run_id →
      releaseIssueSlot m issue run_id = m) ∧
    (∀ cur, inFlightGet m issue = some cur → cur.run_id = run_id →
      0 < issue → run_id ≠ "" →
      releaseIssueSlot m issue run_id = inFlightDel m issue) := by
  refine ⟨?_, ?_, ?_, ?_, ?_, ?_⟩
  · rintro (h | h) <;> simp [reserveIssueSlot, h]
  · intro cur hc hr hi hrid hstop
    simp [reserveIssueSlot, show ¬ issue ≤ 0 by omega, hrid, hstop, hc, hr]
  · rintro (h | h) <;> simp [releaseIssueSlot, h]
  · intro h
    by_cases hi : issue ≤ 0
    · simp [releaseIssueSlot, hi]
    · by_cases hr : run_id = "" <;> simp [releaseIssueSlot, hi, hr, h]
  · intro cur hc hne
    by_cases hi : issue ≤ 0
    · simp [releaseIssueSlot, hi]
    · by_cases hr : run_id = "" <;> simp [releaseIssueSlot, hi, hr, hc, hne]
  · intro cur hc hr hi hrid
    simp [releaseIssueSlot, show ¬ issue ≤ 0 by omega, hrid, hc, hr]

theorem in_flight_gate_frame_witness :
    reserveIssueSlot false [(7, ⟨"run-a", "EXECUTOR"⟩)] 7 "run-a" "REVIEWER" =
      ([(7, ⟨"run-a", "EXECUTOR"⟩)], .alreadyHeld) ∧
    releaseIssueSlot [(7, ⟨"run-a", "EXECUTOR"⟩)] 7 "run-b" =
      [(7, ⟨"run-a", "EXECUTOR"⟩)] :=
  ⟨(in_flight_gate_frame false [(7, ⟨"run-a", "EXECUTOR"⟩)] 7 "run-a" "REVIEWER").2.1
      ⟨"run-a", "EXECUTOR"⟩ rfl rfl (by omega) (by decide) rfl,
   (in_flight_gate_frame false [(7, ⟨"run-a", "EXECUTOR"⟩)] 7 "run-b" "REVIEWER").2.2.2.2.1
      ⟨"run-a", "EXECUTOR"⟩ rfl (by decide)⟩

/- ## Time helpers (`_normalize_iso`, `_minutes_since`, `_seconds_since`) -/

def digitVal (c : Char) : Option Nat :=
  if c.isDigit then some (c.toNat - 48) else none

def read2 (a b : Char) : Option Nat := do
  let x ← digitVal a
  let y ← digitVal b
  pure (x * 10 + y)

def read4 (a b c d : Char) : Option Nat := do
  let x ← read2 a b
  let y ← read2 c d
  pure (x * 100 + y)

/-- Days since the Unix epoch of a civil date (Hinnant's algorithm). -/
def daysFromCivil (y m d : Int) : Int :=
  let y' := if m ≤ 2 then y - 1 else y
  let era := (if 0 ≤ y' then y' else y' - 399) / 400
  let yoe := y' - era * 400
  let mp := (m + 9) % 12
  let doy := (153 * mp + 2) / 5 + d - 1
  let doe := yoe * 365 + yoe / 4 - yoe / 100 + doy
  era * 146097 + doe - 719468

/-- A model of `datetime.fromisoformat` on the shapes the runner produces:
`YYYY-MM-DD[{T| }HH:MM:SS[±HH:MM]]`, returning the UTC instant in epoch
seconds (a naive stamp is read as UTC; the runner only produces `Z`/offset
stamps). Returns `none` on any other shape. -/
def parseIsoChars : List Char → Option Int
  | y1 :: y2 :: y3 :: y4 :: '-' :: m1 :: m2 :: '-' :: d1 :: d2 :: rest => do
    let y ← read4 y1 y2 y3 y4
    let m ← read2 m1 m2
    let d ← read2 d1 d2
    if m < 1 || 12 < m || d < 1 || 31 < d then none
    else
      let base := daysFromCivil (Int.ofNat y) (Int.ofNat m) (Int.ofNat d) * 86400
      match rest with
      | [] => some base
      | sep :: h1 :: h2 :: ':' :: mi1 :: mi2 :: ':' :: s1 :: s2 :: rest2 => do
        if sep ≠ 'T' && sep ≠ ' ' then none
        else
          let h ← read2 h1 h2
          let mi ← read2 mi1 mi2
          let s ← read2 s1 s2
          if 23 < h || 59 < mi || 59 < s then none
          else
            let t := base + Int.ofNat (h * 3600 + mi * 60 + s)
            match rest2 with
            | [] => some t
            | sign :: o1 :: o2 :: ':' :: o3 :: o4 :: [] => do
              let oh ← read2 o1 o2
              let om ← read2 o3 o4
              if 23 < oh || 59 < om then none
              else
                let off := Int.ofNat (oh * 3600 + om * 60)
                if sign = '+' then some (t - off)
                else if sign = '-' then some (t + off)
                else none
            | _ => none
      | _ => none
  | _ => none

/-- `value.replace("Z", "+00:00")`. -/
def replaceZ (s : String) : String :=
  ⟨s.data.foldr
    (fun c acc => if c = 'Z' then '+' :: '0' :: '0' :: ':' :: '0' :: '0' :: acc else c :: acc)
    []⟩

/-- Civil date of a day count (inverse of `daysFromCivil`). -/
def civilFromDays (z : Int) : Int × Int × Int :=
  let z' := z + 719468
  let era := (if 0 ≤ z' then z' else z' - 146096) / 146097
  let doe := z' - era * 146097
  let yoe := (doe - doe / 1460 + doe / 36524 - doe / 146096) / 365
  let y := yoe + era * 400
  let doy := doe - (365 * yoe + yoe / 4 - yoe / 100)
  let mp := (5 * doy + 2) / 153
  let d := doy - (153 * mp + 2) / 5 + 1
  let m := if mp < 10 then mp + 3 else mp - 9
  (if m ≤ 2 then y + 1 else y, m, d)

def pad2 (n : Int) : String :=
  if n < 10 then "0" ++ toString n else toString n

def pad4 (n : Int) : String :=
  if n < 10 then "000" ++ toString n
  else if n < 100 then "00" ++ toString n
  else if n < 1000 then "0" ++ toString n
  else toString n

/-- Render a UTC instant as the runner's normalized form
`YYYY-MM-DDTHH:MM:SS+00:00` → with the `Z` suffix after
`.replace("+00:00", "Z")`. -/
def renderIsoZ (t : Int) : String :=
  let days := (t - (t % 86400 + 86400) % 86400) / 86400
  let rem := (t % 86400 + 86400) % 86400
  let (y, m, d) := civilFromDays days
  pad4 y ++ "-" ++ pad2 m ++ "-" ++ pad2 d ++ "T" ++
    pad2 (rem / 3600) ++ ":" ++ pad2 ((rem % 3600) / 60) ++ ":" ++ pad2 (rem % 60) ++ "Z"

/-- `_normalize_iso` as an instant: `none` exactly when the source returns
`""` (non-string, blank, or unparseable input). -/
def normalizeIsoInstant (value : Option Json) : Option Int :=
  match value with
  | some (.str s) =>
      if pyStrip s = "" then none else parseIsoChars (replaceZ s).data
  | _ => none

/-- `_normalize_iso` (runner.py 30–37): the normalized rendering, `""` on
non-string, blank, or unparseable input. -/
def normalizeIso (value : Option Json) : String :=
  match normalizeIsoInstant value with
  | none => ""
  | some t => renderIsoZ t

/-- `_minutes_since(start_iso, now_iso)` (runner.py 40–50). The source
normalizes both stamps, returns 0 if either normalizes to `""`, re-parses the
normalized renderings and floors positive deltas to whole minutes; the
re-parse of a rendering is modelled by the instant itself. -/
def minutesSince (start_iso : Option Json) (now_iso : String) : Int :=
  match normalizeIsoInstant start_iso, normalizeIsoInstant (some (.str now_iso)) with
  | some s, some n => if n - s ≤ 0 then 0 else (n - s) / 60
  | _, _ => 0

/-- `_seconds_since(start_iso, now_iso)` (runner.py 53–63). -/
def secondsSince (start_iso : Option Json) (now_iso : String) : Int :=
  match normalizeIsoInstant start_iso, normalizeIsoInstant (some (.str now_iso)) with
  | some s, some n => if n - s ≤ 0 then 0 else n - s
  | _, _ => 0

/- ## `is_retryable_failure` and per-poll reconciliation handlers -/

def RETRYABLE_ERROR_CODES : List String :=
  ["mcp_timeout", "backend_unreachable", "mcp_stdio_unavailable", "mcp_error_response"]

/-- `is_retryable_failure` (runner.py 114–124): trims and upper-cases the
classification, trims the code. -/
def is_retryable_failure (failure_classification error_code : String) : Bool :=
  let normalized_class := pyUpper (pyStrip failure_classification)
  let normalized_code := pyStrip error_code
  if normalized_class = "TRANSIENT" then true
  else normalized_code ∈ RETRYABLE_ERROR_CODES

/-- `_resolve_project_state_item`: the state file's `items` entry for a
project item, when it is a dict. -/
def resolveProjectStateItem (items : List (String × Json)) (pid : String) :
    Option (List (String × Json)) :=
  match pyGet items pid with
  | some (.obj e) => some e
  | _ => none

/-- The `Status=Ready` (or otherwise) field update a reconciliation handler
POSTs to `/internal/project-item/update-field`; only the fields the claims
inspect are kept. -/
structure FieldUpdate where
  project_item_id : String
  field : String
  value : String
  issue_number : Int
  failure_classification : String
  error_code : String
  blocked_minutes : Int
  run_id : String
deriving Repr, DecidableEq

/-- The per-item body of `Runner._handle_blocked_retries`' loop (runner.py
1552–1596): `none` when the item is skipped, `some upd` when a
`Status=Ready` update is POSTed for it. -/
def blockedRetryDecision (stateItems : List (String × Json))
    (runs : List (String × LedgerRow)) (hasLedger : Bool) (blockedRetryMinutes : Int)
    (now : String) (item : Json) : Option FieldUpdate :=
  match item with
  | .obj kv =>
    if pyGet kv "status" ≠ some (.str "Blocked") then none
    else
      match pyGet kv "issue_number" with
      | some (.num issue) =>
        if issue ≤ 0 then none
        else
          match pyGet kv "project_item_id" with
          | some (.str pid) =>
            if pyStrip pid = "" then none
            else
              match resolveProjectStateItem stateItems pid with
              | some st =>
                let blocked_minutes := minutesSince (pyGet st "status_since_at") now
                if blocked_minutes < blockedRetryMinutes then none
                else
                  let run_id := pyStrOrEmpty (pyGet st "last_run_id")
                  if run_id = "" then none
                  else if !hasLedger then none
                  else
                    match RunLedger.get runs run_id with
                    | some entry =>
                      match entry.result with
                      | some (.obj res) =>
                        let fc := pyStrOrEmpty (pyGet res "failure_classification")
                        let ec := pyStrOrEmpty (pyGet res "error_code")
                        if is_retryable_failure fc ec then
                          some ⟨pid, "Status", "Ready", issue, fc, ec, blocked_minutes, run_id⟩
                        else none
                      | _ => none
                    | none => none
              | none => none
          | _ => none
      | _ => none
  | _ => none

/-- `Runner._handle_blocked_retries` over a dispatch summary: the sequence of
`Status=Ready` updates POSTed in item order (a non-list `processed_items`
emits nothing). -/
def handleBlockedRetries (summary : List (String × Json)) (stateItems : List (String × Json))
    (runs : List (String × LedgerRow)) (hasLedger : Bool) (blockedRetryMinutes : Int)
    (now : String) : List FieldUpdate :=
  match pyGet summary "processed_items" with
  | some (.arr items) =>
      items.filterMap (blockedRetryDecision stateItems runs hasLedger blockedRetryMinutes now)
  | _ => []

/-- `ledger_entry.get("running_at") or ledger_entry.get("received_at")`: the
stamp the watchdog measures from (`or` skips a missing *or empty*
`running_at`). -/
def watchdogStartStamp (entry : LedgerRow) : String :=
  match entry.running_at with
  | some t => if t = "" then entry.received_at else t
  | none => entry.received_at

/-- The ledger mark and recovery trigger of `Runner._handle_running_watchdog`
for one item (runner.py 1681–1718): `some (run_id, elapsed)` when the row is
marked failed with `watchdog_timeout`. -/
def runningWatchdogDecision (stateItems : List (String × Json))
    (runs : List (String × LedgerRow)) (watchdogTimeoutS : Int) (now : String)
    (item : Json) : Option (String × Int) :=
  match item with
  | .obj kv =>
    if pyGet kv "status" ≠ some (.str "In Progress") &&
       pyGet kv "status" ≠ some (.str "In Review") then none
    else
      match pyGet kv "issue_number" with
      | some (.num issue) =>
        if issue ≤ 0 then none
        else
          match pyGet kv "project_item_id" with
          | some (.str pid) =>
            if pyStrip pid = "" then none
            else
              match resolveProjectStateItem stateItems pid with
              | some st =>
                let run_id := pyStrOrEmpty (pyGet st "last_run_id")
                if run_id = "" then none
                else
                  match RunLedger.get runs run_id with
                  | some entry =>
                    if entry.status ≠ "running" then none
                    else
                      let elapsed := secondsSince (some (Json.str (watchdogStartStamp entry))) now
                      if elapsed ≤ watchdogTimeoutS then none
                      else some (run_id, elapsed)
                  | none => none
              | none => none
          | _ => none
      | _ => none
  | _ => none

/-- `Runner._handle_running_watchdog` over a dispatch summary (given a
ledger): the rows marked failed with `watchdog_timeout`, in item order. -/
def handleRunningWatchdog (summary : List (String × Json)) (stateItems : List (String × Json))
    (runs : List (String × LedgerRow)) (watchdogTimeoutS : Int) (now : String) :
    List (String × Int) :=
  match pyGet summary "processed_items" with
  | some (.arr items) =>
      items.filterMap (runningWatchdogDecision stateItems runs watchdogTimeoutS now)
  | _ => []

/-- C7 (counterexample): `is_retryable_failure("transient", "")` is true even
though the classification is not the string `TRANSIENT` and the code is not in
the retryable set — the function normalizes (trims/upper-cases) its inputs, so
the claimed plain iff fails. -/
theorem is_retryable_failure_lowercase_transient :
    is_retryable_failure "transient" "" = true ∧
    "transient" ≠ "TRANSIENT" ∧ "" ∉ RETRYABLE_ERROR_CODES :=
  ⟨by decide, by decide, by decide⟩

/-- C7 (amended): `is_retryable_failure` is true iff the trimmed, upper-cased
classification is `TRANSIENT` or the trimmed code is in
`{mcp_timeout, backend_unreachable, mcp_stdio_unavailable, mcp_error_response}`;
and for a Blocked summary item with resolvable state item and ledger result,
`_handle_blocked_retries` POSTs a `Status=Ready` update exactly when the
minutes since `status_since_at` reach `blocked_retry_minutes` and the ledger
result's classification/code satisfy this predicate. -/
theorem blocked_retry_cooldown (stateItems : List (String × Json))
    (runs : List (String × LedgerRow)) (thr : Int) (now pid run_id : String)
    (issue : Int) (kv st res : List (String × Json)) (entry : LedgerRow)
    (hstatus : pyGet kv "status" = some (.str "Blocked"))
    (hissue : pyGet kv "issue_number" = some (.num issue)) (hpos : 0 < issue)
    (hpid : pyGet kv "project_item_id" = some (.str pid)) (hpids : pyStrip pid ≠ "")
    (hst : resolveProjectStateItem stateItems pid = some st)
    (hrun : pyStrOrEmpty (pyGet st "last_run_id") = run_id) (hrn : run_id ≠ "")
    (hent : RunLedger.get runs run_id = some entry)
    (hres : entry.result = some (.obj res)) :
    (∀ c e, is_retryable_failure c e = true ↔
      (pyUpper (pyStrip c) = "TRANSIENT" ∨ pyStrip e ∈ RETRYABLE_ERROR_CODES)) ∧
    blockedRetryDecision stateItems runs true thr now (.obj kv) =
      (if thr ≤ minutesSince (pyGet st "status_since_at") now ∧
          is_retryable_failure (pyStrOrEmpty (pyGet res "failure_classification"))
            (pyStrOrEmpty (pyGet res "error_code")) = true
       then some ⟨pid, "Status", "Ready", issue,
                  pyStrOrEmpty (pyGet res "failure_classification"),
                  pyStrOrEmpty (pyGet res "error_code"),
                  minutesSince (pyGet st "status_since_at") now, run_id⟩
       else none) := by
  constructor
  · intro c e
    by_cases h : pyUpper (pyStrip c) = "TRANSIENT" <;>
      simp [is_retryable_failure, h]
  · by_cases hcool : thr ≤ minutesSince (pyGet st "status_since_at") now <;>
      by_cases hretry : is_retryable_failure (pyStrOrEmpty (pyGet res "failure_classification"))
        (pyStrOrEmpty (pyGet res "error_code")) = true <;>
      simp [blockedRetryDecision, hstatus, hissue, show ¬ issue ≤ 0 by omega, hpid, hpids,
        hst, hrun, hrn, hent, hres, hcool, hretry,
        show ¬ minutesSince (pyGet st "status_since_at") now < thr → thr ≤
          minutesSince (pyGet st "status_since_at") now from by omega]

theorem blocked_retry_cooldown_witness :
    blockedRetryDecision
      [("PVTI_4", .obj [("status_since_at", .str "2026-01-01T00:00:00Z"),
                        ("last_run_id", .str "run-x")])]
      [("run-x", ⟨"run-x", "EXECUTOR", "h", "t0", "failed",
        some (.obj [("failure_classification", .str "TRANSIENT"),
                    ("error_code", .str "backend_unreachable")]), none⟩)]
      true 15 "2026-01-01T00:20:00Z"
      (.obj [("status", .str "Blocked"), ("issue_number", .num 4),
             ("project_item_id", .str "PVTI_4")]) =
      some ⟨"PVTI_4", "Status", "Ready", 4, "TRANSIENT", "backend_unreachable", 20, "run-x"⟩ := by
  rw [(blocked_retry_cooldown
      [("PVTI_4", .obj [("status_since_at", .str "2026-01-01T00:00:00Z"),
                        ("last_run_id", .str "run-x")])]
      [("run-x", ⟨"run-x", "EXECUTOR", "h", "t0", "failed",
        some (.obj [("failure_classification", .str "TRANSIENT"),
                    ("error_code", .str "backend_unreachable")]), none⟩)]
      15 "2026-01-01T00:20:00Z" "PVTI_4" "run-x" 4
      [("status", .str "Blocked"), ("issue_number", .num 4),
       ("project_item_id", .str "PVTI_4")]
      [("status_since_at", .str "2026-01-01T00:00:00Z"), ("last_run_id", .str "run-x")]
      [("failure_classification", .str "TRANSIENT"), ("error_code", .str "backend_unreachable")]
      ⟨"run-x", "EXECUTOR", "h", "t0", "failed",
        some (.obj [("failure_classification", .str "TRANSIENT"),
                    ("error_code", .str "backend_unreachable")]), none⟩
      rfl rfl (by omega) rfl (by decide) rfl rfl (by decide) rfl rfl).2]
  rfl

/-- C9: `_minutes_since`/`_seconds_since` are total, return 0 whenever either
stamp is missing/non-string/unparseable or the delta is not positive, and are
never negative; consequently (with the configured thresholds, which
`config._parse_positive_int` keeps ≥ 1) the blocked-retry handler and the
running-worker watchdog never act on an item whose recorded stamp is absent,
malformed, or not in the past. -/
theorem elapsed_time_guards
    (v : Option Json) (now pid run_id : String)
    (stateItems : List (String × Json)) (runs : List (String × LedgerRow))
    (hasLedger : Bool) (thr wt : Int) (issue : Int)
    (kv st : List (String × Json)) (entry : LedgerRow) :
    ((normalizeIsoInstant v = none ∨ normalizeIsoInstant (some (.str now)) = none) →
      minutesSince v now = 0 ∧ secondsSince v now = 0) ∧
    (∀ s n, normalizeIsoInstant v = some s → normalizeIsoInstant (some (.str now)) = some n →
      n - s ≤ 0 → minutesSince v now = 0 ∧ secondsSince v now = 0) ∧
    (0 ≤ minutesSince v now ∧ 0 ≤ secondsSince v now) ∧
    (pyGet kv "status" = some (.str "Blocked") →
     pyGet kv "issue_number" = some (.num issue) → 0 < issue →
     pyGet kv "project_item_id" = some (.str pid) → pyStrip pid ≠ "" →
     resolveProjectStateItem stateItems pid = some st →
     1 ≤ thr →
     (normalizeIsoInstant (pyGet st "status_since_at") = none ∨
      (∀ s n, normalizeIsoInstant (pyGet st "status_since_at") = some s →
        normalizeIsoInstant (some (.str now)) = some n → n ≤ s)) →
     blockedRetryDecision stateItems runs hasLedger thr now (.obj kv) = none) ∧
    ((pyGet kv "status" = some (.str "In Progress") ∨
      pyGet kv "status" = some (.str "In Review")) →
     pyGet kv "issue_number" = some (.num issue) → 0 < issue →
     pyGet kv "project_item_id" = some (.str pid) → pyStrip pid ≠ "" →
     resolveProjectStateItem stateItems pid = some st →
     pyStrOrEmpty (pyGet st "last_run_id") = run_id → run_id ≠ "" →
     RunLedger.get runs run_id = some entry → entry.status = "running" →
     0 ≤ wt →
     (normalizeIsoInstant (some (.str (watchdogStartStamp entry))) = none ∨
      (∀ s n, normalizeIsoInstant (some (.str (watchdogStartStamp entry))) = some s →
        normalizeIsoInstant (some (.str now)) = some n → n ≤ s)) →
     runningWatchdogDecision stateItems runs wt now (.obj kv) = none) := by
  have key : ∀ (w : Option Json),
      (normalizeIsoInstant w = none ∨ normalizeIsoInstant (some (.str now)) = none ∨
       (∀ s n, normalizeIsoInstant w = some s →
         normalizeIsoInstant (some (.str now)) = some n → n ≤ s)) →
      minutesSince w now = 0 ∧ secondsSince w now = 0 := by
    intro w hw
    unfold minutesSince secondsSince
    rcases hs : normalizeIsoInstant w with _ | s
    · simp
    · rcases hn : normalizeIsoInstant (some (.str now)) with _ | n
      · simp
      · rcases hw with h | h | h
        · rw [hs] at h; cases h
        · rw [hn] at h; cases h
        · have hsn := h s n hs hn
          simp [show n - s ≤ 0 by omega]
  refine ⟨?_, ?_, ?_, ?_, ?_⟩
  · intro h
    exact key v (by tauto)
  · intro s n hs hn hd
    unfold minutesSince secondsSince
    rw [hs, hn]
    simp [hd]
  · constructor
    · unfold minutesSince
      rcases hs : normalizeIsoInstant v with _ | s
      · simp
      · rcases hn : normalizeIsoInstant (some (.str now)) with _ | n
        · simp
        · by_cases hd : n - s ≤ 0
          · simp [hd]
          · simp [hd]
            omega
    · unfold secondsSince
      rcases hs : normalizeIsoInstant v with _ | s
      · simp
      · rcases hn : normalizeIsoInstant (some (.str now)) with _ | n
        · simp
        · by_cases hd : n - s ≤ 0
          · simp [hd]
          · simp [hd]
            omega
  · intro hstatus hissue hpos hpid hpids hst hthr hstamp
    have hz := key (pyGet st "status_since_at") (by tauto)
    simp [blockedRetryDecision, hstatus, hissue, show ¬ issue ≤ 0 by omega, hpid, hpids,
      hst, hz.1, show (0 : Int) < thr by omega]
  · intro hstatus hissue hpos hpid hpids hst hrun hrn hent hrunning hwt hstamp
    have hz := key (some (.str (watchdogStartStamp entry))) (by tauto)
    rcases hstatus with hstatus | hstatus <;>
      simp [runningWatchdogDecision, hstatus, hissue, show ¬ issue ≤ 0 by omega, hpid,
        hpids, hst, hrun, hrn, hent, hrunning, hz.2, hwt]

theorem elapsed_time_guards_witness :
    blockedRetryDecision
      [("PVTI_9", .obj [("status_since_at", .str "not-a-date"),
                        ("last_run_id", .str "run-z")])]
      [] true 15 "2026-01-01T00:20:00Z"
      (.obj [("status", .str "Blocked"), ("issue_number", .num 9),
             ("project_item_id", .str "PVTI_9")]) = none :=
  (elapsed_time_guards (some (.str "not-a-date")) "2026-01-01T00:20:00Z" "PVTI_9" "run-z"
      [("PVTI_9", .obj [("status_since_at", .str "not-a-date"),
                        ("last_run_id", .str "run-z")])]
      [] true 15 900 9
      [("status", .str "Blocked"), ("issue_number", .num 9),
       ("project_item_id", .str "PVTI_9")]
      [("status_since_at", .str "not-a-date"), ("last_run_id", .str "run-z")]
      ⟨"run-z", "EXECUTOR", "h", "t0", "running", none, none⟩).2.2.2.1
    rfl rfl (by omega) rfl (by decide) rfl (by omega) (Or.inl rfl)

/- ## `_normalize_scope_path`, `_paths_overlap`, and the promotion loop -/

def intGet {α : Type} (m : List (Int × α)) (k : Int) : Option α :=
  match m with
  | [] => none
  | (k', v) :: rest => if k' = k then some v else intGet rest k

/-- `meta.get(key) if isinstance(meta.get(key), list) else []`. -/
def asListD (v : Option Json) : List Json :=
  match v with
  | some (.arr xs) => xs
  | _ => []

def stripLeadingDotSlash : List Char → List Char
  | '.' :: '/' :: rest => stripLeadingDotSlash rest
  | cs => cs

def dropSlashesRev : List Char → List Char
  | '/' :: rest => if rest.isEmpty then ['/'] else dropSlashesRev rest
  | cs => cs

/-- `_normalize_scope_path` (runner.py 229–239): require a non-blank string;
backslashes to slashes; strip leading `./`s, then leading `/`s, then trailing
`/`s while longer than one character. -/
def normalizeScopePath (value : Json) : String :=
  match value with
  | .str s =>
      if pyStrip s = "" then ""
      else
        let cs := (pyStrip s).data.map fun c => if c = '\\' then '/' else c
        let cs := stripLeadingDotSlash cs
        let cs := cs.dropWhile (· = '/')
        ⟨(dropSlashesRev cs.reverse).reverse⟩
  | _ => ""

/-- `_paths_overlap` (runner.py 242–253): equal normalized paths or a strict
`<other>/` prefix either way. -/
def pathsOverlap (left right : Json) : Bool :=
  let l := normalizeScopePath left
  let r := normalizeScopePath right
  if l = "" || r = "" then false
  else if l = r then true
  else if List.isPrefixOf (r ++ "/").data l.data then true
  else if List.isPrefixOf (l ++ "/").data r.data then true
  else false

/-- A row of the `eligible` list built by `_maybe_autopromote_ready` (only
the fields the promotion loop reads). -/
structure EligibleItem where
  issue_number : Int
  project_item_id : String
deriving Repr, DecidableEq

/-- Observable outcome of one iteration of the promotion loop. -/
inductive PromotionEvent where
  | skippedDependency (issue dep : Int) (dep_status : String)
  | skippedConflict (issue other : Int) (path other_path : String)
  | posted (issue : Int) (project_item_id : String)
  | loggedDryRun (issue : Int) (project_item_id : String)
deriving Repr, DecidableEq

/-- The CHAINED gate's scan over `depends_on`: the first positive-int
dependency whose status is not `Done` (status `none` when unmapped). -/
def firstBlockedDep (status_by_issue : List (Int × String)) : List Json →
    Option (Int × Option String)
  | [] => none
  | .num d :: rest =>
      if d ≤ 0 then firstBlockedDep status_by_issue rest
      else
        match intGet status_by_issue d with
        | some "Done" => firstBlockedDep status_by_issue rest
        | st => some (d, st)
  | _ :: rest => firstBlockedDep status_by_issue rest

/-- The conflict gate's scan of one owned path against the reserved list. -/
def scanReserved (status_by_issue : List (Int × String)) (issue : Int)
    (isolation : String) (owned : Json) : List (Int × String) →
    Option (Int × String × String)
  | [] => none
  | (other_issue, other_path) :: rest =>
      if other_issue = issue then scanReserved status_by_issue issue isolation owned rest
      else if isolation = "CHAINED" && intGet status_by_issue other_issue = some "Done" then
        scanReserved status_by_issue issue isolation owned rest
      else if pathsOverlap owned (.str other_path) then
        some (other_issue, normalizeScopePath owned, other_path)
      else scanReserved status_by_issue issue isolation owned rest

def findConflict (status_by_issue : List (Int × String)) (issue : Int)
    (isolation : String) (reserved : List (Int × String)) : List Json →
    Option (Int × String × String)
  | [] => none
  | owned :: restOwns =>
      match scanReserved status_by_issue issue isolation owned reserved with
      | some c => some c
      | none => findConflict status_by_issue issue isolation reserved restOwns

/-- The dependency and conflict gates of the promotion loop (runner.py
833–886): `some event` when the item is skipped, `none` when it may be
promoted. Both gates run only when the item has a scope-plan meta dict. -/
def promotionGate (scope_plan : List (Int × List (String × Json)))
    (status_by_issue : List (Int × String)) (reserved : List (Int × String))
    (item : EligibleItem) : Option PromotionEvent :=
  match intGet scope_plan item.issue_number with
  | none => none
  | some meta =>
      let isolation_mode := pyUpper (pyStrip (pyStrOrEmpty (pyGet meta "isolation_mode")))
      let owns_paths := asListD (pyGet meta "owns_paths")
      let depGate :=
        if isolation_mode = "CHAINED" then
          match firstBlockedDep status_by_issue (asListD (pyGet meta "depends_on")) with
          | some (dep, st) =>
              some (PromotionEvent.skippedDependency item.issue_number dep (st.getD ""))
          | none => none
        else none
      match depGate with
      | some e => some e
      | none =>
          match findConflict status_by_issue item.issue_number isolation_mode reserved
              owns_paths with
          | some (other, path, other_path) =>
              some (.skippedConflict item.issue_number other path other_path)
          | none => none

/-- The reserved-path entries a real promotion of `item` appends (runner.py
923–928). -/
def reservePaths (scope_plan : List (Int × List (String × Json)))
    (item : EligibleItem) : List (Int × String) :=
  match intGet scope_plan item.issue_number with
  | none => []
  | some meta =>
      (asListD (pyGet meta "owns_paths")).filterMap fun owned =>
        let n := normalizeScopePath owned
        if n = "" then none else some (item.issue_number, n)

/-- The promotion loop of `_maybe_autopromote_ready` (runner.py 828–928) as
the list of observable events: the loop breaks once `promoted_count` reaches
the deficit; a gated item emits its skip event; otherwise a dry run logs and
continues *without* counting or reserving, while a real run POSTs, counts the
promotion, and appends the item's normalized owned paths to `reserved`. -/
def promotionLoop (scope_plan : List (Int × List (String × Json)))
    (status_by_issue : List (Int × String)) (dry_run : Bool) (deficit : Int) :
    List EligibleItem → Int → List (Int × String) → List PromotionEvent
  | [], _, _ => []
  | item :: rest, promoted_count, reserved =>
      if deficit ≤ promoted_count then []
      else
        match promotionGate scope_plan status_by_issue reserved item with
        | some evt =>
            evt :: promotionLoop scope_plan status_by_issue dry_run deficit rest
              promoted_count reserved
        | none =>
            if dry_run then
              .loggedDryRun item.issue_number item.project_item_id ::
                promotionLoop scope_plan status_by_issue dry_run deficit rest
                  promoted_count reserved
            else
              .posted item.issue_number item.project_item_id ::
                promotionLoop scope_plan status_by_issue dry_run deficit rest
                  (promoted_count + 1) (reserved ++ reservePaths scope_plan item)

/-- The spec's dry-run reading: a real run's POST replaced by a log event. -/
def postToDryLog : PromotionEvent → PromotionEvent
  | .posted i p => .loggedDryRun i p
  | e => e

def c8Eligible : List EligibleItem := [⟨1, "P1"⟩, ⟨2, "P2"⟩]

def c8ScopePlan : List (Int × List (String × Json)) :=
  [(1, [("owns_paths", Json.arr [Json.str "src/a"])]),
   (2, [("owns_paths", Json.arr [Json.str "src/a"])])]

/-- C8 (counterexample): dry-run promotion decisions differ from a real run's
with the POST replaced by a log event. With `deficit = 1` and two eligible
items, the real run promotes only the first while the dry run logs both; with
two items owning the same path, the real run promotes the first and skips the
second as a conflict with the just-reserved path, while the dry run logs
both. -/
theorem autopromote_dry_run_diverges :
    promotionLoop [] [] false 1 c8Eligible 0 [] = [.posted 1 "P1"] ∧
    promotionLoop [] [] true 1 c8Eligible 0 [] =
      [.loggedDryRun 1 "P1", .loggedDryRun 2 "P2"] ∧
    promotionLoop c8ScopePlan [] false 2 c8Eligible 0 [] =
      [.posted 1 "P1", .skippedConflict 2 1 "src/a" "src/a"] ∧
    promotionLoop c8ScopePlan [] true 2 c8Eligible 0 [] =
      [.loggedDryRun 1 "P1", .loggedDryRun 2 "P2"] ∧
    (promotionLoop [] [] false 1 c8Eligible 0 []).map postToDryLog ≠
      promotionLoop [] [] true 1 c8Eligible 0 [] ∧
    (promotionLoop c8ScopePlan [] false 2 c8Eligible 0 []).map postToDryLog ≠
      promotionLoop c8ScopePlan [] true 2 c8Eligible 0 [] :=
  ⟨rfl, rfl, rfl, rfl, by decide, by decide⟩

/-- C8 (amended): dry-run replaces each POST with a log event but neither
counts the promotion against the deficit nor reserves the item's owned paths;
as long as the deficit is not already exhausted it therefore emits, for
*every* eligible item, the gate outcome evaluated against the initial
reserved list — possibly more promotions than the deficit and including items
a real run would skip as conflicting with its own earlier promotions. -/
theorem autopromote_dry_run_semantics (scope_plan : List (Int × List (String × Json)))
    (status_by_issue : List (Int × String)) (deficit : Int) (eligible : List EligibleItem)
    (reserved : List (Int × String)) (count : Int) (h : count < deficit) :
    promotionLoop scope_plan status_by_issue true deficit eligible count reserved =
      eligible.map fun item =>
        (promotionGate scope_plan status_by_issue reserved item).getD
          (.loggedDryRun item.issue_number item.project_item_id) := by
  induction eligible with
  | nil => simp [promotionLoop]
  | cons item rest ih =>
    rw [promotionLoop]
    cases hg : promotionGate scope_plan status_by_issue reserved item <;>
      simp [show ¬ deficit ≤ count by omega, hg, ih]

theorem autopromote_dry_run_semantics_witness :
    promotionLoop c8ScopePlan [] true 1 c8Eligible 0 [] =
      [.loggedDryRun 1 "P1", .loggedDryRun 2 "P2"] := by
  rw [autopromote_dry_run_semantics c8ScopePlan [] 1 c8Eligible [] 0 (by omega)]
  rfl

/- ## Reviewer PASS post-processing (`Runner._handle_intent`, REVIEWER path) -/

/-- Lexicographic `≤` on Python 3-tuples of strings. -/
def tripleLe (a b : String × String × String) : Bool :=
  if a.1 = b.1 then
    if a.2.1 = b.2.1 then strLe a.2.2 b.2.2
    else strLe a.2.1 b.2.1
  else strLe a.1 b.1

/-- `Runner._resolve_project_item_id_for_issue` (runner.py 1208–1228): the
project item whose state entry last saw this issue number, preferring the
largest `(normalized last_seen_at, normalized status_since_at, id)` tuple. -/
def resolveProjectItemIdForIssue (items : List (String × Json)) (issue : Int) :
    Option String :=
  let found := items.filterMap fun kv =>
    match kv.2 with
    | .obj e =>
        if pyGet e "last_seen_issue_number" = some (.num issue) then
          some (normalizeIso (pyGet e "last_seen_at"),
                normalizeIso (pyGet e "status_since_at"), kv.1)
        else none
    | _ => none
  match (sortBy tripleLe found).getLast? with
  | some m => some m.2.2
  | none => none

/-- The field update posted by
`_transition_reviewer_pass_to_needs_human_approval` (only the fields the
claim inspects; the checklist texts are fixed strings). -/
structure NeedsHumanApprovalUpdate where
  project_item_id : String
  field : String
  value : String
  issue_number : Int
  pr_url : String
  run_id : String
deriving Repr, DecidableEq

/-- The REVIEWER `outcome == "PASS"` post-processing of
`Runner._handle_intent` (runner.py 2075–2107), given the backend's
resolve-linked-pr payload (`linkage`): the pair of (a) the project item id
recorded for the issue in orchestrator state — which the source resolves for
`review_cycle_count` book-keeping only — and (b) either the
`backend_invalid_payload` error or the posted `Needs Human Approval` update.
The posted update takes its `project_item_id` from `linkage` alone. -/
def reviewerPassPostProcess (stateItems : List (String × Json))
    (body : List (String × Json)) (linkage : List (String × Json)) (run_id : String) :
    Option String × Except String NeedsHumanApprovalUpdate :=
  let issue := pyGet body "issue_number"
  let recorded :=
    match issue with
    | some (.num i) => if 0 < i then resolveProjectItemIdForIssue stateItems i else none
    | _ => none
  match issue with
  | some (.num i) =>
      if i ≤ 0 then (recorded, .error "backend_invalid_payload")
      else
        match pyGet linkage "pr_url" with
        | some (.str u) =>
            if pyStrip u = "" then (recorded, .error "backend_invalid_payload")
            else
              match pyGet linkage "project_item_id" with
              | some (.str p) =>
                  if pyStrip p = "" then (recorded, .error "backend_invalid_payload")
                  else (recorded,
                        .ok ⟨pyStrip p, "Status", "Needs Human Approval", i,
                             pyStrip u, run_id⟩)
              | _ => (recorded, .error "backend_invalid_payload")
        | _ => (recorded, .error "backend_invalid_payload")
  | _ => (recorded, .error "backend_invalid_payload")

def c3StateItems : List (String × Json) :=
  [("PVTI_2", .obj [("last_seen_issue_number", .num 2),
                    ("last_seen_at", .str "2026-01-01T00:00:00Z"),
                    ("status_since_at", .str "2026-01-01T00:00:00Z")])]

/-- C3 (counterexample): the state records `PVTI_2` for issue 2, the backend
linkage returns `PVTI_OTHER` — and the handler still posts the
`Needs Human Approval` update, addressed to `PVTI_OTHER`, with no error: the
returned `project_item_id` is never compared with the recorded one. -/
theorem reviewer_pass_mismatched_linkage_still_posts :
    reviewerPassPostProcess c3StateItems
        [("role", .str "REVIEWER"), ("run_id", .str "run-7"), ("issue_number", .num 2)]
        [("pr_url", .str "https://example.test/pull/2"),
         ("project_item_id", .str "PVTI_OTHER")] "run-7" =
      (some "PVTI_2",
       .ok ⟨"PVTI_OTHER", "Status", "Needs Human Approval", 2,
            "https://example.test/pull/2", "run-7"⟩) ∧
    some "PVTI_2" ≠ some "PVTI_OTHER" :=
  ⟨rfl, by decide⟩

/-- C3 (amended): on a REVIEWER PASS the handler requires a positive integer
`issue_number` in the intent body and non-blank `pr_url` and
`project_item_id` strings in the resolved linkage, raising
`backend_invalid_payload` otherwise; when these hold it posts exactly one
`Status=Needs Human Approval` update built from the linkage's stripped
`project_item_id` and `pr_url` — independent of the project item id recorded
for the issue, which is never compared against the linkage. -/
theorem reviewer_pass_posts_from_linkage (stateItems other : List (String × Json))
    (body linkage : List (String × Json)) (run_id u p : String) (i : Int)
    (hissue : pyGet body "issue_number" = some (.num i)) (hpos : 0 < i)
    (hurl : pyGet linkage "pr_url" = some (.str u)) (hu : pyStrip u ≠ "")
    (hpid : pyGet linkage "project_item_id" = some (.str p)) (hp : pyStrip p ≠ "") :
    (reviewerPassPostProcess stateItems body linkage run_id).2 =
      .ok ⟨pyStrip p, "Status", "Needs Human Approval", i, pyStrip u, run_id⟩ ∧
    (reviewerPassPostProcess other body linkage run_id).2 =
      (reviewerPassPostProcess stateItems body linkage run_id).2 ∧
    (reviewerPassPostProcess stateItems body linkage run_id).1 =
      resolveProjectItemIdForIssue stateItems i := by
  refine ⟨?_, ?_, ?_⟩ <;>
    simp [reviewerPassPostProcess, hissue, show ¬ i ≤ 0 by omega, hurl, hu, hpid, hp]

theorem reviewer_pass_posts_from_linkage_witness :
    (reviewerPassPostProcess [] [("issue_number", .num 5)]
        [("pr_url", .str "https://example.test/pull/5"),
         ("project_item_id", .str "PVTI_5")] "run-9").2 =
      .ok ⟨"PVTI_5", "Status", "Needs Human Approval", 5,
           "https://example.test/pull/5", "run-9"⟩ := by
  have h := (reviewer_pass_posts_from_linkage [] [] [("issue_number", .num 5)]
      [("pr_url", .str "https://example.test/pull/5"),
       ("project_item_id", .str "PVTI_5")] "run-9"
      "https://example.test/pull/5" "PVTI_5" 5
      rfl (by omega) rfl (by decide) rfl (by decide)).1
  rw [h]
  rfl

/- ## `RunIntent.intent_hash`: canonical JSON and SHA-256 -/

def hexDigit (d : Nat) : Char :=
  if d < 10 then Char.ofNat (48 + d) else Char.ofNat (87 + d)

def hex4 (n : Nat) : List Char :=
  [hexDigit (n / 4096 % 16), hexDigit (n / 256 % 16), hexDigit (n / 16 % 16),
   hexDigit (n % 16)]

/-- `json.dumps(..., ensure_ascii=True)` escaping of one character: `"`/`\`
escape, the five short escapes, printable ASCII as itself, everything else as
`\uXXXX` (a surrogate pair for astral characters). -/
def escChar (c : Char) : List Char :=
  if c = '"' then ['\\', '"']
  else if c = '\\' then ['\\', '\\']
  else if c = '\x08' then ['\\', 'b']
  else if c = '\t' then ['\\', 't']
  else if c = '\n' then ['\\', 'n']
  else if c = '\x0c' then ['\\', 'f']
  else if c = '\x0d' then ['\\', 'r']
  else if 32 ≤ c.toNat && c.toNat ≤ 126 then [c]
  else if c.toNat < 65536 then '\\' :: 'u' :: hex4 c.toNat
  else
    let n := c.toNat - 65536
    '\\' :: 'u' :: hex4 (55296 + n / 1024) ++ '\\' :: 'u' :: hex4 (56320 + n % 1024)

/-- A JSON string literal: quote, escaped body, quote. -/
def serStr (s : String) : List Char :=
  '"' :: s.data.flatMap escChar ++ ['"']

def digitChar (d : Nat) : Char := Char.ofNat (48 + d)

/-- Decimal digits of a natural number (no leading zeros; `0` is `"0"`). -/
def natDigits (n : Nat) : List Char :=
  if _h : n < 10 then [digitChar n]
  else natDigits (n / 10) ++ [digitChar (n % 10)]
decreasing_by exact Nat.div_lt_self (by omega) (by omega)

/-- Python `repr` of an int. -/
def intSer (n : Int) : List Char :=
  if n < 0 then '-' :: natDigits (- n).toNat else natDigits n.toNat

mutual

/-- `json.dumps(v, sort_keys=True, separators=(",", ":"), ensure_ascii=True)`
on a value whose objects are *already* recursively key-sorted (see
`Json.canon`): minimal separators, ASCII escapes, stored key order. -/
def Json.ser : Json → List Char
  | .num n => intSer n
  | .null => ['n', 'u', 'l', 'l']
  | .str s => serStr s
  | .bool true => ['t', 'r', 'u', 'e']
  | .arr [] => ['[', ']']
  | .bool false => ['f', 'a', 'l', 's', 'e']
  | .arr (x :: xs) => '[' :: (Json.ser x ++ Json.serTail xs ++ [']'])
  | .obj [] => ['\x7b', '\x7d']
  | .obj ((k, v) :: kvs) =>
      '\x7b' :: (serStr k ++ ':' :: Json.ser v ++ Json.serPairsTail kvs ++ ['\x7d'])

def Json.serTail : List Json → List Char
  | [] => []
  | x :: xs => ',' :: Json.ser x ++ Json.serTail xs

def Json.serPairsTail : List (String × Json) → List Char
  | [] => []
  | (k, v) :: kvs => ',' :: (serStr k ++ ':' :: Json.ser v) ++ Json.serPairsTail kvs

end

/-- Order on object members by key, in Python's string order. -/
def pairLe (a b : String × Json) : Bool := strLe a.1 b.1

mutual

/-- Recursively sort every object's members by key: the shape
`json.dumps(..., sort_keys=True)` serializes. -/
def Json.canon : Json → Json
  | .null => .null
  | .bool b => .bool b
  | .num n => .num n
  | .str s => .str s
  | .arr xs => .arr (Json.canonList xs)
  | .obj kvs => .obj (sortBy pairLe (Json.canonPairs kvs))

def Json.canonList : List Json → List Json
  | [] => []
  | x :: xs => Json.canon x :: Json.canonList xs

def Json.canonPairs : List (String × Json) → List (String × Json)
  | [] => []
  | (k, v) :: kvs => (k, Json.canon v) :: Json.canonPairs kvs

end

/-- The canonical serialization of `RunIntent.intent_hash`:
`json.dumps(raw, sort_keys=True, separators=(",", ":"), ensure_ascii=True)`. -/
def canonicalJson (v : Json) : String := ⟨Json.ser (Json.canon v)⟩

def hexVal (c : Char) : Option Nat :=
  if 48 ≤ c.toNat && c.toNat ≤ 57 then some (c.toNat - 48)
  else if 97 ≤ c.toNat && c.toNat ≤ 102 then some (c.toNat - 87)
  else none

def readHex4 (a b c d : Char) : Option Nat :=
  match hexVal a, hexVal b, hexVal c, hexVal d with
  | some x1, some x2, some x3, some x4 => some (x1 * 4096 + x2 * 256 + x3 * 16 + x4)
  | _, _, _, _ => none

/-- Decoder for the body of a serialized string literal (everything after the
opening quote, up to and including the closing quote): the exact inverse of
`escChar`-encoding. Fuel bounds the number of decoded characters. -/
def parseStrChars : Nat → List Char → Option (List Char × List Char)
  | 0, _ => none
  | _ + 1, [] => none
  | fuel + 1, c :: rest =>
    if c = '"' then some ([], rest)
    else if c = '\\' then
      match rest with
      | [] => none
      | e :: r =>
        if e = '"' then (parseStrChars fuel r).map fun p => ('"' :: p.1, p.2)
        else if e = '\\' then (parseStrChars fuel r).map fun p => ('\\' :: p.1, p.2)
        else if e = 'b' then (parseStrChars fuel r).map fun p => ('\x08' :: p.1, p.2)
        else if e = 't' then (parseStrChars fuel r).map fun p => ('\t' :: p.1, p.2)
        else if e = 'n' then (parseStrChars fuel r).map fun p => ('\n' :: p.1, p.2)
        else if e = 'f' then (parseStrChars fuel r).map fun p => ('\x0c' :: p.1, p.2)
        else if e = 'r' then (parseStrChars fuel r).map fun p => ('\x0d' :: p.1, p.2)
        else if e = 'u' then
          match r with
          | h1 :: h2 :: h3 :: h4 :: r2 =>
            match readHex4 h1 h2 h3 h4 with
            | none => none
            | some n =>
              if 55296 ≤ n && n ≤ 56319 then
                match r2 with
                | a :: b :: g1 :: g2 :: g3 :: g4 :: r3 =>
                  if a = '\\' && b = 'u' then
                    match readHex4 g1 g2 g3 g4 with
                    | none => none
                    | some m =>
                      if 56320 ≤ m && m ≤ 57343 then
                        (parseStrChars fuel r3).map fun p =>
                          (Char.ofNat (65536 + (n - 55296) * 1024 + (m - 56320)) :: p.1,
                           p.2)
                      else none
                  else none
                | _ => none
              else if 56320 ≤ n && n ≤ 57343 then none
              else (parseStrChars fuel r2).map fun p => (Char.ofNat n :: p.1, p.2)
          | _ => none
        else none
    else (parseStrChars fuel rest).map fun p => (c :: p.1, p.2)

def parseDigitsAux : List Char → Nat → Nat × List Char
  | [], acc => (acc, [])
  | c :: rest, acc =>
      if c.isDigit then parseDigitsAux rest (acc * 10 + (c.toNat - 48))
      else (acc, c :: rest)

def parseNat : List Char → Option (Nat × List Char)
  | c :: rest => if c.isDigit then some (parseDigitsAux rest (c.toNat - 48)) else none
  | [] => none

mutual

/-- Recursive-descent reader of `Json.ser` output (no whitespace, minimal
separators); fuel bounds the recursion. -/
def parseVal : Nat → List Char → Option (Json × List Char)
  | 0, _ => none
  | _ + 1, [] => none
  | fuel + 1, c :: rest =>
    if c.isDigit then (parseNat (c :: rest)).map fun p => (.num (p.1 : Int), p.2)
    else if c = '-' then (parseNat rest).map fun p => (.num (- (p.1 : Int)), p.2)
    else if c = 'n' then
      match rest with
      | 'u' :: 'l' :: 'l' :: r => some (.null, r)
      | _ => none
    else if c = 't' then
      match rest with
      | 'r' :: 'u' :: 'e' :: r => some (.bool true, r)
      | _ => none
    else if c = 'f' then
      match rest with
      | 'a' :: 'l' :: 's' :: 'e' :: r => some (.bool false, r)
      | _ => none
    else if c = '"' then (parseStrChars fuel rest).map fun p => (.str ⟨p.1⟩, p.2)
    else if c = '[' then
      if rest.head? = some ']' then some (.arr [], rest.tail)
      else (parseElems fuel rest).map fun p => (.arr p.1, p.2)
    else if c = '\x7b' then
      if rest.head? = some '\x7d' then some (.obj [], rest.tail)
      else (parseMembers fuel rest).map fun p => (.obj p.1, p.2)
    else none

def parseElems : Nat → List Char → Option (List Json × List Char)
  | 0, _ => none
  | fuel + 1, cs =>
    match parseVal fuel cs with
    | none => none
    | some (v, r) =>
      match r with
      | ',' :: r2 => (parseElems fuel r2).map fun p => (v :: p.1, p.2)
      | ']' :: r2 => some ([v], r2)
      | _ => none

def parseMembers : Nat → List Char → Option (List (String × Json) × List Char)
  | 0, _ => none
  | fuel + 1, cs =>
    match cs with
    | '"' :: rest =>
      match parseStrChars fuel rest with
      | none => none
      | some (k, r) =>
        match r with
        | ':' :: r2 =>
          match parseVal fuel r2 with
          | none => none
          | some (v, r3) =>
            match r3 with
            | ',' :: r4 => (parseMembers fuel r4).map fun p => ((⟨k⟩, v) :: p.1, p.2)
            | '\x7d' :: r4 => some ([(⟨k⟩, v)], r4)
            | _ => none
        | _ => none
    | _ => none

end

mutual

/-- Fuel needed by `parseVal`: one unit per value plus one per list element. -/
def Json.fuelSize : Json → Nat
  | .null | .bool _ | .num _ => 1
  | .str s => 2 + s.data.length
  | .arr xs => 1 + Json.fuelSizeList xs
  | .obj kvs => 1 + Json.fuelSizePairs kvs

def Json.fuelSizeList : List Json → Nat
  | [] => 0
  | x :: xs => Json.fuelSize x + 1 + Json.fuelSizeList xs

def Json.fuelSizePairs : List (String × Json) → Nat
  | [] => 0
  | (k, v) :: kvs => k.data.length + 2 + Json.fuelSize v + Json.fuelSizePairs kvs

end

theorem digitChar_isDigit {d : Nat} (hd : d < 10) : (digitChar d).isDigit = true := by
  interval_cases d <;> decide

theorem digitChar_toNat {d : Nat} (hd : d < 10) : (digitChar d).toNat = 48 + d := by
  interval_cases d <;> decide

theorem natDigits_ne_nil (n : Nat) : natDigits n ≠ [] := by
  unfold natDigits
  split <;> simp

theorem natDigits_digits (n : Nat) : ∀ c ∈ natDigits n, c.isDigit = true := by
  induction n using Nat.strong_induction_on with
  | _ n ih =>
    unfold natDigits
    split
    · rename_i h
      intro c hc
      simp at hc
      subst hc
      exact digitChar_isDigit h
    · rename_i h
      intro c hc
      simp at hc
      rcases hc with hc | hc
      · exact ih (n / 10) (Nat.div_lt_self (by omega) (by omega)) c hc
      · subst hc
        exact digitChar_isDigit (Nat.mod_lt n (by omega))

def digitsVal (acc : Nat) (ds : List Char) : Nat :=
  ds.foldl (fun a c => a * 10 + (c.toNat - 48)) acc

theorem parseDigitsAux_spec (ds : List Char) (rest : List Char) (acc : Nat)
    (hds : ∀ c ∈ ds, c.isDigit = true)
    (hrest : ∀ c, rest.head? = some c → c.isDigit = false) :
    parseDigitsAux (ds ++ rest) acc = (digitsVal acc ds, rest) := by
  induction ds generalizing acc with
  | nil =>
    cases rest with
    | nil => rfl
    | cons c rest' =>
      have := hrest c rfl
      simp [parseDigitsAux, this, digitsVal]
  | cons c ds ih =>
    have hc := hds c (by simp)
    simp only [List.cons_append, parseDigitsAux, hc, if_true, digitsVal, List.foldl_cons]
    exact ih _ fun c' hc' => hds c' (by simp [hc'])

theorem digitsVal_natDigits (n : Nat) :
    ∀ acc, digitsVal acc (natDigits n) = acc * 10 ^ (natDigits n).length + n := by
  induction n using Nat.strong_induction_on with
  | _ n ih =>
    intro acc
    unfold natDigits
    split
    · rename_i h
      simp [digitsVal, digitChar_toNat h]
    · rename_i h
      have h10 : n / 10 < n := Nat.div_lt_self (by omega) (by omega)
      have hmod : n % 10 < 10 := Nat.mod_lt n (by omega)
      simp only [digitsVal, List.foldl_append, List.foldl_cons, List.foldl_nil,
        List.length_append, List.length_cons, List.length_nil]
      have hih := ih (n / 10) h10 acc
      simp only [digitsVal] at hih
      rw [hih, digitChar_toNat hmod]
      have hdm : 48 + n % 10 - 48 = n % 10 := by omega
      rw [hdm, pow_succ]
      rw [show (acc * 10 ^ (natDigits (n / 10)).length + n / 10) * 10 + n % 10 =
        acc * (10 ^ (natDigits (n / 10)).length * 10) + (n / 10 * 10 + n % 10) from by ring,
        show n / 10 * 10 + n % 10 = n from by omega]

theorem parseNat_natDigits (n : Nat) (rest : List Char)
    (hrest : ∀ c, rest.head? = some c → c.isDigit = false) :
    parseNat (natDigits n ++ rest) = some (n, rest) := by
  obtain ⟨c, ds, hds⟩ : ∃ c ds, natDigits n = c :: ds := by
    cases h : natDigits n with
    | nil => exact absurd h (natDigits_ne_nil n)
    | cons c ds => exact ⟨c, ds, rfl⟩
  have hcd : c.isDigit = true := natDigits_digits n c (by rw [hds]; simp)
  rw [hds]
  simp only [List.cons_append, parseNat, hcd, if_true]
  rw [parseDigitsAux_spec ds rest _ (fun c' hc' => natDigits_digits n c' (by rw [hds]; simp [hc'])) hrest]
  have hv := digitsVal_natDigits n 0
  rw [hds] at hv
  simp only [digitsVal, List.foldl_cons, List.length_cons, Nat.zero_mul, Nat.zero_add] at hv ⊢
  rw [hv]

theorem hexVal_hexDigit {d : Nat} (hd : d < 16) : hexVal (hexDigit d) = some d := by
  interval_cases d <;> decide

theorem readHex4_hex4 {n : Nat} (h : n < 65536) :
    readHex4 (hexDigit (n / 4096 % 16)) (hexDigit (n / 256 % 16))
      (hexDigit (n / 16 % 16)) (hexDigit (n % 16)) = some n := by
  rw [readHex4, hexVal_hexDigit (by omega), hexVal_hexDigit (by omega),
    hexVal_hexDigit (by omega), hexVal_hexDigit (by omega)]
  simp only [Option.bind_some, Option.pure_def, Option.some.injEq]
  omega

/-- A character's code point, as constrained by `Char.valid`. -/
theorem char_toNat_valid (c : Char) :
    c.toNat < 55296 ∨ (57343 < c.toNat ∧ c.toNat < 1114112) := by
  have hv := c.valid
  exact hv

theorem toNat_ofNat_valid {n : Nat} (h : n.isValidChar) : (Char.ofNat n).toNat = n := by
  unfold Char.ofNat
  rw [dif_pos h]
  rfl

theorem parseStrChars_quote (fuel : Nat) (rest : List Char) :
    parseStrChars (fuel + 1) ('"' :: rest) = some ([], rest) := by
  simp [parseStrChars]

theorem parseStrChars_plain (fuel : Nat) (c : Char) (h1 : c ≠ '"') (h2 : c ≠ '\\')
    (tail : List Char) :
    parseStrChars (fuel + 1) (c :: tail) =
      (parseStrChars fuel tail).map fun p => (c :: p.1, p.2) := by
  simp only [parseStrChars, if_neg h1, if_neg h2]

theorem parseStrChars_esc (fuel : Nat) (e d : Char) (tail : List Char)
    (he : (e, d) ∈ [('"', '"'), ('\\', '\\'), ('b', '\x08'), ('t', '\t'), ('n', '\n'),
      ('f', '\x0c'), ('r', '\x0d')]) :
    parseStrChars (fuel + 1) ('\\' :: e :: tail) =
      (parseStrChars fuel tail).map fun p => (d :: p.1, p.2) := by
  fin_cases he <;> simp [parseStrChars]

theorem escChar_printable {c : Char} (h1 : ¬ c = '"') (h2 : ¬ c = '\\') (h3 : ¬ c = '\x08')
    (h4 : ¬ c = '\t') (h5 : ¬ c = '\n') (h6 : ¬ c = '\x0c') (h7 : ¬ c = '\x0d')
    (h8 : (32 ≤ c.toNat && c.toNat ≤ 126) = true) : escChar c = [c] := by
  unfold escChar
  simp only [h1, h2, h3, h4, h5, h6, h7, h8, if_false, if_true]

theorem escChar_u {c : Char} (h1 : ¬ c = '"') (h2 : ¬ c = '\\') (h3 : ¬ c = '\x08')
    (h4 : ¬ c = '\t') (h5 : ¬ c = '\n') (h6 : ¬ c = '\x0c') (h7 : ¬ c = '\x0d')
    (h8 : ¬ (32 ≤ c.toNat && c.toNat ≤ 126) = true) (h9 : c.toNat < 65536) :
    escChar c = '\\' :: 'u' :: hex4 c.toNat := by
  unfold escChar
  simp [h1, h2, h3, h4, h5, h6, h7, h8, h9]

theorem escChar_astral {c : Char} (h1 : ¬ c = '"') (h2 : ¬ c = '\\') (h3 : ¬ c = '\x08')
    (h4 : ¬ c = '\t') (h5 : ¬ c = '\n') (h6 : ¬ c = '\x0c') (h7 : ¬ c = '\x0d')
    (h8 : ¬ (32 ≤ c.toNat && c.toNat ≤ 126) = true) (h9 : ¬ c.toNat < 65536) :
    escChar c = '\\' :: 'u' :: hex4 (55296 + (c.toNat - 65536) / 1024) ++
      '\\' :: 'u' :: hex4 (56320 + (c.toNat - 65536) % 1024) := by
  unfold escChar
  simp [h1, h2, h3, h4, h5, h6, h7, h8, h9]

theorem parseStrChars_u (fuel n : Nat) (tail : List Char) (hn : n < 65536)
    (hvalid : n < 55296 ∨ 57343 < n) :
    parseStrChars (fuel + 1) ('\\' :: 'u' :: (hex4 n ++ tail)) =
      (parseStrChars fuel tail).map fun p => (Char.ofNat n :: p.1, p.2) := by
  have e1 := @readHex4_hex4 n hn
  have hs1 : (55296 ≤ n && n ≤ 56319) = false := by
    simp only [Bool.and_eq_false_iff, decide_eq_false_iff_not]
    omega
  have hs2 : (56320 ≤ n && n ≤ 57343) = false := by
    simp only [Bool.and_eq_false_iff, decide_eq_false_iff_not]
    omega
  simp only [hex4, List.cons_append, List.nil_append]
  simp only [parseStrChars]
  simp only [if_neg (show ¬ ('\\' : Char) = '"' by decide), if_pos rfl,
    if_neg (show ¬ ('u' : Char) = '"' by decide), if_neg (show ¬ ('u' : Char) = '\\' by decide),
    if_neg (show ¬ ('u' : Char) = 'b' by decide), if_neg (show ¬ ('u' : Char) = 't' by decide),
    if_neg (show ¬ ('u' : Char) = 'n' by decide), if_neg (show ¬ ('u' : Char) = 'f' by decide),
    if_neg (show ¬ ('u' : Char) = 'r' by decide)]
  rw [e1]
  simp only [hs1, hs2, Bool.false_eq_true, if_false, if_true]

theorem parseStrChars_surrogates (fuel hi lo : Nat) (tail : List Char)
    (hhi1 : 55296 ≤ hi) (hhi2 : hi ≤ 56319) (hlo1 : 56320 ≤ lo) (hlo2 : lo ≤ 57343) :
    parseStrChars (fuel + 1) ('\\' :: 'u' :: (hex4 hi ++ '\\' :: 'u' :: hex4 lo ++ tail)) =
      (parseStrChars fuel tail).map fun p =>
        (Char.ofNat (65536 + (hi - 55296) * 1024 + (lo - 56320)) :: p.1, p.2) := by
  have e1 := @readHex4_hex4 hi (by omega)
  have e2 := @readHex4_hex4 lo (by omega)
  have hhi : (55296 ≤ hi && hi ≤ 56319) = true := by
    simp only [Bool.and_eq_true, decide_eq_true_eq]
    omega
  have hlo : (56320 ≤ lo && lo ≤ 57343) = true := by
    simp only [Bool.and_eq_true, decide_eq_true_eq]
    omega
  simp only [hex4, List.cons_append, List.nil_append, List.append_assoc]
  simp only [parseStrChars]
  simp only [if_neg (show ¬ ('\\' : Char) = '"' by decide), if_pos rfl,
    if_neg (show ¬ ('u' : Char) = '"' by decide), if_neg (show ¬ ('u' : Char) = '\\' by decide),
    if_neg (show ¬ ('u' : Char) = 'b' by decide), if_neg (show ¬ ('u' : Char) = 't' by decide),
    if_neg (show ¬ ('u' : Char) = 'n' by decide), if_neg (show ¬ ('u' : Char) = 'f' by decide),
    if_neg (show ¬ ('u' : Char) = 'r' by decide)]
  rw [e1]
  simp only [hhi, if_true]
  rw [e2]
  simp only [hlo, if_true]
  simp

theorem parseStrChars_escape (cs : List Char) : ∀ (fuel : Nat) (rest : List Char),
    cs.length < fuel →
    parseStrChars fuel (cs.flatMap escChar ++ '"' :: rest) = some (cs, rest) := by
  induction cs with
  | nil =>
    intro fuel rest h
    cases fuel with
    | zero => omega
    | succ f =>
      simp only [List.flatMap_nil, List.nil_append]
      exact parseStrChars_quote f rest
  | cons c cs ih =>
    intro fuel rest h
    cases fuel with
    | zero => omega
    | succ f =>
      have hf : cs.length < f := by simp at h; omega
      have hval := char_toNat_valid c
      simp only [List.flatMap_cons, List.append_assoc]
      by_cases h1 : c = '"'
      · subst h1
        rw [show escChar '"' = ['\\', '"'] from by decide]
        simp only [List.cons_append, List.nil_append]
        rw [parseStrChars_esc f '"' '"' _ (by simp), ih f rest hf]
        rfl
      · by_cases h2 : c = '\\'
        · subst h2
          rw [show escChar '\\' = ['\\', '\\'] from by decide]
          simp only [List.cons_append, List.nil_append]
          rw [parseStrChars_esc f '\\' '\\' _ (by simp), ih f rest hf]
          rfl
        · by_cases h3 : c = '\x08'
          · subst h3
            rw [show escChar '\x08' = ['\\', 'b'] from by decide]
            simp only [List.cons_append, List.nil_append]
            rw [parseStrChars_esc f 'b' '\x08' _ (by simp), ih f rest hf]
            rfl
          · by_cases h4 : c = '\t'
            · subst h4
              rw [show escChar '\t' = ['\\', 't'] from by decide]
              simp only [List.cons_append, List.nil_append]
              rw [parseStrChars_esc f 't' '\t' _ (by simp), ih f rest hf]
              rfl
            · by_cases h5 : c = '\n'
              · subst h5
                rw [show escChar '\n' = ['\\', 'n'] from by decide]
                simp only [List.cons_append, List.nil_append]
                rw [parseStrChars_esc f 'n' '\n' _ (by simp), ih f rest hf]
                rfl
              · by_cases h6 : c = '\x0c'
                · subst h6
                  rw [show escChar '\x0c' = ['\\', 'f'] from by decide]
                  simp only [List.cons_append, List.nil_append]
                  rw [parseStrChars_esc f 'f' '\x0c' _ (by simp), ih f rest hf]
                  rfl
                · by_cases h7 : c = '\x0d'
                  · subst h7
                    rw [show escChar '\x0d' = ['\\', 'r'] from by decide]
                    simp only [List.cons_append, List.nil_append]
                    rw [parseStrChars_esc f 'r' '\x0d' _ (by simp), ih f rest hf]
                    rfl
                  · by_cases h8 : (32 ≤ c.toNat && c.toNat ≤ 126) = true
                    · rw [escChar_printable h1 h2 h3 h4 h5 h6 h7 h8]
                      simp only [List.cons_append, List.nil_append]
                      rw [parseStrChars_plain f c h1 h2, ih f rest hf]
                      rfl
                    · by_cases h9 : c.toNat < 65536
                      · rw [escChar_u h1 h2 h3 h4 h5 h6 h7 h8 h9]
                        simp only [List.cons_append, List.append_assoc]
                        rw [parseStrChars_u f c.toNat _ h9 (by omega), ih f rest hf]
                        simp [Char.ofNat_toNat]
                      · rw [escChar_astral h1 h2 h3 h4 h5 h6 h7 h8 h9]
                        simp only [List.cons_append, List.append_assoc]
                        have hs := parseStrChars_surrogates f
                            (55296 + (c.toNat - 65536) / 1024)
                            (56320 + (c.toNat - 65536) % 1024)
                            (cs.flatMap escChar ++ '"' :: rest)
                            (by omega) (by omega) (by omega) (by omega)
                        simp only [List.cons_append, List.append_assoc] at hs
                        rw [hs, ih f rest hf]
                        rw [show 65536 + (55296 + (c.toNat - 65536) / 1024 - 55296) * 1024 +
                            (56320 + (c.toNat - 65536) % 1024 - 56320) = c.toNat from by omega]
                        simp [Char.ofNat_toNat]

theorem Json.fuelSize_pos (v : Json) : 1 ≤ Json.fuelSize v := by
  cases v <;> simp only [Json.fuelSize] <;> omega

theorem natDigits_head (n : Nat) :
    ∃ c ds, natDigits n = c :: ds ∧ c.isDigit = true := by
  cases h : natDigits n with
  | nil => exact absurd h (natDigits_ne_nil n)
  | cons c ds =>
    exact ⟨c, ds, rfl, natDigits_digits n c (by rw [h]; simp)⟩

theorem isDigit_ne_close {c : Char} (h : c.isDigit = true) :
    ¬ c = ']' ∧ ¬ c = '\x7d' := by
  constructor <;> intro hc <;> subst hc <;> simp [Char.isDigit] at h

/-- `Json.ser` never starts with a close bracket/brace, so the parser's
empty-collection shortcuts never misfire on a serialized element. -/
theorem serHead_ne_close (v : Json) (t : List Char) :
    ¬ (Json.ser v ++ t).head? = some ']' ∧ ¬ (Json.ser v ++ t).head? = some '\x7d' := by
  cases v with
  | null => simp [Json.ser]
  | bool b => cases b <;> simp [Json.ser]
  | num n =>
    simp only [Json.ser, intSer]
    by_cases hn : n < 0
    · simp [hn]
    · simp only [hn, if_false]
      obtain ⟨c, ds, hds, hc⟩ := natDigits_head n.toNat
      rw [hds]
      simpa using isDigit_ne_close hc
  | str s => simp [Json.ser, serStr]
  | arr xs => cases xs <;> simp [Json.ser]
  | obj kvs =>
    cases kvs with
    | nil => simp [Json.ser]
    | cons kv kvs => cases kv; simp [Json.ser]

theorem restOk_serTail (xs : List Json) (rest : List Char) :
    ∀ c, (Json.serTail xs ++ ']' :: rest).head? = some c → c.isDigit = false := by
  cases xs with
  | nil =>
    intro c hc
    simp [Json.serTail] at hc
    subst hc
    decide
  | cons x xs =>
    intro c hc
    simp [Json.serTail] at hc
    subst hc
    decide

theorem restOk_serPairsTail (kvs : List (String × Json)) (rest : List Char) :
    ∀ c, (Json.serPairsTail kvs ++ '\x7d' :: rest).head? = some c → c.isDigit = false := by
  cases kvs with
  | nil =>
    intro c hc
    simp [Json.serPairsTail] at hc
    subst hc
    decide
  | cons kv kvs =>
    cases kv
    intro c hc
    simp [Json.serPairsTail] at hc
    subst hc
    decide

theorem parseVal_null (f : Nat) (rest : List Char) :
    parseVal (f + 1) ('n' :: 'u' :: 'l' :: 'l' :: rest) = some (.null, rest) := by
  simp [parseVal]

theorem parseVal_true (f : Nat) (rest : List Char) :
    parseVal (f + 1) ('t' :: 'r' :: 'u' :: 'e' :: rest) = some (.bool true, rest) := by
  simp [parseVal]

theorem parseVal_false (f : Nat) (rest : List Char) :
    parseVal (f + 1) ('f' :: 'a' :: 'l' :: 's' :: 'e' :: rest) = some (.bool false, rest) := by
  simp [parseVal]

theorem parseVal_digit (f : Nat) (c : Char) (hc : c.isDigit = true) (cs : List Char) :
    parseVal (f + 1) (c :: cs) = (parseNat (c :: cs)).map fun p => (.num (p.1 : Int), p.2) := by
  simp [parseVal, hc]

theorem parseVal_neg (f : Nat) (cs : List Char) :
    parseVal (f + 1) ('-' :: cs) = (parseNat cs).map fun p => (.num (- (p.1 : Int)), p.2) := by
  simp [parseVal]

theorem parseVal_str (f : Nat) (s : List Char) :
    parseVal (f + 1) ('"' :: s) = (parseStrChars f s).map fun p => (.str ⟨p.1⟩, p.2) := by
  simp [parseVal]

theorem parseVal_arrnil (f : Nat) (rest : List Char) :
    parseVal (f + 1) ('[' :: ']' :: rest) = some (.arr [], rest) := by
  simp [parseVal]

theorem parseVal_arrcons (f : Nat) (cs : List Char) (h : ¬ cs.head? = some ']') :
    parseVal (f + 1) ('[' :: cs) = (parseElems f cs).map fun p => (.arr p.1, p.2) := by
  simp [parseVal, h]

theorem parseVal_objnil (f : Nat) (rest : List Char) :
    parseVal (f + 1) ('\x7b' :: '\x7d' :: rest) = some (.obj [], rest) := by
  simp [parseVal]

theorem parseVal_objcons (f : Nat) (cs : List Char) (h : ¬ cs.head? = some '\x7d') :
    parseVal (f + 1) ('\x7b' :: cs) = (parseMembers f cs).map fun p => (.obj p.1, p.2) := by
  simp [parseVal, h]

theorem parseElems_last (f : Nat) (cs : List Char) (v : Json) (r2 : List Char)
    (hv : parseVal f cs = some (v, ']' :: r2)) :
    parseElems (f + 1) cs = some ([v], r2) := by
  simp [parseElems, hv]

theorem parseElems_more (f : Nat) (cs : List Char) (v : Json) (r2 : List Char)
    (hv : parseVal f cs = some (v, ',' :: r2)) :
    parseElems (f + 1) cs = (parseElems f r2).map fun p => (v :: p.1, p.2) := by
  simp [parseElems, hv]

theorem parseMembers_last (f : Nat) (cs k r2 : List Char) (v : Json) (r4 : List Char)
    (hk : parseStrChars f cs = some (k, ':' :: r2))
    (hv : parseVal f r2 = some (v, '\x7d' :: r4)) :
    parseMembers (f + 1) ('"' :: cs) = some ([(⟨k⟩, v)], r4) := by
  simp [parseMembers, hk, hv]

theorem parseMembers_more (f : Nat) (cs k r2 : List Char) (v : Json) (r4 : List Char)
    (hk : parseStrChars f cs = some (k, ':' :: r2))
    (hv : parseVal f r2 = some (v, ',' :: r4)) :
    parseMembers (f + 1) ('"' :: cs) =
      (parseMembers f r4).map fun p => ((⟨k⟩, v) :: p.1, p.2) := by
  simp [parseMembers, hk, hv]

/-- Round-trip: with fuel at least the value's `fuelSize` and a continuation
that does not begin with a digit, `parseVal` inverts `Json.ser` (and the
element/member readers invert the tail serializers). -/
theorem parse_ser_all : ∀ fuel : Nat,
    (∀ (v : Json) (rest : List Char), Json.fuelSize v ≤ fuel →
      (∀ c, rest.head? = some c → c.isDigit = false) →
      parseVal fuel (Json.ser v ++ rest) = some (v, rest)) ∧
    (∀ (x : Json) (xs : List Json) (rest : List Char),
      Json.fuelSizeList (x :: xs) ≤ fuel →
      (∀ c, rest.head? = some c → c.isDigit = false) →
      parseElems fuel (Json.ser x ++ (Json.serTail xs ++ ']' :: rest)) =
        some (x :: xs, rest)) ∧
    (∀ (k : String) (v : Json) (kvs : List (String × Json)) (rest : List Char),
      Json.fuelSizePairs ((k, v) :: kvs) ≤ fuel →
      (∀ c, rest.head? = some c → c.isDigit = false) →
      parseMembers fuel
          (serStr k ++ ':' :: (Json.ser v ++ (Json.serPairsTail kvs ++ '\x7d' :: rest))) =
        some ((k, v) :: kvs, rest)) := by
  intro fuel
  induction fuel with
  | zero =>
    refine ⟨fun v rest hv _ => absurd hv ?_,
            fun x xs rest hx _ => absurd hx ?_,
            fun k v kvs rest hk _ => absurd hk ?_⟩
    · have := Json.fuelSize_pos v
      omega
    · have := Json.fuelSize_pos x
      simp only [Json.fuelSizeList]
      omega
    · have := Json.fuelSize_pos v
      simp only [Json.fuelSizePairs]
      omega
  | succ f ih =>
    obtain ⟨ihP, ihQ, ihR⟩ := ih
    refine ⟨?_, ?_, ?_⟩
    · intro v rest hv hrest
      cases v with
      | null =>
        simpa [Json.ser] using parseVal_null f rest
      | bool b =>
        cases b
        · simpa [Json.ser] using parseVal_false f rest
        · simpa [Json.ser] using parseVal_true f rest
      | num n =>
        simp only [Json.ser, intSer]
        by_cases hn : n < 0
        · simp only [hn, if_true, List.cons_append]
          obtain ⟨c, ds, hds, hc⟩ := natDigits_head (-n).toNat
          have hpn := parseNat_natDigits (-n).toNat rest hrest
          rw [hds] at hpn ⊢
          simp only [List.cons_append] at hpn ⊢
          rw [parseVal_neg f _, hpn]
          simp only [Option.map_some', Option.some.injEq, Prod.mk.injEq, Json.num.injEq]
          exact ⟨by omega, trivial⟩
        · simp only [hn, if_false]
          obtain ⟨c, ds, hds, hc⟩ := natDigits_head n.toNat
          have hpn := parseNat_natDigits n.toNat rest hrest
          rw [hds] at hpn ⊢
          simp only [List.cons_append] at hpn ⊢
          rw [parseVal_digit f c hc _, hpn]
          simp only [Option.map_some', Option.some.injEq, Prod.mk.injEq, Json.num.injEq]
          exact ⟨by omega, trivial⟩
      | str s =>
        have hsh : Json.ser (.str s) ++ rest =
            '"' :: (s.data.flatMap escChar ++ '"' :: rest) := by
          simp [Json.ser, serStr]
        rw [hsh, parseVal_str f _,
          parseStrChars_escape s.data f rest
            (by simp only [Json.fuelSize] at hv; omega)]
        rfl
      | arr xs =>
        cases xs with
        | nil =>
          simpa [Json.ser] using parseVal_arrnil f rest
        | cons x xs =>
          have hsh : Json.ser (.arr (x :: xs)) ++ rest =
              '[' :: (Json.ser x ++ (Json.serTail xs ++ ']' :: rest)) := by
            simp [Json.ser]
          rw [hsh, parseVal_arrcons f _ (serHead_ne_close x _).1,
            ihQ x xs rest (by simp only [Json.fuelSize] at hv; omega) hrest]
          rfl
      | obj kvs =>
        cases kvs with
        | nil =>
          simpa [Json.ser] using parseVal_objnil f rest
        | cons kv kvs =>
          obtain ⟨k, v⟩ := kv
          have hsh : Json.ser (.obj ((k, v) :: kvs)) ++ rest =
              '\x7b' :: (serStr k ++
                ':' :: (Json.ser v ++ (Json.serPairsTail kvs ++ '\x7d' :: rest))) := by
            simp [Json.ser]
          have hq : ¬ (serStr k ++
              ':' :: (Json.ser v ++
                (Json.serPairsTail kvs ++ '\x7d' :: rest))).head? = some '\x7d' := by
            simp only [serStr, List.cons_append, List.head?_cons]
            decide
          rw [hsh, parseVal_objcons f _ hq,
            ihR k v kvs rest (by simp only [Json.fuelSize] at hv; omega) hrest]
          rfl
    · intro x xs rest hx hrest
      simp only [Json.fuelSizeList] at hx
      have hx1 := Json.fuelSize_pos x
      cases xs with
      | nil =>
        have hP := ihP x (']' :: rest) (by omega)
          (by intro c hc; simp at hc; subst hc; decide)
        simp only [Json.serTail, List.nil_append]
        exact parseElems_last f _ x rest hP
      | cons y ys =>
        have hP := ihP x (',' :: (Json.ser y ++ (Json.serTail ys ++ ']' :: rest)))
          (by omega)
          (by intro c hc; simp at hc; subst hc; decide)
        have hQ := ihQ y ys rest (by simp only [Json.fuelSizeList] at hx ⊢; omega) hrest
        have hsh : Json.ser x ++ (Json.serTail (y :: ys) ++ ']' :: rest) =
            Json.ser x ++ (',' :: (Json.ser y ++ (Json.serTail ys ++ ']' :: rest))) := by
          simp [Json.serTail]
        rw [hsh, parseElems_more f _ x _ hP, hQ]
        rfl
    · intro k v kvs rest hk hrest
      simp only [Json.fuelSizePairs] at hk
      have hv1 := Json.fuelSize_pos v
      cases kvs with
      | nil =>
        have hstr := parseStrChars_escape k.data f
          (':' :: (Json.ser v ++ '\x7d' :: rest)) (by omega)
        have hP := ihP v ('\x7d' :: rest) (by omega)
          (by intro c hc; simp at hc; subst hc; decide)
        have hsh : serStr k ++
            ':' :: (Json.ser v ++ (Json.serPairsTail [] ++ '\x7d' :: rest)) =
            '"' :: (k.data.flatMap escChar ++
              '"' :: (':' :: (Json.ser v ++ '\x7d' :: rest))) := by
          simp [serStr, Json.serPairsTail]
        rw [hsh]
        exact parseMembers_last f _ k.data _ v rest hstr hP
      | cons kv2 kvs2 =>
        obtain ⟨k2, v2⟩ := kv2
        have hstr := parseStrChars_escape k.data f
          (':' :: (Json.ser v ++
            (',' :: (serStr k2 ++
              ':' :: (Json.ser v2 ++ (Json.serPairsTail kvs2 ++ '\x7d' :: rest))))))
          (by omega)
        have hP := ihP v
          (',' :: (serStr k2 ++
            ':' :: (Json.ser v2 ++ (Json.serPairsTail kvs2 ++ '\x7d' :: rest))))
          (by omega)
          (by intro c hc; simp at hc; subst hc; decide)
        have hR := ihR k2 v2 kvs2 rest
          (by simp only [Json.fuelSizePairs] at hk ⊢; omega) hrest
        have hsh : serStr k ++
            ':' :: (Json.ser v ++ (Json.serPairsTail ((k2, v2) :: kvs2) ++ '\x7d' :: rest)) =
            '"' :: (k.data.flatMap escChar ++
              '"' :: (':' :: (Json.ser v ++
                (',' :: (serStr k2 ++
                  ':' :: (Json.ser v2 ++
                    (Json.serPairsTail kvs2 ++ '\x7d' :: rest))))))) := by
          simp [serStr, Json.serPairsTail]
        rw [hsh, parseMembers_more f _ k.data _ v _ hstr hP, hR]
        rfl

/-- UTF-8 encoding of a string, as byte values (`canonical.encode("utf-8")`);
canonical JSON is pure ASCII, where this is the identity on code points. -/
def utf8Bytes (s : String) : List Nat :=
  s.data.flatMap fun c =>
    let n := c.toNat
    if n < 128 then [n]
    else if n < 2048 then [192 + n / 64, 128 + n % 64]
    else if n < 65536 then [224 + n / 4096, 128 + n / 64 % 64, 128 + n % 64]
    else [240 + n / 262144, 128 + n / 4096 % 64, 128 + n / 64 % 64, 128 + n % 64]

/-- Right-rotation of a 32-bit word. -/
def rotr32 (n x : Nat) : Nat :=
  (x / 2 ^ n + x % 2 ^ n * 2 ^ (32 - n)) % 4294967296

def ssig0 (x : Nat) : Nat := rotr32 7 x ^^^ rotr32 18 x ^^^ (x >>> 3)

def ssig1 (x : Nat) : Nat := rotr32 17 x ^^^ rotr32 19 x ^^^ (x >>> 10)

def bsig0 (x : Nat) : Nat := rotr32 2 x ^^^ rotr32 13 x ^^^ rotr32 22 x

def bsig1 (x : Nat) : Nat := rotr32 6 x ^^^ rotr32 11 x ^^^ rotr32 25 x

/-- Big-endian 32-bit words from a byte list. -/
def toWords : List Nat → List Nat
  | b0 :: b1 :: b2 :: b3 :: rest =>
      (b0 * 16777216 + b1 * 65536 + b2 * 256 + b3) :: toWords rest
  | _ => []

def sha256K : List Nat :=
  [1116352408, 1899447441, 3049323471, 3921009573, 961987163, 1508970993,
   2453635748, 2870763221, 3624381080, 310598401, 607225278, 1426881987,
   1925078388, 2162078206, 2614888103, 3248222580, 3835390401, 4022224774,
   264347078, 604807628, 770255983, 1249150122, 1555081692, 1996064986,
   2554220882, 2821834349, 2952996808, 3210313671, 3336571891, 3584528711,
   113926993, 338241895, 666307205, 773529912, 1294757372, 1396182291,
   1695183700, 1986661051, 2177026350, 2456956037, 2730485921, 2820302411,
   3259730800, 3345764771, 3516065817, 3600352804, 4094571909, 275423344,
   430227734, 506948616, 659060556, 883997877, 958139571, 1322822218,
   1537002063, 1747873779, 1955562222, 2024104815, 2227730452, 2361852424,
   2428436474, 2756734187, 3204031479, 3329325298]

def sha256H0 : List Nat :=
  [1779033703, 3144134277, 1013904242, 2773480762,
   1359893119, 2600822924, 528734635, 1541459225]

/-- Message-schedule extension: 16 words grow to 64. -/
def extendW (w16 : List Nat) : List Nat :=
  (List.range 48).foldl (fun w _ =>
    let n := w.length
    w ++ [(ssig1 (w.getD (n - 2) 0) + w.getD (n - 7) 0 + ssig0 (w.getD (n - 15) 0) +
      w.getD (n - 16) 0) % 4294967296]) w16

/-- One SHA-256 compression round over a 64-byte chunk. -/
def sha256Compress (h : List Nat) (chunk : List Nat) : List Nat :=
  let w := extendW (toWords chunk)
  let s := (sha256K.zip w).foldl
    (fun (s : Nat × Nat × Nat × Nat × Nat × Nat × Nat × Nat) kw =>
      let a := s.1
      let b := s.2.1
      let c := s.2.2.1
      let d := s.2.2.2.1
      let e := s.2.2.2.2.1
      let f := s.2.2.2.2.2.1
      let g := s.2.2.2.2.2.2.1
      let hh := s.2.2.2.2.2.2.2
      let ch := (e &&& f) ^^^ ((e ^^^ 4294967295) &&& g)
      let t1 := (hh + bsig1 e + ch + kw.1 + kw.2) % 4294967296
      let mj := (a &&& b) ^^^ (a &&& c) ^^^ (b &&& c)
      let t2 := (bsig0 a + mj) % 4294967296
      ((t1 + t2) % 4294967296, a, b, c, (d + t1) % 4294967296, e, f, g))
    (h.getD 0 0, h.getD 1 0, h.getD 2 0, h.getD 3 0,
     h.getD 4 0, h.getD 5 0, h.getD 6 0, h.getD 7 0)
  [(h.getD 0 0 + s.1) % 4294967296, (h.getD 1 0 + s.2.1) % 4294967296,
   (h.getD 2 0 + s.2.2.1) % 4294967296, (h.getD 3 0 + s.2.2.2.1) % 4294967296,
   (h.getD 4 0 + s.2.2.2.2.1) % 4294967296, (h.getD 5 0 + s.2.2.2.2.2.1) % 4294967296,
   (h.getD 6 0 + s.2.2.2.2.2.2.1) % 4294967296,
   (h.getD 7 0 + s.2.2.2.2.2.2.2) % 4294967296]

/-- SHA-256 padding: `0x80`, zeros to 56 mod 64, 8-byte big-endian bit length. -/
def sha256Pad (msg : List Nat) : List Nat :=
  let len := msg.length
  msg ++ 128 :: List.replicate ((119 - len % 64) % 64) 0 ++
    [len * 8 / 72057594037927936 % 256, len * 8 / 281474976710656 % 256,
     len * 8 / 1099511627776 % 256, len * 8 / 4294967296 % 256,
     len * 8 / 16777216 % 256, len * 8 / 65536 % 256, len * 8 / 256 % 256,
     len * 8 % 256]

def sha256Chunks : Nat → List Nat → List Nat → List Nat
  | _, h, [] => h
  | 0, h, _ => h
  | f + 1, h, msg => sha256Chunks f (sha256Compress h (msg.take 64)) (msg.drop 64)

/-- `hashlib.sha256(...).digest()` as a list of 32 byte values. -/
def sha256 (msg : List Nat) : List Nat :=
  let padded := sha256Pad msg
  (sha256Chunks padded.length sha256H0 padded).flatMap fun w =>
    [w / 16777216 % 256, w / 65536 % 256, w / 256 % 256, w % 256]

def hexByte (b : Nat) : List Char := [hexDigit (b / 16 % 16), hexDigit (b % 16)]

/-- `RunIntent.intent_hash`: the SHA-256 hex digest of the canonical JSON of
the raw envelope. -/
def intent_hash (raw : Json) : String :=
  ⟨(sha256 (utf8Bytes (canonicalJson raw))).flatMap hexByte⟩

/-- The canonical serializer is injective: it can be parsed back. -/
theorem ser_inj (v w : Json) (h : Json.ser v = Json.ser w) : v = w := by
  have hv := (parse_ser_all (Json.fuelSize v + Json.fuelSize w)).1 v []
    (by omega) (by intro c hc; simp at hc)
  have hw := (parse_ser_all (Json.fuelSize v + Json.fuelSize w)).1 w []
    (by omega) (by intro c hc; simp at hc)
  rw [h] at hv
  have := hv.symm.trans hw
  simpa using this

/-- Canonical strings agree exactly when the key-sorted shapes agree. -/
theorem canonicalJson_eq_iff (x y : Json) :
    canonicalJson x = canonicalJson y ↔ Json.canon x = Json.canon y := by
  constructor
  · intro h
    exact ser_inj _ _ (congrArg String.data h)
  · intro h
    simp [canonicalJson, h]

theorem sha256Compress_length (h chunk : List Nat) :
    (sha256Compress h chunk).length = 8 := rfl

theorem sha256Chunks_length (fuel : Nat) :
    ∀ (h msg : List Nat), h.length = 8 → (sha256Chunks fuel h msg).length = 8 := by
  induction fuel with
  | zero =>
    intro h msg hh
    cases msg <;> simpa [sha256Chunks] using hh
  | succ f ih =>
    intro h msg hh
    cases msg with
    | nil => simpa [sha256Chunks] using hh
    | cons b r =>
      exact ih _ _ (sha256Compress_length _ _)

theorem flatMap_four_length (l : List Nat) :
    (l.flatMap fun w => [w / 16777216 % 256, w / 65536 % 256, w / 256 % 256, w % 256]).length =
      4 * l.length := by
  induction l with
  | nil => rfl
  | cons w l ih => simp [ih]; omega

/-- A SHA-256 digest is 32 bytes. -/
theorem sha256_length (msg : List Nat) : (sha256 msg).length = 32 := by
  simp only [sha256]
  rw [flatMap_four_length,
    sha256Chunks_length (sha256Pad msg).length sha256H0 (sha256Pad msg) rfl]

/-- Every digest entry is a byte value. -/
theorem sha256_lt (msg : List Nat) : ∀ b ∈ sha256 msg, b < 256 := by
  intro b hb
  simp only [sha256, List.mem_flatMap] at hb
  obtain ⟨w, _, hw⟩ := hb
  simp only [List.mem_cons, List.not_mem_nil, or_false] at hw
  rcases hw with h | h | h | h <;> omega

/-- Pigeonhole: infinitely many integer envelopes, finitely many digests. -/
theorem intent_hash_collision :
    ∃ m n : Nat, m ≠ n ∧
      intent_hash (Json.num (m : Int)) = intent_hash (Json.num (n : Int)) := by
  obtain ⟨m, n, hmn, heq⟩ := Finite.exists_ne_map_eq_of_infinite
    (fun (k : Nat) (i : Fin 32) =>
      (⟨(sha256 (utf8Bytes (canonicalJson (Json.num (k : Int))))).getD i 0 % 256,
        Nat.mod_lt _ (by omega)⟩ : Fin 256))
  refine ⟨m, n, hmn, ?_⟩
  have hdig : sha256 (utf8Bytes (canonicalJson (Json.num (m : Int)))) =
      sha256 (utf8Bytes (canonicalJson (Json.num (n : Int)))) := by
    apply List.ext_getElem
    · rw [sha256_length, sha256_length]
    · intro i h1 h2
      have hi : i < 32 := by rw [sha256_length] at h1; exact h1
      have := congrFun heq ⟨i, hi⟩
      simp only [Fin.mk.injEq] at this
      rw [List.getD_eq_getElem _ _ h1, List.getD_eq_getElem _ _ h2] at this
      have b1 := sha256_lt _ _ (List.getElem_mem h1)
      have b2 := sha256_lt _ _ (List.getElem_mem h2)
      rw [Nat.mod_eq_of_lt b1, Nat.mod_eq_of_lt b2] at this
      exact this
  simp only [intent_hash, hdig]

/-- C6: the claimed equivalence fails in the forward direction: `intent_hash`
equality does not imply structural equality of the envelopes, because the
64-hex-character SHA-256 digest cannot separate the infinitely many
structurally distinct integer envelopes (pigeonhole); so `intent_hash(x) ==
intent_hash(y)` iff structural equality is refuted, though no concrete
colliding pair is exhibited. -/
theorem intent_hash_not_separating :
    ¬ (∀ x y : Json, intent_hash x = intent_hash y → Json.canon x = Json.canon y) := by
  intro hall
  obtain ⟨m, n, hmn, hh⟩ := intent_hash_collision
  have h2 := hall _ _ hh
  simp only [Json.canon, Json.num.injEq, Int.natCast_inj] at h2
  exact hmn h2

/-- C6 (amended): the canonical serialization (sorted keys at every level,
minimal separators, ASCII escapes) is a complete invariant of structural
equality — `canonicalJson x = canonicalJson y` iff the recursively key-sorted
shapes agree — and `intent_hash` (the SHA-256 hex digest of that string)
therefore assigns equal hashes to structurally equal envelopes; only the
converse hash-injectivity direction of the original claim fails. -/
theorem intent_hash_canonical (x y : Json) :
    (canonicalJson x = canonicalJson y ↔ Json.canon x = Json.canon y) ∧
    (Json.canon x = Json.canon y → intent_hash x = intent_hash y) := by
  refine ⟨canonicalJson_eq_iff x y, fun h => ?_⟩
  simp only [intent_hash, canonicalJson, h]

/-- Witness: two envelopes with swapped key order have equal canonical
strings and equal intent hashes. -/
theorem intent_hash_canonical_witness :
    (canonicalJson (Json.obj [("b", Json.num 2), ("a", Json.num 1)]) =
        canonicalJson (Json.obj [("a", Json.num 1), ("b", Json.num 2)]) ↔
      Json.canon (Json.obj [("b", Json.num 2), ("a", Json.num 1)]) =
        Json.canon (Json.obj [("a", Json.num 1), ("b", Json.num 2)])) ∧
    intent_hash (Json.obj [("b", Json.num 2), ("a", Json.num 1)]) =
      intent_hash (Json.obj [("a", Json.num 1), ("b", Json.num 2)]) := by
  have h := intent_hash_canonical (Json.obj [("b", Json.num 2), ("a", Json.num 1)])
    (Json.obj [("a", Json.num 1), ("b", Json.num 2)])
  exact ⟨h.1, h.2 rfl⟩

def pyLower (s : String) : String := ⟨s.data.map Char.toLower⟩

def strStarts (s pre : String) : Bool := List.isPrefixOf pre.data s.data

def strEnds (s suf : String) : Bool := List.isSuffixOf suf.data s.data

def listHasInfix (needle : List Char) : List Char → Bool
  | [] => needle.isEmpty
  | c :: t => List.isPrefixOf needle (c :: t) || listHasInfix needle t

def strHas (s sub : String) : Bool := listHasInfix sub.data s.data

/-- `_is_doc_path` (runner.py 321-330). -/
def isDocPath (path_value : Json) : Bool :=
  let normalized := pyLower (normalizeScopePath path_value)
  if normalized = "" then false
  else if strEnds normalized ".md" || strEnds normalized ".txt" ||
      strEnds normalized ".rst" then true
  else if strStarts normalized "docs/" || strHas normalized "/docs/" ||
      strEnds normalized "/docs" then true
  else false

/-- `_is_doc_only_item_scope` (runner.py 332-336). -/
def isDocOnlyItemScope (meta : List (String × Json)) : Bool :=
  match pyGet meta "touch_paths" with
  | some (.arr touch) => if touch.length = 0 then false else touch.all isDocPath
  | _ => false

/-- `_normalize_owns_paths` (runner.py 339-348). -/
def normalizeOwnsPaths (meta : List (String × Json)) : List String :=
  match pyGet meta "owns_paths" with
  | some (.arr owns) =>
      owns.filterMap fun entry =>
        let path := normalizeScopePath entry
        if path = "" then none else some path
  | _ => []

/-- Python `isinstance(x, int)` on a JSON-decoded value, with the value it
denotes: `bool` is an `int` subclass, and `True`/`False` equal `1`/`0`,
also as dict keys. -/
def pyIntOf : Json → Option Int
  | .num n => some n
  | .bool b => some (if b then 1 else 0)
  | _ => none

/-- One record of the sanitizer's `dropped_edges`. -/
structure DroppedEdge where
  fromIssue : Int
  toDep : Json
  reason : String
deriving Repr, DecidableEq

/-- `any(_paths_overlap(own, dep_own))` over both owns lists
(runner.py 455-463). -/
def ownsOverlap (current_owns dep_owns : List String) : Bool :=
  current_owns.any fun own => dep_owns.any fun dep_own =>
    pathsOverlap (.str own) (.str dep_own)

/-- The per-`dep` body of `_sanitize_dependency_graph`'s inner loop: either a
dropped edge or the kept dep; plan values are dicts by construction, so the
`scope_plan.get(dep)` non-dict guard coincides with the key test. -/
def sanitizeDep (plan : List (Int × List (String × Json))) (issue : Int)
    (current_owns : List String) (current_doc_only : Bool) (dep : Json) :
    Sum DroppedEdge Json :=
  match pyIntOf dep with
  | none => .inl ⟨issue, dep, "DEAD_REF"⟩
  | some d =>
    match intGet plan d with
    | none => .inl ⟨issue, dep, "DEAD_REF"⟩
    | some dep_meta =>
      if isDocOnlyItemScope dep_meta && !current_doc_only then
        .inl ⟨issue, dep, "DOC_BLOCKER"⟩
      else
        let dep_owns := normalizeOwnsPaths dep_meta
        if 0 < current_owns.length && 0 < dep_owns.length &&
            !ownsOverlap current_owns dep_owns then
          .inl ⟨issue, dep, "NO_OVERLAP"⟩
        else .inr dep

/-- Python dict assignment `next_meta["depends_on"] = ...`: replace in place,
or append the key. -/
def setKey (m : List (String × Json)) (k : String) (v : Json) :
    List (String × Json) :=
  if (pyGet m k).isSome then m.map fun kv => if kv.1 = k then (k, v) else kv
  else m ++ [(k, v)]

/-- One item of `_sanitize_dependency_graph`'s main loop: the sanitized meta
and its dropped edges in scan order. -/
def sanitizeItem (plan : List (Int × List (String × Json))) (issue : Int)
    (meta : List (String × Json)) : List (String × Json) × List DroppedEdge :=
  let depends_list := asListD (pyGet meta "depends_on")
  let current_owns := normalizeOwnsPaths meta
  let current_doc_only := isDocOnlyItemScope meta
  (setKey meta "depends_on" (.arr (depends_list.filterMap fun dep =>
      match sanitizeDep plan issue current_owns current_doc_only dep with
      | .inl _ => none
      | .inr d => some d)),
   depends_list.filterMap fun dep =>
      match sanitizeDep plan issue current_owns current_doc_only dep with
      | .inl e => some e
      | .inr _ => none)

def intLe (a b : Int) : Bool := decide (a ≤ b)

/-- `adjacency.get(i, [])`. -/
def adjGet (adj : List (Int × List Int)) (i : Int) : List Int :=
  (intGet adj i).getD []

/-- Adjacency construction of `_detect_dependency_cycles` (runner.py 352-362):
keep the int deps that are keys of the plan. -/
def adjacencyOf (plan : List (Int × List (String × Json))) :
    List (Int × List Int) :=
  (sortBy intLe (plan.map Prod.fst)).map fun issue =>
    (issue,
      match intGet plan issue with
      | some meta =>
          (asListD (pyGet meta "depends_on")).filterMap fun dep =>
            match pyIntOf dep with
            | some d => if (intGet plan d).isSome then some d else none
            | none => none
      | none => [])

/-- The mutable state of the detector: `index`, the two dicts (write-front
association lists; a read takes the newest binding), the stack (head = top),
the `on_stack` set, and the emitted components. -/
structure TarjanSt where
  index : Nat
  idx : List (Int × Nat)
  low : List (Int × Nat)
  stack : List Int
  onStack : List Int
  comps : List (List Int)

/-- The detector's pop loop: pop down to `issue_number` inclusive, returning
the component in pop order and the remaining stack. -/
def popWhile : List Int → Int → List Int × List Int
  | [], _ => ([], [])
  | c :: rest, u =>
    if c = u then ([c], rest)
    else
      let p := popWhile rest u
      (c :: p.1, p.2)

/-- `strong_connect` (runner.py 372-397), fuel-bounded; the fuel is spent one
unit per nested visit, and every visit marks a new node, so any fuel above
the number of unvisited nodes behaves like the unbounded Python recursion. -/
def strongConnect (adj : List (Int × List Int)) : Nat → Int → TarjanSt → TarjanSt
  | 0, _, st => st
  | fuel + 1, u, st0 =>
    let st1 : TarjanSt :=
      { index := st0.index + 1, idx := (u, st0.index) :: st0.idx,
        low := (u, st0.index) :: st0.low, stack := u :: st0.stack,
        onStack := u :: st0.onStack, comps := st0.comps }
    let st2 := (adjGet adj u).foldl (fun st dep =>
      if (intGet st.idx dep).isNone then
        let st' := strongConnect adj fuel dep st
        { st' with low :=
            (u, min ((intGet st'.low u).getD 0) ((intGet st'.low dep).getD 0)) ::
              st'.low }
      else if st.onStack.contains dep then
        { st with low :=
            (u, min ((intGet st.low u).getD 0) ((intGet st.idx dep).getD 0)) ::
              st.low }
      else st) st1
    if (intGet st2.low u).getD 0 ≠ (intGet st2.idx u).getD 0 then st2
    else
      let p := popWhile st2.stack u
      { st2 with
        stack := p.2
        onStack := st2.onStack.filter fun x => !p.1.contains x
        comps := st2.comps ++ [sortBy intLe p.1] }

/-- The top-level visit loop of `_detect_dependency_cycles`. -/
def tarjanRun (adj : List (Int × List Int)) (keys : List Int) : TarjanSt :=
  keys.foldl (fun st u =>
    if (intGet st.idx u).isNone then strongConnect adj (keys.length + 1) u st
    else st)
    ⟨0, [], [], [], [], []⟩

/-- `_detect_dependency_cycles` (runner.py 351-413). -/
def detect_dependency_cycles (plan : List (Int × List (String × Json))) :
    List (List Int) :=
  let adj := adjacencyOf plan
  let keys := sortBy intLe (plan.map Prod.fst)
  let st := tarjanRun adj keys
  let cycles := st.comps.filter fun comp =>
    if 1 < comp.length then true
    else match comp with
      | [issue] => (adjGet adj issue).contains issue
      | _ => false
  sortBy (fun a b => intLe (a.headD 0) (b.headD 0)) cycles

/-- `_sanitize_dependency_graph` (runner.py 416-475): sanitized plan, the
report's `droppedEdges` and `cycles` fields, and the error-or-None. -/
def sanitize_dependency_graph (plan : List (Int × List (String × Json))) :
    List (Int × List (String × Json)) ×
      (List DroppedEdge × Option (List (List Int))) × Option (List (List Int)) :=
  let sanitized := plan.map fun iv => (iv.1, (sanitizeItem plan iv.1 iv.2).1)
  let dropped := plan.flatMap fun iv => (sanitizeItem plan iv.1 iv.2).2
  let cycles := detect_dependency_cycles sanitized
  (sanitized, (dropped, if 0 < cycles.length then some cycles else none),
   if 0 < cycles.length then some cycles else none)

/-- An edge of the remaining `depends_on` graph: `v` listed (as a Python int)
in `depends_on` of `u`'s meta. -/
def planEdge (plan : List (Int × List (String × Json))) (u v : Int) : Prop :=
  ∃ m, intGet plan u = some m ∧
    v ∈ (asListD (pyGet m "depends_on")).filterMap pyIntOf

/-- Reachability along remaining `depends_on` edges. -/
def planReach (plan : List (Int × List (String × Json))) : Int → Int → Prop :=
  Relation.ReflTransGen (planEdge plan)

theorem intGet_cons_self {α : Type} (m : List (Int × α)) (k : Int) (v : α) :
    intGet ((k, v) :: m) k = some v := by
  simp [intGet]

theorem intGet_cons_ne {α : Type} (m : List (Int × α)) (k k' : Int) (v : α)
    (h : k ≠ k') : intGet ((k, v) :: m) k' = intGet m k' := by
  simp [intGet, h]

theorem filter_length_mono {α : Type} (p q : α → Bool)
    (h : ∀ x, q x = true → p x = true) :
    ∀ l : List α, (l.filter q).length ≤ (l.filter p).length := by
  intro l
  induction l with
  | nil => simp
  | cons a l ih =>
    simp only [List.filter_cons]
    by_cases hq : q a = true
    · simp only [hq, h a hq, if_true, List.length_cons]
      exact Nat.add_le_add_right ih 1
    · simp only [Bool.not_eq_true] at hq
      simp only [hq, Bool.false_eq_true, if_false]
      by_cases hp : p a = true
      · simp only [hp, if_true, List.length_cons]
        exact Nat.le_succ_of_le ih
      · simp only [Bool.not_eq_true] at hp
        simp only [hp, Bool.false_eq_true, if_false]
        exact ih

theorem filter_length_strict {α : Type} (p q : α → Bool)
    (h : ∀ x, q x = true → p x = true) (u : α) (hu : p u = true) (hq : q u = false) :
    ∀ l : List α, u ∈ l → (l.filter q).length < (l.filter p).length := by
  intro l
  induction l with
  | nil => simp
  | cons a l ih =>
    intro hmem
    rcases List.mem_cons.mp hmem with rfl | hmem
    · simp only [List.filter_cons, hq, hu, Bool.false_eq_true, if_false, if_true,
        List.length_cons]
      exact Nat.lt_succ_of_le (filter_length_mono p q h l)
    · by_cases hqa : q a = true
      · simp only [List.filter_cons, hqa, h a hqa, if_true, List.length_cons]
        exact Nat.succ_lt_succ (ih hmem)
      · simp only [Bool.not_eq_true] at hqa
        simp only [List.filter_cons, hqa, Bool.false_eq_true, if_false]
        by_cases hpa : p a = true
        · simp only [hpa, if_true, List.length_cons]
          exact Nat.lt_succ_of_lt (ih hmem)
        · simp only [Bool.not_eq_true] at hpa
          simp only [hpa, Bool.false_eq_true, if_false]
          exact ih hmem

theorem popWhile_found (u : Int) :
    ∀ Δ S, u ∉ Δ → popWhile (Δ ++ u :: S) u = (Δ ++ [u], S) := by
  intro Δ
  induction Δ with
  | nil =>
    intro S _
    simp [popWhile]
  | cons c Δ ih =>
    intro S hu
    have hc : c ≠ u := fun h => hu (h ▸ List.mem_cons_self c Δ)
    simp only [List.cons_append, popWhile, if_neg hc, List.append_eq]
    rw [ih S (fun h => hu (List.mem_cons_of_mem c h))]

theorem sortBy_length {α : Type} (le : α → α → Bool) (l : List α) :
    (sortBy le l).length = l.length :=
  (sortBy_perm le l).length_eq

/-- The number of keys not yet visited. -/
def unvisCount (keys : List Int) (st : TarjanSt) : Nat :=
  (keys.filter fun k => (intGet st.idx k).isNone).length

/-- A floor for every lowlink reachable from a state: the minimum of the
stack's indices and the next index to be assigned. -/
def stackFloor (st : TarjanSt) : Nat :=
  (st.stack.map fun x => (intGet st.idx x).getD 0).foldr min st.index

theorem foldr_min_le_init (l : List Nat) (i : Nat) : l.foldr min i ≤ i := by
  induction l with
  | nil => simp
  | cons a l ih =>
    simp only [List.foldr_cons]
    omega

theorem foldr_min_le_mem (l : List Nat) (i : Nat) (x : Nat) (hx : x ∈ l) :
    l.foldr min i ≤ x := by
  induction l with
  | nil => simp at hx
  | cons a l ih =>
    simp only [List.foldr_cons]
    rcases List.mem_cons.mp hx with rfl | hx
    · omega
    · have := ih hx
      omega

theorem stackFloor_le_index (st : TarjanSt) : stackFloor st ≤ st.index :=
  foldr_min_le_init _ _

theorem stackFloor_le_mem (st : TarjanSt) (x : Int) (hx : x ∈ st.stack) :
    stackFloor st ≤ (intGet st.idx x).getD 0 :=
  foldr_min_le_mem _ _ _ (List.mem_map_of_mem _ hx)

/-- The global invariant of the Tarjan state while every emitted component is
still a singleton (the moment a multi-node component is emitted the run is
already doomed to report a cycle, and the invariant is no longer tracked). -/
structure GInv (adj : List (Int × List Int)) (keys : List Int) (st : TarjanSt) :
    Prop where
  stackVis : ∀ x ∈ st.stack, (intGet st.idx x).isSome = true
  stackNodup : st.stack.Nodup
  onStackIff : ∀ x, x ∈ st.onStack ↔ x ∈ st.stack
  numLt : ∀ x, (intGet st.idx x).isSome = true → (intGet st.idx x).getD 0 < st.index
  stackSorted : st.stack.Pairwise fun a b =>
    (intGet st.idx b).getD 0 < (intGet st.idx a).getD 0
  compsVis : ∀ c ∈ st.comps, ∀ x ∈ c, (intGet st.idx x).isSome = true ∧ x ∉ st.stack
  cover : ∀ x, (intGet st.idx x).isSome = true → x ∈ st.stack ∨ ∃ c ∈ st.comps, x ∈ c
  singles : ∀ c ∈ st.comps, ∃ w, c = [w]
  flatNodup : st.comps.flatten.Nodup
  edgeOrd : ∀ p, p < st.comps.length → ∀ w, st.comps.getD p [] = [w] →
    ∀ v ∈ adjGet adj w, v = w ∨ ∃ q < p, v ∈ st.comps.getD q []
  visKeys : ∀ x, (intGet st.idx x).isSome = true → x ∈ keys

/-- The payload of a root call: the argument was completed, the stack is
restored, and its lowlink equals its index. -/
structure Aout (st0 st1 : TarjanSt) (u : Int) : Prop where
  stackEq : st1.stack = st0.stack
  idxU : intGet st1.idx u = some st0.index
  lowU : intGet st1.low u = some st0.index
  indexGt : st0.index < st1.index
  oldIdx : ∀ x, (intGet st0.idx x).isSome = true → intGet st1.idx x = intGet st0.idx x
  oldLow : ∀ x, (intGet st0.idx x).isSome = true → intGet st1.low x = intGet st0.low x
  compsPre : st0.comps <+: st1.comps
  doneU : ∃ c ∈ st1.comps, u ∈ c
  unvisLt : ∀ keys : List Int, u ∈ keys → unvisCount keys st1 < unvisCount keys st0

/-- The payload of a non-root call: the argument stays on the stack above the
caller's frame, its lowlink bounded below by the entry floor. -/
structure Cout (st0 st1 : TarjanSt) (u : Int) : Prop where
  stackExt : ∃ Δ, Δ ≠ [] ∧ st1.stack = Δ ++ st0.stack
  idxU : intGet st1.idx u = some st0.index
  indexGt : st0.index < st1.index
  oldIdx : ∀ x, (intGet st0.idx x).isSome = true → intGet st1.idx x = intGet st0.idx x
  oldLow : ∀ x, (intGet st0.idx x).isSome = true → intGet st1.low x = intGet st0.low x
  compsPre : st0.comps <+: st1.comps
  lowFloor : ∃ lv, intGet st1.low u = some lv ∧ stackFloor st0 ≤ lv ∧ lv < st0.index
  unvisLt : ∀ keys : List Int, u ∈ keys → unvisCount keys st1 < unvisCount keys st0

theorem foldl_comps_grow {α : Type} (step : TarjanSt → α → TarjanSt)
    (hstep : ∀ st a, st.comps <+: (step st a).comps) :
    ∀ (l : List α) (st : TarjanSt), st.comps <+: (l.foldl step st).comps := by
  intro l
  induction l with
  | nil => intro st; simp
  | cons a l ih =>
    intro st
    exact (hstep st a).trans (ih (step st a))

theorem strongConnect_comps_grow (adj : List (Int × List Int)) :
    ∀ (fuel : Nat) (u : Int) (st : TarjanSt),
      st.comps <+: (strongConnect adj fuel u st).comps := by
  intro fuel
  induction fuel with
  | zero => intro u st; simp [strongConnect]
  | succ f ih =>
    intro u st
    simp only [strongConnect]
    have hfold := foldl_comps_grow
      (fun st2 dep =>
        if (intGet st2.idx dep).isNone then
          { strongConnect adj f dep st2 with low :=
              (u, min ((intGet (strongConnect adj f dep st2).low u).getD 0)
                ((intGet (strongConnect adj f dep st2).low dep).getD 0)) ::
                (strongConnect adj f dep st2).low }
        else if st2.onStack.contains dep then
          { st2 with low :=
              (u, min ((intGet st2.low u).getD 0) ((intGet st2.idx dep).getD 0)) ::
                st2.low }
        else st2)
      (by
        intro st2 a
        by_cases h1 : (intGet st2.idx a).isNone = true
        · simpa [h1] using ih a st2
        · simp only [h1, Bool.false_eq_true, if_false]
          split <;> exact List.prefix_rfl)
      (adjGet adj u)
      { index := st.index + 1, idx := (u, st.index) :: st.idx,
        low := (u, st.index) :: st.low, stack := u :: st.stack,
        onStack := u :: st.onStack, comps := st.comps }
    split
    · exact hfold
    · exact hfold.trans (List.prefix_append _ _)

theorem GInv_setLow {adj : List (Int × List Int)} {keys : List Int} {st : TarjanSt}
    (g : GInv adj keys st) (L : List (Int × Nat)) :
    GInv adj keys { st with low := L } :=
  ⟨g.stackVis, g.stackNodup, g.onStackIff, g.numLt, g.stackSorted, g.compsVis,
   g.cover, g.singles, g.flatNodup, g.edgeOrd, g.visKeys⟩

theorem foldr_min_ge (m : Nat) (i : Nat) (l : List Nat)
    (hl : ∀ n ∈ l, m ≤ n) (hi : m ≤ i) : m ≤ l.foldr min i := by
  induction l with
  | nil => simpa
  | cons a l ih =>
    simp only [List.foldr_cons, le_min_iff]
    exact ⟨hl a (by simp), ih fun n hn => hl n (by simp [hn])⟩

theorem notvis_ne {st0 : TarjanSt} {u : Int}
    (hu : (intGet st0.idx u).isNone = true) :
    ∀ x, (intGet st0.idx x).isSome = true → x ≠ u := by
  intro x hx heq
  subst heq
  rw [Option.isNone_iff_eq_none] at hu
  rw [hu] at hx
  simp at hx

/-- Pushing an unvisited node preserves the global invariant. -/
theorem GInv_push {adj : List (Int × List Int)} {keys : List Int} {st0 : TarjanSt}
    {u : Int} (g : GInv adj keys st0)
    (hu : (intGet st0.idx u).isNone = true) (hk : u ∈ keys) :
    GInv adj keys ⟨st0.index + 1, (u, st0.index) :: st0.idx,
      (u, st0.index) :: st0.low, u :: st0.stack, u :: st0.onStack, st0.comps⟩ := by
  have hne := notvis_ne hu
  have hnotstack : u ∉ st0.stack := fun hmem => hne u (g.stackVis u hmem) rfl
  refine ⟨?_, ?_, ?_, ?_, ?_, ?_, ?_, g.singles, g.flatNodup, g.edgeOrd, ?_⟩
  · intro x hx
    rcases List.mem_cons.mp hx with rfl | hx
    · simp [intGet_cons_self]
    · rw [intGet_cons_ne _ _ _ _ (Ne.symm (hne x (g.stackVis x hx)))]
      exact g.stackVis x hx
  · exact List.nodup_cons.mpr ⟨hnotstack, g.stackNodup⟩
  · intro x
    simp only [List.mem_cons]
    exact or_congr Iff.rfl (g.onStackIff x)
  · intro x hx
    by_cases hxu : x = u
    · subst hxu
      simp [intGet_cons_self]
    · rw [intGet_cons_ne _ _ _ _ (Ne.symm hxu)] at hx ⊢
      exact Nat.lt_succ_of_lt (g.numLt x hx)
  · refine List.Pairwise.cons ?_ ?_
    · intro b hb
      have hbv := g.stackVis b hb
      have hbu : b ≠ u := hne b hbv
      rw [intGet_cons_self, intGet_cons_ne _ _ _ _ (Ne.symm hbu)]
      simpa using g.numLt b hbv
    · refine g.stackSorted.imp_of_mem ?_
      intro a b ha hb hab
      rw [intGet_cons_ne _ _ _ _ (Ne.symm (hne a (g.stackVis a ha))),
        intGet_cons_ne _ _ _ _ (Ne.symm (hne b (g.stackVis b hb)))]
      exact hab
  · intro c hc x hx
    have ⟨hv, hs⟩ := g.compsVis c hc x hx
    have hxu : x ≠ u := hne x hv
    rw [intGet_cons_ne _ _ _ _ (Ne.symm hxu)]
    refine ⟨hv, ?_⟩
    simp only [List.mem_cons]
    rintro (rfl | hmem)
    · exact hxu rfl
    · exact hs hmem
  · intro x hx
    by_cases hxu : x = u
    · subst hxu
      left
      simp
    · rw [intGet_cons_ne _ _ _ _ (Ne.symm hxu)] at hx
      rcases g.cover x hx with hst | hdone
      · left
        simp [hst]
      · right
        exact hdone
  · intro x hx
    by_cases hxu : x = u
    · subst hxu
      exact hk
    · rw [intGet_cons_ne _ _ _ _ (Ne.symm hxu)] at hx
      exact g.visKeys x hx

/-- Facts carried through the edge loop of one `strong_connect` frame. -/
structure FrameCommon (adj : List (Int × List Int)) (keys : List Int)
    (st0 : TarjanSt) (u : Int) (st : TarjanSt) : Prop where
  ginv : GInv adj keys st
  idxU : intGet st.idx u = some st0.index
  indexGt : st0.index < st.index
  oldIdx : ∀ x, (intGet st0.idx x).isSome = true → intGet st.idx x = intGet st0.idx x
  oldLow : ∀ x, (intGet st0.idx x).isSome = true → intGet st.low x = intGet st0.low x
  compsPre : st0.comps <+: st.comps
  lowSome : ∃ lv, intGet st.low u = some lv ∧ stackFloor st0 ≤ lv ∧ lv ≤ st0.index
  unvisLt : ∀ ks : List Int, u ∈ ks → unvisCount ks st < unvisCount ks st0

/-- The frame is still on course to pop a singleton root: nothing extra on the
stack, lowlink pinned at the entry index, processed edges settled. -/
def FrameGoodR (adj : List (Int × List Int)) (st0 : TarjanSt) (u : Int)
    (rem : List Int) (st : TarjanSt) : Prop :=
  st.stack = u :: st0.stack ∧ intGet st.low u = some st0.index ∧
    ∀ v ∈ adjGet adj u, v ∉ rem → (v = u ∨ ∃ c ∈ st.comps, v ∈ c)

/-- The frame already points below itself or left extra stack nodes. -/
def FrameBad (st0 : TarjanSt) (u : Int) (st : TarjanSt) : Prop :=
  ∃ Δ, st.stack = Δ ++ u :: st0.stack ∧
    (Δ ≠ [] ∨ ∃ lv, intGet st.low u = some lv ∧ lv < st0.index)

/-- The edge-loop invariant: a doomed run, or the frame facts with the
good/bad dichotomy. -/
def FoldSt (adj : List (Int × List Int)) (keys : List Int) (st0 : TarjanSt)
    (u : Int) (rem : List Int) (st : TarjanSt) : Prop :=
  (∃ c ∈ st.comps, 2 ≤ c.length) ∨
    (FrameCommon adj keys st0 u st ∧ (FrameGoodR adj st0 u rem st ∨ FrameBad st0 u st))

/-- Stack nodes above the frame's own node carry strictly larger indices. -/
theorem delta_num_gt {adj : List (Int × List Int)} {keys : List Int}
    {st st0 : TarjanSt} {u : Int} {Δ : List Int}
    (g : GInv adj keys st) (hstack : st.stack = Δ ++ u :: st0.stack)
    (hidxu : intGet st.idx u = some st0.index) :
    ∀ x ∈ Δ, st0.index < (intGet st.idx x).getD 0 := by
  intro x hx
  have hsorted := g.stackSorted
  rw [hstack] at hsorted
  have := (List.pairwise_append.mp hsorted).2.2 x hx u (by simp)
  rw [hidxu] at this
  simpa using this

/-- The floor only rises from the caller's state to any state of the frame. -/
theorem frame_floor {adj : List (Int × List Int)} {keys : List Int}
    {st0 st : TarjanSt} {u : Int} {Δ : List Int}
    (g : GInv adj keys st) (g0 : GInv adj keys st0)
    (hstack : st.stack = Δ ++ u :: st0.stack)
    (hidxu : intGet st.idx u = some st0.index)
    (hold : ∀ x, (intGet st0.idx x).isSome = true → intGet st.idx x = intGet st0.idx x)
    (hindex : st0.index < st.index) :
    stackFloor st0 ≤ stackFloor st := by
  apply foldr_min_ge
  · intro n hn
    obtain ⟨x, hx, rfl⟩ := List.mem_map.mp hn
    rw [hstack] at hx
    rcases List.mem_append.mp hx with hxΔ | hxcons
    · have := delta_num_gt g hstack hidxu x hxΔ
      have hfl := stackFloor_le_index st0
      omega
    · rcases List.mem_cons.mp hxcons with rfl | hxS
      · rw [hidxu]
        simpa using stackFloor_le_index st0
      · have hv := g0.stackVis x hxS
        rw [hold x hv]
        exact stackFloor_le_mem st0 x hxS
  · exact le_trans (stackFloor_le_index st0) (le_of_lt hindex)

theorem unvisCount_mono {st st' : TarjanSt}
    (h : ∀ x, (intGet st.idx x).isSome = true → (intGet st'.idx x).isSome = true) :
    ∀ ks : List Int, unvisCount ks st' ≤ unvisCount ks st := by
  intro ks
  refine filter_length_mono _ _ ?_ ks
  intro x hx
  cases hst : intGet st.idx x with
  | none => simp [hst]
  | some v =>
    have h2 := h x (by simp [hst])
    rw [Option.isNone_iff_eq_none] at hx
    rw [hx] at h2
    simp at h2

theorem foldStep_one
    (adj : List (Int × List Int)) (keys : List Int)
    (hadjk : ∀ x v, v ∈ adjGet adj x → v ∈ keys)
    (f : Nat)
    (ihm : ∀ (w : Int) (st : TarjanSt), GInv adj keys st →
      (intGet st.idx w).isNone = true → w ∈ keys → unvisCount keys st ≤ f →
      (∃ c ∈ (strongConnect adj f w st).comps, 2 ≤ c.length) ∨
      (Aout st (strongConnect adj f w st) w ∧ GInv adj keys (strongConnect adj f w st)) ∨
      (Cout st (strongConnect adj f w st) w ∧ GInv adj keys (strongConnect adj f w st)))
    (st0 : TarjanSt) (u : Int) (hu0 : (intGet st0.idx u).isNone = true)
    (hukeys : u ∈ keys) (g0 : GInv adj keys st0)
    (hfuel : unvisCount keys st0 ≤ f + 1)
    (d : Int) (hd : d ∈ adjGet adj u) (ds : List Int)
    (st : TarjanSt) (h : FoldSt adj keys st0 u (d :: ds) st) :
    FoldSt adj keys st0 u ds
      (if (intGet st.idx d).isNone then
        { strongConnect adj f d st with low :=
            (u, min ((intGet (strongConnect adj f d st).low u).getD 0)
              ((intGet (strongConnect adj f d st).low d).getD 0)) ::
              (strongConnect adj f d st).low }
      else if st.onStack.contains d then
        { st with low :=
            (u, min ((intGet st.low u).getD 0) ((intGet st.idx d).getD 0)) :: st.low }
      else st) := by
  have hune := notvis_ne hu0
  rcases h with hB | ⟨hc, hgb⟩
  · obtain ⟨c, hcmem, hlen⟩ := hB
    left
    refine ⟨c, ?_, hlen⟩
    split
    · exact (strongConnect_comps_grow adj f d st).subset hcmem
    · split
      · exact hcmem
      · exact hcmem
  have husome : (intGet st.idx u).isSome = true := by rw [hc.idxU]; rfl
  obtain ⟨lv, hlv, hlvfl, hlvle⟩ := hc.lowSome
  have hshape : ∃ Δst, st.stack = Δst ++ u :: st0.stack := by
    rcases hgb with ⟨hstk, _, _⟩ | ⟨Δ, hstk, _⟩
    · exact ⟨[], by simpa using hstk⟩
    · exact ⟨Δ, hstk⟩
  by_cases hvis : (intGet st.idx d).isNone = true
  · rw [if_pos hvis]
    have hcount : unvisCount keys st ≤ f := by
      have h1 := hc.unvisLt keys hukeys
      omega
    rcases ihm d st hc.ginv hvis (hadjk u d hd) hcount with hB' | ⟨hA, gA⟩ | ⟨hC, gC⟩
    · obtain ⟨c, hcmem, hlen⟩ := hB'
      exact Or.inl ⟨c, hcmem, hlen⟩
    · have hidxu2 : intGet (strongConnect adj f d st).idx u = some st0.index := by
        rw [hA.oldIdx u husome]
        exact hc.idxU
      have hlowu2 : intGet (strongConnect adj f d st).low u = some lv := by
        rw [hA.oldLow u husome]
        exact hlv
      rw [hlowu2, hA.lowU]
      simp only [Option.getD_some]
      refine Or.inr ⟨?_, ?_⟩
      · refine ⟨GInv_setLow gA _, hidxu2, lt_trans hc.indexGt hA.indexGt, ?_, ?_,
          hc.compsPre.trans hA.compsPre, ?_, ?_⟩
        · intro x hx
          exact (hA.oldIdx x (by rw [hc.oldIdx x hx]; exact hx)).trans (hc.oldIdx x hx)
        · intro x hx
          rw [intGet_cons_ne _ _ _ _ (Ne.symm (hune x hx))]
          exact (hA.oldLow x (by rw [hc.oldIdx x hx]; exact hx)).trans (hc.oldLow x hx)
        · refine ⟨min lv st.index, intGet_cons_self _ _ _, ?_, le_trans (min_le_left _ _) hlvle⟩
          refine le_min hlvfl ?_
          exact le_of_lt (lt_of_le_of_lt (stackFloor_le_index st0) hc.indexGt)
        · intro ks hks
          exact lt_of_le_of_lt
            (unvisCount_mono (fun x hx => by rw [hA.oldIdx x hx]; exact hx) ks)
            (hc.unvisLt ks hks)
      · rcases hgb with ⟨hstk, hlwu, hdone⟩ | ⟨Δ, hstk, hbad⟩
        · have hlveq : lv = st0.index := by
            rw [hlv] at hlwu
            exact Option.some.inj hlwu
          subst hlveq
          left
          refine ⟨?_, ?_, ?_⟩
          · show (strongConnect adj f d st).stack = u :: st0.stack
            rw [hA.stackEq]
            exact hstk
          · rw [intGet_cons_self, min_eq_left (le_of_lt hc.indexGt)]
          · intro v hv hvds
            by_cases hvd : v = d
            · subst hvd
              exact Or.inr hA.doneU
            · rcases hdone v hv (by simp [hvds, hvd]) with h1 | ⟨c, hcm, hvc⟩
              · exact Or.inl h1
              · exact Or.inr ⟨c, hA.compsPre.subset hcm, hvc⟩
        · right
          refine ⟨Δ, ?_, ?_⟩
          · show (strongConnect adj f d st).stack = Δ ++ u :: st0.stack
            rw [hA.stackEq]
            exact hstk
          · rcases hbad with hne | ⟨lv0, hlv0, hlt⟩
            · exact Or.inl hne
            · have hlveq : lv0 = lv := by
                rw [hlv] at hlv0
                exact (Option.some.inj hlv0).symm
              subst hlveq
              exact Or.inr ⟨min lv0 st.index, intGet_cons_self _ _ _,
                lt_of_le_of_lt (min_le_left _ _) hlt⟩
    · have hidxu2 : intGet (strongConnect adj f d st).idx u = some st0.index := by
        rw [hC.oldIdx u husome]
        exact hc.idxU
      have hlowu2 : intGet (strongConnect adj f d st).low u = some lv := by
        rw [hC.oldLow u husome]
        exact hlv
      obtain ⟨lvd, hlvd, hlvdfl, _⟩ := hC.lowFloor
      rw [hlowu2, hlvd]
      simp only [Option.getD_some]
      obtain ⟨Δst, hΔst⟩ := hshape
      have hfloorst : stackFloor st0 ≤ stackFloor st :=
        frame_floor hc.ginv g0 hΔst hc.idxU hc.oldIdx hc.indexGt
      refine Or.inr ⟨?_, ?_⟩
      · refine ⟨GInv_setLow gC _, hidxu2, lt_trans hc.indexGt hC.indexGt, ?_, ?_,
          hc.compsPre.trans hC.compsPre, ?_, ?_⟩
        · intro x hx
          exact (hC.oldIdx x (by rw [hc.oldIdx x hx]; exact hx)).trans (hc.oldIdx x hx)
        · intro x hx
          rw [intGet_cons_ne _ _ _ _ (Ne.symm (hune x hx))]
          exact (hC.oldLow x (by rw [hc.oldIdx x hx]; exact hx)).trans (hc.oldLow x hx)
        · exact ⟨min lv lvd, intGet_cons_self _ _ _,
            le_min hlvfl (le_trans hfloorst hlvdfl), le_trans (min_le_left _ _) hlvle⟩
        · intro ks hks
          exact lt_of_le_of_lt
            (unvisCount_mono (fun x hx => by rw [hC.oldIdx x hx]; exact hx) ks)
            (hc.unvisLt ks hks)
      · right
        obtain ⟨Δc, hΔcne, hΔc⟩ := hC.stackExt
        rcases hgb with ⟨hstk, _, _⟩ | ⟨Δ, hstk, _⟩
        · refine ⟨Δc, ?_, Or.inl hΔcne⟩
          show (strongConnect adj f d st).stack = Δc ++ u :: st0.stack
          rw [hΔc, hstk]
        · refine ⟨Δc ++ Δ, ?_, Or.inl (by simp [hΔcne])⟩
          show (strongConnect adj f d st).stack = (Δc ++ Δ) ++ u :: st0.stack
          rw [hΔc, hstk, List.append_assoc]
  · rw [if_neg hvis]
    have hdsome : (intGet st.idx d).isSome = true := by
      cases hgetd : intGet st.idx d with
      | none => exact absurd (by simp [hgetd]) hvis
      | some v => simp [hgetd]
    by_cases hcont : st.onStack.contains d = true
    · rw [if_pos hcont]
      have hdstk : d ∈ st.stack := (hc.ginv.onStackIff d).mp (by simpa using hcont)
      rw [hlv]
      simp only [Option.getD_some]
      obtain ⟨Δst, hΔst⟩ := hshape
      have hndfl : stackFloor st0 ≤ (intGet st.idx d).getD 0 := by
        rw [hΔst] at hdstk
        rcases List.mem_append.mp hdstk with hdΔ | hdc
        · have h1 := delta_num_gt hc.ginv hΔst hc.idxU d hdΔ
          have h2 := stackFloor_le_index st0
          omega
        · rcases List.mem_cons.mp hdc with rfl | hdS
          · rw [hc.idxU]
            simpa using stackFloor_le_index st0
          · rw [hc.oldIdx d (g0.stackVis d hdS)]
            exact stackFloor_le_mem st0 d hdS
      refine Or.inr ⟨?_, ?_⟩
      · refine ⟨GInv_setLow hc.ginv _, hc.idxU, hc.indexGt, hc.oldIdx, ?_,
          hc.compsPre, ?_, ?_⟩
        · intro x hx
          rw [intGet_cons_ne _ _ _ _ (Ne.symm (hune x hx))]
          exact hc.oldLow x hx
        · exact ⟨min lv ((intGet st.idx d).getD 0), intGet_cons_self _ _ _,
            le_min hlvfl hndfl, le_trans (min_le_left _ _) hlvle⟩
        · intro ks hks
          exact hc.unvisLt ks hks
      · rcases hgb with ⟨hstk, hlwu, hdone⟩ | ⟨Δ, hstk, hbad⟩
        · have hlveq : lv = st0.index := by
            rw [hlv] at hlwu
            exact Option.some.inj hlwu
          subst hlveq
          have hdstk2 := hdstk
          rw [hstk] at hdstk2
          rcases List.mem_cons.mp hdstk2 with rfl | hdS
          · left
            refine ⟨hstk, ?_, ?_⟩
            · rw [intGet_cons_self, hc.idxU]
              simp
            · intro v hv hvds
              by_cases hvd : v = d
              · exact Or.inl hvd
              · exact hdone v hv (by simp [hvds, hvd])
          · right
            have hnd : (intGet st.idx d).getD 0 < st0.index := by
              rw [hc.oldIdx d (g0.stackVis d hdS)]
              exact g0.numLt d (g0.stackVis d hdS)
            exact ⟨[], by simpa using hstk,
              Or.inr ⟨min st0.index ((intGet st.idx d).getD 0), intGet_cons_self _ _ _,
                lt_of_le_of_lt (min_le_right _ _) hnd⟩⟩
        · right
          refine ⟨Δ, hstk, ?_⟩
          rcases hbad with hne | ⟨lv0, hlv0, hlt⟩
          · exact Or.inl hne
          · have hlveq : lv0 = lv := by
              rw [hlv] at hlv0
              exact (Option.some.inj hlv0).symm
            subst hlveq
            exact Or.inr ⟨min lv0 ((intGet st.idx d).getD 0), intGet_cons_self _ _ _,
              lt_of_le_of_lt (min_le_left _ _) hlt⟩
    · rw [if_neg hcont]
      refine Or.inr ⟨hc, ?_⟩
      rcases hgb with ⟨hstk, hlwu, hdone⟩ | hbad
      · left
        refine ⟨hstk, hlwu, ?_⟩
        intro v hv hvds
        by_cases hvd : v = d
        · subst hvd
          have hnot : v ∉ st.stack := fun hmem =>
            hcont (by simpa using (hc.ginv.onStackIff v).mpr hmem)
          rcases hc.ginv.cover v hdsome with hmem | hdone'
          · exact absurd hmem hnot
          · exact Or.inr hdone'
        · exact hdone v hv (by simp [hvds, hvd])
      · exact Or.inr hbad

theorem foldStep_spec
    (adj : List (Int × List Int)) (keys : List Int)
    (hadjk : ∀ x v, v ∈ adjGet adj x → v ∈ keys)
    (f : Nat)
    (ihm : ∀ (w : Int) (st : TarjanSt), GInv adj keys st →
      (intGet st.idx w).isNone = true → w ∈ keys → unvisCount keys st ≤ f →
      (∃ c ∈ (strongConnect adj f w st).comps, 2 ≤ c.length) ∨
      (Aout st (strongConnect adj f w st) w ∧ GInv adj keys (strongConnect adj f w st)) ∨
      (Cout st (strongConnect adj f w st) w ∧ GInv adj keys (strongConnect adj f w st)))
    (st0 : TarjanSt) (u : Int) (hu0 : (intGet st0.idx u).isNone = true)
    (hukeys : u ∈ keys) (g0 : GInv adj keys st0)
    (hfuel : unvisCount keys st0 ≤ f + 1) :
    ∀ (rem : List Int), (∀ v ∈ rem, v ∈ adjGet adj u) →
      ∀ st, FoldSt adj keys st0 u rem st →
      FoldSt adj keys st0 u []
        (rem.foldl (fun st dep =>
          if (intGet st.idx dep).isNone then
            { strongConnect adj f dep st with low :=
                (u, min ((intGet (strongConnect adj f dep st).low u).getD 0)
                  ((intGet (strongConnect adj f dep st).low dep).getD 0)) ::
                  (strongConnect adj f dep st).low }
          else if st.onStack.contains dep then
            { st with low :=
                (u, min ((intGet st.low u).getD 0) ((intGet st.idx dep).getD 0)) ::
                  st.low }
          else st) st) := by
  intro rem
  induction rem with
  | nil =>
    intro _ st h
    simpa using h
  | cons d ds ih =>
    intro hsub st h
    simp only [List.foldl_cons]
    exact ih (fun v hv => hsub v (by simp [hv])) _
      (foldStep_one adj keys hadjk f ihm st0 u hu0 hukeys g0 hfuel d
        (hsub d (by simp)) ds st h)

/-- Popping a singleton root preserves the global invariant, with the frame's
processed edges supplying the new component's edge ordering. -/
theorem GInv_pop {adj : List (Int × List Int)} {keys : List Int}
    {st2 st0 : TarjanSt} {u : Int}
    (g2 : GInv adj keys st2) (hstk2 : st2.stack = u :: st0.stack)
    (hidxu : intGet st2.idx u = some st0.index)
    (hdone2 : ∀ v ∈ adjGet adj u, v = u ∨ ∃ c ∈ st2.comps, v ∈ c) :
    GInv adj keys { st2 with
      stack := st0.stack
      onStack := st2.onStack.filter fun x => !([u].contains x)
      comps := st2.comps ++ [[u]] } := by
  have husome : (intGet st2.idx u).isSome = true := by rw [hidxu]; rfl
  have hnd : (u :: st0.stack).Nodup := hstk2 ▸ g2.stackNodup
  have hustk : u ∉ st0.stack := (List.nodup_cons.mp hnd).1
  have hnotflat : u ∉ st2.comps.flatten := by
    intro hmem
    obtain ⟨c, hc, huc⟩ := List.mem_flatten.mp hmem
    exact (g2.compsVis c hc u huc).2 (by rw [hstk2]; simp)
  refine ⟨?_, ?_, ?_, g2.numLt, ?_, ?_, ?_, ?_, ?_, ?_, g2.visKeys⟩
  · intro x hx
    exact g2.stackVis x (by rw [hstk2]; simp [hx])
  · exact (List.nodup_cons.mp hnd).2
  · intro x
    simp only [List.mem_filter, List.contains_cons, List.contains_nil,
      Bool.or_false, Bool.not_eq_true', beq_eq_false_iff_ne]
    constructor
    · rintro ⟨hmem, hne⟩
      have := (g2.onStackIff x).mp hmem
      rw [hstk2] at this
      rcases List.mem_cons.mp this with rfl | hS
      · exact absurd rfl hne
      · exact hS
    · intro hS
      have hne : x ≠ u := fun h => hustk (h ▸ hS)
      exact ⟨(g2.onStackIff x).mpr (by rw [hstk2]; simp [hS]), hne⟩
  · have := g2.stackSorted
    rw [hstk2] at this
    exact this.of_cons
  · intro c hc x hx
    rcases List.mem_append.mp hc with hcold | hcnew
    · have ⟨hv, hs⟩ := g2.compsVis c hcold x hx
      exact ⟨hv, fun hmem => hs (by rw [hstk2]; simp [hmem])⟩
    · have hceq : c = [u] := by simpa using hcnew
      subst hceq
      have hxu : x = u := by simpa using hx
      subst hxu
      exact ⟨husome, hustk⟩
  · intro x hx
    rcases g2.cover x hx with hstk | hdone
    · rw [hstk2] at hstk
      rcases List.mem_cons.mp hstk with rfl | hS
      · exact Or.inr ⟨[x], by simp, by simp⟩
      · exact Or.inl hS
    · obtain ⟨c, hc, hxc⟩ := hdone
      exact Or.inr ⟨c, List.mem_append_left _ hc, hxc⟩
  · intro c hc
    rcases List.mem_append.mp hc with hcold | hcnew
    · exact g2.singles c hcold
    · exact ⟨u, by simpa using hcnew⟩
  · rw [List.flatten_append]
    simp only [List.flatten_cons, List.flatten_nil, List.append_nil]
    refine List.Nodup.append g2.flatNodup (List.nodup_singleton u) ?_
    intro a ha hb
    have hau : a = u := by simpa using hb
    subst hau
    exact hnotflat ha
  · intro p hp w hw v hv
    rw [List.length_append, List.length_singleton] at hp
    by_cases hplen : p < st2.comps.length
    · rw [List.getD_append _ _ _ _ hplen] at hw
      rcases g2.edgeOrd p hplen w hw v hv with h1 | ⟨q, hq, hmem⟩
      · exact Or.inl h1
      · exact Or.inr ⟨q, hq, by rwa [List.getD_append _ _ _ _ (lt_trans hq hplen)]⟩
    · have hpeq : p = st2.comps.length := by omega
      subst hpeq
      rw [List.getD_append_right _ _ _ _ (le_refl _)] at hw
      simp only [Nat.sub_self, List.getD_cons_zero] at hw
      have hwu : w = u := by
        have := congrArg (fun l => l.headD 0) hw
        simpa using this.symm
      subst hwu
      rcases hdone2 v hv with h1 | ⟨c, hc, hvc⟩
      · exact Or.inl h1
      · obtain ⟨q, hq, hceq⟩ := List.mem_iff_getElem.mp hc
        refine Or.inr ⟨q, hq, ?_⟩
        rw [List.getD_append _ _ _ _ hq, List.getD_eq_getElem _ _ hq, hceq]
        exact hvc

/-- The master specification of `strong_connect`: starting from an invariant
state on an unvisited node with enough fuel, the call either has already
emitted a multi-node component (a doomed run), or returns as a completed
singleton root with the stack restored, or returns still on the stack. -/
theorem strongConnect_spec (adj : List (Int × List Int)) (keys : List Int)
    (hadjk : ∀ x v, v ∈ adjGet adj x → v ∈ keys) :
    ∀ (fuel : Nat) (u : Int) (st0 : TarjanSt), GInv adj keys st0 →
      (intGet st0.idx u).isNone = true → u ∈ keys → unvisCount keys st0 ≤ fuel →
      (∃ c ∈ (strongConnect adj fuel u st0).comps, 2 ≤ c.length) ∨
      (Aout st0 (strongConnect adj fuel u st0) u ∧
        GInv adj keys (strongConnect adj fuel u st0)) ∨
      (Cout st0 (strongConnect adj fuel u st0) u ∧
        GInv adj keys (strongConnect adj fuel u st0)) := by
  intro fuel
  induction fuel with
  | zero =>
    intro u st0 _ hu0 hk hfuel
    exfalso
    have hmem : u ∈ keys.filter fun k => (intGet st0.idx k).isNone :=
      List.mem_filter.mpr ⟨hk, hu0⟩
    have := List.length_pos_of_mem hmem
    have : 0 < unvisCount keys st0 := this
    omega
  | succ f ih =>
    intro u st0 g0 hu0 hk hfuel
    have hune := notvis_ne hu0
    have g1 := GInv_push g0 hu0 hk
    have hinit : FoldSt adj keys st0 u (adjGet adj u)
        ⟨st0.index + 1, (u, st0.index) :: st0.idx, (u, st0.index) :: st0.low,
          u :: st0.stack, u :: st0.onStack, st0.comps⟩ := by
      refine Or.inr ⟨⟨g1, intGet_cons_self _ _ _, Nat.lt_succ_self _, ?_, ?_,
        List.prefix_rfl, ⟨st0.index, intGet_cons_self _ _ _,
          stackFloor_le_index st0, le_refl _⟩, ?_⟩, Or.inl ⟨rfl,
        intGet_cons_self _ _ _, fun v hv hnv => absurd hv hnv⟩⟩
      · intro x hx
        exact intGet_cons_ne _ _ _ _ (Ne.symm (hune x hx))
      · intro x hx
        exact intGet_cons_ne _ _ _ _ (Ne.symm (hune x hx))
      · intro ks hks
        refine filter_length_strict _ _ ?_ u hu0 ?_ ks hks
        · intro x hx
          by_cases hxu : x = u
          · subst hxu
            rw [show intGet ((x, st0.index) :: st0.idx) x = some st0.index from
              intGet_cons_self _ _ _] at hx
            simp at hx
          · rwa [intGet_cons_ne _ _ _ _ (Ne.symm hxu)] at hx
        · rw [show intGet ((u, st0.index) :: st0.idx) u = some st0.index from
            intGet_cons_self _ _ _]
          rfl
    have hfold := foldStep_spec adj keys hadjk f ih st0 u hu0 hk g0 hfuel
      (adjGet adj u) (fun _ hv => hv) _ hinit
    have h2 : FoldSt adj keys st0 u []
        ((adjGet adj u).foldl (fun st dep =>
          if (intGet st.idx dep).isNone then
            let st' := strongConnect adj f dep st
            { st' with low :=
                (u, min ((intGet st'.low u).getD 0) ((intGet st'.low dep).getD 0)) ::
                  st'.low }
          else if st.onStack.contains dep then
            { st with low :=
                (u, min ((intGet st.low u).getD 0) ((intGet st.idx dep).getD 0)) ::
                  st.low }
          else st)
          ⟨st0.index + 1, (u, st0.index) :: st0.idx, (u, st0.index) :: st0.low,
            u :: st0.stack, u :: st0.onStack, st0.comps⟩) := hfold
    generalize hst2 : ((adjGet adj u).foldl (fun st dep =>
          if (intGet st.idx dep).isNone then
            let st' := strongConnect adj f dep st
            { st' with low :=
                (u, min ((intGet st'.low u).getD 0) ((intGet st'.low dep).getD 0)) ::
                  st'.low }
          else if st.onStack.contains dep then
            { st with low :=
                (u, min ((intGet st.low u).getD 0) ((intGet st.idx dep).getD 0)) ::
                  st.low }
          else st)
          ⟨st0.index + 1, (u, st0.index) :: st0.idx, (u, st0.index) :: st0.low,
            u :: st0.stack, u :: st0.onStack, st0.comps⟩) = st2 at h2
    have hrw : strongConnect adj (f + 1) u st0 =
        if (intGet st2.low u).getD 0 ≠ (intGet st2.idx u).getD 0 then st2
        else
          { st2 with
            stack := (popWhile st2.stack u).2
            onStack := st2.onStack.filter fun x => !((popWhile st2.stack u).1.contains x)
            comps := st2.comps ++ [sortBy intLe (popWhile st2.stack u).1] } := by
      rw [← hst2]
      rfl
    rcases h2 with hB | ⟨hc2, hgb2⟩
    · obtain ⟨c, hcm, hlen⟩ := hB
      left
      rw [hrw]
      split
      · exact ⟨c, hcm, hlen⟩
      · exact ⟨c, List.mem_append_left _ hcm, hlen⟩
    rcases hgb2 with ⟨hstk2, hlow2, hdone2⟩ | ⟨Δ, hstk2, hbad2⟩
    · have hcond : ¬ ((intGet st2.low u).getD 0 ≠ (intGet st2.idx u).getD 0) := by
        rw [hlow2, hc2.idxU]
        simp
      have hpop : popWhile st2.stack u = ([u], st0.stack) := by
        rw [hstk2]
        simp [popWhile]
      rw [hrw, if_neg hcond, hpop]
      right
      left
      constructor
      · exact ⟨rfl, hc2.idxU, hlow2, hc2.indexGt, hc2.oldIdx, hc2.oldLow,
          hc2.compsPre.trans (List.prefix_append _ _),
          ⟨[u], List.mem_append_right _ (by simp [sortBy, insertBy]), by simp⟩,
          fun ks hks => hc2.unvisLt ks hks⟩
      · exact GInv_pop hc2.ginv hstk2 hc2.idxU
          (fun v hv => hdone2 v hv (List.not_mem_nil v))
    · obtain ⟨lv, hlv, hlvfl, hlvle⟩ := hc2.lowSome
      by_cases hlneq : (intGet st2.low u).getD 0 ≠ (intGet st2.idx u).getD 0
      · rw [hrw, if_pos hlneq]
        have hlvne : lv ≠ st0.index := by
          rw [hlv, hc2.idxU] at hlneq
          simpa using hlneq
        right
        right
        refine ⟨⟨⟨Δ ++ [u], by simp, by rw [hstk2]; simp⟩, hc2.idxU, hc2.indexGt,
          hc2.oldIdx, hc2.oldLow, hc2.compsPre,
          ⟨lv, hlv, hlvfl, lt_of_le_of_ne hlvle hlvne⟩,
          fun ks hks => hc2.unvisLt ks hks⟩, hc2.ginv⟩
      · have hlveq : lv = st0.index := by
          rw [hlv, hc2.idxU] at hlneq
          simpa using hlneq
        rcases hbad2 with hΔne | ⟨lv0, hlv0, hlt⟩
        · have hunotΔ : u ∉ Δ := by
            intro huΔ
            have hnd := hc2.ginv.stackNodup
            rw [hstk2] at hnd
            exact (List.nodup_append.mp hnd).2.2 huΔ (by simp)
          have hpop := popWhile_found u Δ st0.stack hunotΔ
          rw [hrw, if_neg hlneq, hstk2, hpop]
          left
          refine ⟨sortBy intLe (Δ ++ [u]), List.mem_append_right _ (by simp), ?_⟩
          rw [sortBy_length, List.length_append, List.length_singleton]
          have := List.length_pos_of_ne_nil hΔne
          omega
        · exfalso
          have hlveq0 : lv0 = lv := by
            rw [hlv] at hlv0
            exact (Option.some.inj hlv0).symm
          omega

/-- The empty initial state satisfies the invariant. -/
theorem GInv_init (adj : List (Int × List Int)) (keys : List Int) :
    GInv adj keys ⟨0, [], [], [], [], []⟩ := by
  refine ⟨?_, ?_, ?_, ?_, ?_, ?_, ?_, ?_, ?_, ?_, ?_⟩ <;>
    simp [intGet, List.Pairwise.nil]

/-- After the top-level loop: either a multi-node component was emitted, or
the invariant holds with an empty stack and every key visited. -/
theorem tarjanRun_spec (adj : List (Int × List Int)) (keys : List Int)
    (hadjk : ∀ x v, v ∈ adjGet adj x → v ∈ keys) :
    (∃ c ∈ (tarjanRun adj keys).comps, 2 ≤ c.length) ∨
    (GInv adj keys (tarjanRun adj keys) ∧ (tarjanRun adj keys).stack = [] ∧
      ∀ k ∈ keys, (intGet (tarjanRun adj keys).idx k).isSome = true) := by
  have main : ∀ (rem : List Int), (∀ v ∈ rem, v ∈ keys) → ∀ st : TarjanSt,
      ((∃ c ∈ st.comps, 2 ≤ c.length) ∨
        (GInv adj keys st ∧ st.stack = [] ∧
          ∀ k ∈ keys, k ∉ rem → (intGet st.idx k).isSome = true)) →
      ((∃ c ∈ (rem.foldl (fun st u =>
          if (intGet st.idx u).isNone then strongConnect adj (keys.length + 1) u st
          else st) st).comps, 2 ≤ c.length) ∨
        (GInv adj keys (rem.foldl (fun st u =>
            if (intGet st.idx u).isNone then strongConnect adj (keys.length + 1) u st
            else st) st) ∧
          (rem.foldl (fun st u =>
            if (intGet st.idx u).isNone then strongConnect adj (keys.length + 1) u st
            else st) st).stack = [] ∧
          ∀ k ∈ keys, (intGet (rem.foldl (fun st u =>
            if (intGet st.idx u).isNone then strongConnect adj (keys.length + 1) u st
            else st) st).idx k).isSome = true)) := by
    intro rem
    induction rem with
    | nil =>
      intro _ st h
      simp only [List.foldl_nil]
      rcases h with hB | ⟨g, hstk, hvis⟩
      · exact Or.inl hB
      · exact Or.inr ⟨g, hstk, fun k hk => hvis k hk (List.not_mem_nil k)⟩
    | cons d ds ih =>
      intro hsub st h
      simp only [List.foldl_cons]
      refine ih (fun v hv => hsub v (by simp [hv])) _ ?_
      rcases h with hB | ⟨g, hstk, hvis⟩
      · obtain ⟨c, hcm, hlen⟩ := hB
        left
        refine ⟨c, ?_, hlen⟩
        split
        · exact (strongConnect_comps_grow adj _ d st).subset hcm
        · exact hcm
      by_cases hd : (intGet st.idx d).isNone = true
      · rw [if_pos hd]
        have hcnt : unvisCount keys st ≤ keys.length + 1 := by
          have : unvisCount keys st ≤ keys.length := List.length_filter_le _ _
          omega
        rcases strongConnect_spec adj keys hadjk (keys.length + 1) d st g hd
            (hsub d (by simp)) hcnt with hB | ⟨hA, gA⟩ | ⟨hC, _⟩
        · exact Or.inl hB
        · right
          refine ⟨gA, by rw [hA.stackEq]; exact hstk, ?_⟩
          intro k hk hkds
          by_cases hkd : k = d
          · subst hkd
            rw [hA.idxU]
            rfl
          · have hkvis := hvis k hk (by simp [hkds, hkd])
            rw [hA.oldIdx k hkvis]
            exact hkvis
        · exfalso
          obtain ⟨lv, _, hfl, hlt⟩ := hC.lowFloor
          have hfloor : stackFloor st = st.index := by
            unfold stackFloor
            rw [hstk]
            rfl
          omega
      · rw [if_neg hd]
        right
        refine ⟨g, hstk, ?_⟩
        intro k hk hkds
        by_cases hkd : k = d
        · subst hkd
          cases hgd : intGet st.idx k with
          | none => exact absurd (by simp [hgd]) hd
          | some v => simp
        · exact hvis k hk (by simp [hkds, hkd])
  have := main keys (fun _ hv => hv) ⟨0, [], [], [], [], []⟩
    (Or.inr ⟨GInv_init adj keys, rfl, fun k hk hnk => absurd hk hnk⟩)
  exact this

/-- Every key sits in a (singleton) component of the final state. -/
theorem final_compAt {adj : List (Int × List Int)} {keys : List Int}
    {st : TarjanSt} (g : GInv adj keys st) (hstk : st.stack = [])
    (hallvis : ∀ k ∈ keys, (intGet st.idx k).isSome = true) :
    ∀ x ∈ keys, ∃ p, p < st.comps.length ∧ st.comps.getD p [] = [x] := by
  intro x hx
  rcases g.cover x (hallvis x hx) with hmem | ⟨c, hc, hxc⟩
  · rw [hstk] at hmem
    simp at hmem
  · obtain ⟨w, rfl⟩ := g.singles c hc
    have hxw : x = w := by simpa using hxc
    subst hxw
    obtain ⟨p, hp, hceq⟩ := List.mem_iff_getElem.mp hc
    exact ⟨p, hp, by rw [List.getD_eq_getElem _ _ hp, hceq]⟩

/-- A node's component position is unique. -/
theorem compAt_unique {adj : List (Int × List Int)} {keys : List Int}
    {st : TarjanSt} (g : GInv adj keys st) {p q : Nat} {x : Int}
    (hp : p < st.comps.length) (hq : q < st.comps.length)
    (hcp : st.comps.getD p [] = [x]) (hcq : st.comps.getD q [] = [x]) : p = q := by
  by_contra hne
  have hpair := (List.nodup_flatten.mp g.flatNodup).2
  have hdisj : ∀ {i j : Nat} (hi : i < st.comps.length) (hj : j < st.comps.length),
      i < j → st.comps[i].Disjoint st.comps[j] := by
    intro i j hi hj hij
    exact List.pairwise_iff_getElem.mp hpair i j hi hj hij
  rcases Nat.lt_or_ge p q with h | h
  · refine hdisj hp hq h (a := x) ?_ ?_
    · rw [← List.getD_eq_getElem _ ([] : List Int) hp, hcp]
      simp
    · rw [← List.getD_eq_getElem _ ([] : List Int) hq, hcq]
      simp
  · have h2 : q < p := by omega
    refine hdisj hq hp h2 (a := x) ?_ ?_
    · rw [← List.getD_eq_getElem _ ([] : List Int) hq, hcq]
      simp
    · rw [← List.getD_eq_getElem _ ([] : List Int) hp, hcp]
      simp

/-- Along any reachability chain the component position never increases, and
strictly decreases unless the endpoints coincide. -/
theorem reach_comp_strict {adj : List (Int × List Int)} {keys : List Int}
    {st : TarjanSt} (g : GInv adj keys st) :
    ∀ w v : Int, Relation.ReflTransGen (fun a b => b ∈ adjGet adj a) w v →
      ∀ p, p < st.comps.length → st.comps.getD p [] = [w] →
      v = w ∨ ∃ q, q < p ∧ q < st.comps.length ∧ st.comps.getD q [] = [v] := by
  intro w v h
  induction h with
  | refl =>
    intro p _ _
    exact Or.inl rfl
  | tail hwb hbv ihb =>
    intro p hp hcp
    rename_i b v'
    rcases ihb p hp hcp with rfl | ⟨q, hqp, hqlen, hcq⟩
    · rcases g.edgeOrd p hp b hcp v' hbv with h1 | ⟨r, hr, hmem⟩
      · exact Or.inl h1
      · have hrlen : r < st.comps.length := lt_trans hr hp
        have hmem2 : st.comps.getD r [] ∈ st.comps := by
          rw [List.getD_eq_getElem _ _ hrlen]
          exact List.getElem_mem hrlen
        obtain ⟨y, hy⟩ := g.singles _ hmem2
        rw [hy] at hmem
        have : v' = y := by simpa using hmem
        subst this
        exact Or.inr ⟨r, hr, hrlen, hy⟩
    · rcases g.edgeOrd q hqlen b hcq v' hbv with h1 | ⟨r, hr, hmem⟩
      · subst h1
        exact Or.inr ⟨q, hqp, hqlen, hcq⟩
      · have hrlen : r < st.comps.length := lt_trans hr hqlen
        have hmem2 : st.comps.getD r [] ∈ st.comps := by
          rw [List.getD_eq_getElem _ _ hrlen]
          exact List.getElem_mem hrlen
        obtain ⟨y, hy⟩ := g.singles _ hmem2
        rw [hy] at hmem
        have : v' = y := by simpa using hmem
        subst this
        exact Or.inr ⟨r, lt_trans hr hqp, hrlen, hy⟩

/-- The final-state invariant with every key covered rules out self-loops
excluded by the cycle filter, and any two distinct mutually reachable nodes. -/
theorem no_mutual_reach {adj : List (Int × List Int)} {keys : List Int}
    {st : TarjanSt} (g : GInv adj keys st) (hstk : st.stack = [])
    (hallvis : ∀ k ∈ keys, (intGet st.idx k).isSome = true)
    (hkeyedge : ∀ x v, v ∈ adjGet adj x → x ∈ keys) :
    ∀ u v : Int, u ≠ v →
      Relation.ReflTransGen (fun a b => b ∈ adjGet adj a) u v →
      Relation.ReflTransGen (fun a b => b ∈ adjGet adj a) v u → False := by
  intro u v huv huvr hvur
  obtain ⟨x, hux, _⟩ := (Relation.ReflTransGen.cases_head huvr).resolve_left huv
  obtain ⟨y, hvy, _⟩ := (Relation.ReflTransGen.cases_head hvur).resolve_left
    (Ne.symm huv)
  obtain ⟨p, hp, hcp⟩ := final_compAt g hstk hallvis u (hkeyedge u x hux)
  obtain ⟨q0, hq0, hcq0⟩ := final_compAt g hstk hallvis v (hkeyedge v y hvy)
  rcases reach_comp_strict g u v huvr p hp hcp with h1 | ⟨q, hqp, hqlen, hcq⟩
  · exact huv h1.symm
  rcases reach_comp_strict g v u hvur q hqlen hcq with h2 | ⟨r, hrq, hrlen, hcr⟩
  · exact huv h2
  have : p = r := compAt_unique g hp hrlen hcp hcr
  omega

theorem intGet_isSome_iff {α : Type} (l : List (Int × α)) (k : Int) :
    (intGet l k).isSome = true ↔ k ∈ l.map Prod.fst := by
  induction l with
  | nil => simp [intGet]
  | cons a l ih =>
    obtain ⟨k', v⟩ := a
    by_cases hk : k' = k
    · subst hk
      simp [intGet]
    · rw [intGet_cons_ne _ _ _ _ hk]
      simp only [List.map_cons, List.mem_cons]
      rw [ih]
      constructor
      · exact fun h => Or.inr h
      · rintro (h | h)
        · exact absurd h.symm hk
        · exact h

theorem intGet_mapkeys {α : Type} (g : Int → α) (k : Int) :
    ∀ ks : List Int, intGet (ks.map fun i => (i, g i)) k =
      if k ∈ ks then some (g k) else none := by
  intro ks
  induction ks with
  | nil => simp [intGet]
  | cons i ks ih =>
    simp only [List.map_cons]
    by_cases hik : i = k
    · subst hik
      rw [intGet_cons_self]
      simp
    · rw [intGet_cons_ne _ _ _ _ hik, ih]
      by_cases hk : k ∈ ks
      · simp [hk, hik]
      · simp [hk, Ne.symm hik]

theorem intGet_mapval {α β : Type} (f : Int → α → β) (k : Int) :
    ∀ l : List (Int × α), intGet (l.map fun iv => (iv.1, f iv.1 iv.2)) k =
      (intGet l k).map (f k) := by
  intro l
  induction l with
  | nil => simp [intGet]
  | cons a l ih =>
    obtain ⟨k', v⟩ := a
    by_cases hk : k' = k
    · subst hk
      simp only [List.map_cons]
      rw [intGet_cons_self, intGet_cons_self]
      rfl
    · simp only [List.map_cons]
      rw [intGet_cons_ne _ _ _ _ hk, intGet_cons_ne _ _ _ _ hk]
      exact ih

theorem pyGet_map_set (m : List (String × Json)) (k : String) (v : Json)
    (h : (pyGet m k).isSome = true) :
    pyGet (m.map fun kv => if kv.1 = k then (k, v) else kv) k = some v := by
  induction m with
  | nil => simp [pyGet] at h
  | cons a m ih =>
    obtain ⟨k', w⟩ := a
    by_cases hk : k' = k
    · subst hk
      simp only [List.map_cons]
      simp [pyGet]
    · simp only [List.map_cons, if_neg hk]
      simp only [pyGet, if_neg hk] at h ⊢
      exact ih h

theorem pyGet_append_right (m : List (String × Json)) (k : String) (v : Json)
    (h : pyGet m k = none) :
    pyGet (m ++ [(k, v)]) k = some v := by
  induction m with
  | nil => simp [pyGet]
  | cons a m ih =>
    obtain ⟨k', w⟩ := a
    by_cases hk : k' = k
    · subst hk
      simp [pyGet] at h
    · simp only [List.cons_append, pyGet, if_neg hk] at h ⊢
      exact ih h

theorem setKey_get (m : List (String × Json)) (k : String) (v : Json) :
    pyGet (setKey m k v) k = some v := by
  unfold setKey
  by_cases h : (pyGet m k).isSome = true
  · rw [if_pos h]
    exact pyGet_map_set m k v h
  · rw [if_neg h]
    apply pyGet_append_right
    cases hg : pyGet m k with
    | none => rfl
    | some w => rw [hg] at h; simp at h

theorem sanitizeDep_inr {plan : List (Int × List (String × Json))} {issue : Int}
    {owns : List String} {doco : Bool} {dep dep' : Json}
    (h : sanitizeDep plan issue owns doco dep = .inr dep') :
    dep' = dep ∧ ∃ d m, pyIntOf dep = some d ∧ intGet plan d = some m := by
  unfold sanitizeDep at h
  split at h
  · cases h
  · rename_i d hp
    split at h
    · cases h
    · rename_i m hg
      split at h
      · cases h
      · simp only [] at h
        split at h
        · cases h
        · cases h
          exact ⟨rfl, d, m, hp, hg⟩

theorem sanitizeDep_inl_reason {plan : List (Int × List (String × Json))}
    {issue : Int} {owns : List String} {doco : Bool} {dep : Json} {e : DroppedEdge}
    (h : sanitizeDep plan issue owns doco dep = .inl e) :
    e.reason = "DEAD_REF" ∨ e.reason = "DOC_BLOCKER" ∨ e.reason = "NO_OVERLAP" := by
  unfold sanitizeDep at h
  split at h
  · cases h
    simp
  · split at h
    · cases h
      simp
    · split at h
      · cases h
        simp
      · simp only [] at h
        split at h
        · cases h
          simp
        · cases h

/-- The sanitized plan, as returned by `_sanitize_dependency_graph`. -/
def sanPlan (plan : List (Int × List (String × Json))) :
    List (Int × List (String × Json)) :=
  (sanitize_dependency_graph plan).1

/-- The deps of one item kept by the sanitizer. -/
def keptDeps (plan : List (Int × List (String × Json))) (issue : Int)
    (meta : List (String × Json)) : List Json :=
  (asListD (pyGet meta "depends_on")).filterMap fun dep =>
    match sanitizeDep plan issue (normalizeOwnsPaths meta)
        (isDocOnlyItemScope meta) dep with
    | .inl _ => none
    | .inr d => some d

theorem sanPlan_keys (plan : List (Int × List (String × Json))) :
    (sanPlan plan).map Prod.fst = plan.map Prod.fst := by
  show (plan.map fun iv => (iv.1, (sanitizeItem plan iv.1 iv.2).1)).map Prod.fst = _
  rw [List.map_map]
  rfl

theorem sanPlan_get (plan : List (Int × List (String × Json))) (u : Int) :
    intGet (sanPlan plan) u = (intGet plan u).map fun m => (sanitizeItem plan u m).1 := by
  show intGet (plan.map fun iv => (iv.1, (sanitizeItem plan iv.1 iv.2).1)) u = _
  exact intGet_mapval (fun i m => (sanitizeItem plan i m).1) u plan

theorem sanitizeItem_depends (plan : List (Int × List (String × Json)))
    (issue : Int) (meta : List (String × Json)) :
    pyGet (sanitizeItem plan issue meta).1 "depends_on" =
      some (.arr (keptDeps plan issue meta)) :=
  setKey_get meta "depends_on" _

theorem adjacency_edge_key (plan' : List (Int × List (String × Json)))
    (x v : Int) (hv : v ∈ adjGet (adjacencyOf plan') x) :
    x ∈ sortBy intLe (plan'.map Prod.fst) := by
  unfold adjGet adjacencyOf at hv
  rw [intGet_mapkeys] at hv
  by_cases hx : x ∈ sortBy intLe (plan'.map Prod.fst)
  · exact hx
  · rw [if_neg hx] at hv
    simp at hv

theorem adjacencyOf_keys (plan' : List (Int × List (String × Json))) :
    ∀ x v, v ∈ adjGet (adjacencyOf plan') x →
      v ∈ sortBy intLe (plan'.map Prod.fst) := by
  intro x v hv
  have hx := adjacency_edge_key plan' x v hv
  unfold adjGet adjacencyOf at hv
  rw [intGet_mapkeys, if_pos hx] at hv
  simp only [Option.getD_some] at hv
  cases hg : intGet plan' x with
  | none =>
    rw [hg] at hv
    simp at hv
  | some meta =>
    rw [hg] at hv
    obtain ⟨dep, _, hmatch⟩ := List.mem_filterMap.mp hv
    cases hpy : pyIntOf dep with
    | none => rw [hpy] at hmatch; cases hmatch
    | some d =>
      rw [hpy] at hmatch
      simp only [] at hmatch
      split at hmatch
      · rename_i hsome
        cases hmatch
        rw [(sortBy_perm _ _).mem_iff]
        exact (intGet_isSome_iff plan' v).mp hsome
      · cases hmatch

/-- An edge of the sanitized `depends_on` graph is exactly an edge of the
cycle detector's adjacency over the sanitized plan. -/
theorem sanPlan_edge_iff (plan : List (Int × List (String × Json))) (u v : Int) :
    planEdge (sanPlan plan) u v ↔ v ∈ adjGet (adjacencyOf (sanPlan plan)) u := by
  constructor
  · rintro ⟨m, hm, hv⟩
    rw [sanPlan_get] at hm
    cases hg : intGet plan u with
    | none => rw [hg] at hm; cases hm
    | some m0 =>
      rw [hg] at hm
      simp only [Option.map_some'] at hm
      have hmeq : m = (sanitizeItem plan u m0).1 := (Option.some.inj hm).symm
      subst hmeq
      rw [sanitizeItem_depends] at hv
      simp only [asListD] at hv
      have hukey : u ∈ plan.map Prod.fst :=
        (intGet_isSome_iff plan u).mp (by simp [hg])
      have humem : u ∈ sortBy intLe ((sanPlan plan).map Prod.fst) := by
        rw [(sortBy_perm _ _).mem_iff, sanPlan_keys]
        exact hukey
      unfold adjGet adjacencyOf
      rw [intGet_mapkeys, if_pos humem]
      simp only [Option.getD_some]
      rw [sanPlan_get, hg]
      simp only [Option.map_some']
      rw [sanitizeItem_depends]
      simp only [asListD]
      obtain ⟨dep, hdep, hpv⟩ := List.mem_filterMap.mp hv
      refine List.mem_filterMap.mpr ⟨dep, hdep, ?_⟩
      obtain ⟨dep0, _, hinr⟩ := List.mem_filterMap.mp hdep
      have hinr2 : sanitizeDep plan u (normalizeOwnsPaths m0)
          (isDocOnlyItemScope m0) dep0 = .inr dep := by
        cases hsd : sanitizeDep plan u (normalizeOwnsPaths m0)
            (isDocOnlyItemScope m0) dep0 with
        | inl e => rw [hsd] at hinr; cases hinr
        | inr d2 =>
          rw [hsd] at hinr
          cases hinr
          rfl
      obtain ⟨hdd, d, mm, hpy, hgd⟩ := sanitizeDep_inr hinr2
      subst hdd
      have hvd : v = d := by
        rw [hpy] at hpv
        exact (Option.some.inj hpv).symm
      subst hvd
      rw [hpy]
      simp only []
      rw [show (intGet (sanPlan plan) v).isSome = true from by
        rw [sanPlan_get, hgd]; rfl]
      simp
  · intro hv
    have hx := adjacency_edge_key (sanPlan plan) u v hv
    unfold adjGet adjacencyOf at hv
    rw [intGet_mapkeys, if_pos hx] at hv
    simp only [Option.getD_some] at hv
    have hukey : u ∈ plan.map Prod.fst := by
      rw [(sortBy_perm _ _).mem_iff, sanPlan_keys] at hx
      exact hx
    cases hg : intGet plan u with
    | none =>
      have := (intGet_isSome_iff plan u).mpr hukey
      rw [hg] at this
      simp at this
    | some m0 =>
      rw [sanPlan_get, hg] at hv
      simp only [Option.map_some'] at hv
      rw [sanitizeItem_depends] at hv
      simp only [asListD] at hv
      obtain ⟨dep, hdep, hmatch⟩ := List.mem_filterMap.mp hv
      refine ⟨(sanitizeItem plan u m0).1, ?_, ?_⟩
      · rw [sanPlan_get, hg]
        rfl
      · rw [sanitizeItem_depends]
        simp only [asListD]
        refine List.mem_filterMap.mpr ⟨dep, hdep, ?_⟩
        cases hpy : pyIntOf dep with
        | none => rw [hpy] at hmatch; cases hmatch
        | some d =>
          rw [hpy] at hmatch
          simp only [] at hmatch
          split at hmatch
          · cases hmatch
            rfl
          · cases hmatch

theorem detect_nil_of_err_none (plan : List (Int × List (String × Json)))
    (h : (sanitize_dependency_graph plan).2.2 = none) :
    detect_dependency_cycles (sanPlan plan) = [] := by
  by_cases hl : 0 < (detect_dependency_cycles (sanPlan plan)).length
  · exfalso
    have h2 : (sanitize_dependency_graph plan).2.2 =
        some (detect_dependency_cycles (sanPlan plan)) := by
      show (if 0 < (detect_dependency_cycles (sanPlan plan)).length then
        some (detect_dependency_cycles (sanPlan plan)) else none) = _
      rw [if_pos hl]
    rw [h] at h2
    cases h2
  · have h2 : (detect_dependency_cycles (sanPlan plan)).length = 0 := by omega
    exact List.length_eq_zero.mp h2

theorem detect_filter_nil (plan' : List (Int × List (String × Json)))
    (h : detect_dependency_cycles plan' = []) :
    ∀ c ∈ (tarjanRun (adjacencyOf plan')
        (sortBy intLe (plan'.map Prod.fst))).comps,
      (if 1 < c.length then true else
        match c with
        | [issue] => (adjGet (adjacencyOf plan') issue).contains issue
        | _ => false) = false := by
  have hnil : (tarjanRun (adjacencyOf plan')
      (sortBy intLe (plan'.map Prod.fst))).comps.filter (fun comp =>
        if 1 < comp.length then true else
          match comp with
          | [issue] => (adjGet (adjacencyOf plan') issue).contains issue
          | _ => false) = [] := by
    have hlen := (sortBy_perm (fun a b : List Int => intLe (a.headD 0) (b.headD 0))
      ((tarjanRun (adjacencyOf plan') (sortBy intLe (plan'.map Prod.fst))).comps.filter
        (fun comp =>
          if 1 < comp.length then true else
            match comp with
            | [issue] => (adjGet (adjacencyOf plan') issue).contains issue
            | _ => false))).length_eq
    have hd : detect_dependency_cycles plan' =
        sortBy (fun a b : List Int => intLe (a.headD 0) (b.headD 0))
          ((tarjanRun (adjacencyOf plan') (sortBy intLe (plan'.map Prod.fst))).comps.filter
            (fun comp =>
              if 1 < comp.length then true else
                match comp with
                | [issue] => (adjGet (adjacencyOf plan') issue).contains issue
                | _ => false)) := rfl
    have hs : sortBy (fun a b : List Int => intLe (a.headD 0) (b.headD 0))
        ((tarjanRun (adjacencyOf plan') (sortBy intLe (plan'.map Prod.fst))).comps.filter
          (fun comp =>
            if 1 < comp.length then true else
              match comp with
              | [issue] => (adjGet (adjacencyOf plan') issue).contains issue
              | _ => false)) = [] := by
      rw [← hd]
      exact h
    have hlen2 : ((tarjanRun (adjacencyOf plan')
        (sortBy intLe (plan'.map Prod.fst))).comps.filter (fun comp =>
          if 1 < comp.length then true else
            match comp with
            | [issue] => (adjGet (adjacencyOf plan') issue).contains issue
            | _ => false)).length = 0 := by
      rw [← hlen, hs]
      rfl
    exact List.length_eq_zero.mp hlen2
  intro c hc
  have := List.filter_eq_nil_iff.mp hnil c hc
  simpa using this

/-- C5: when `_sanitize_dependency_graph` returns without a cycle error, the
remaining `depends_on` graph has no self-loops and no strongly connected
component of size greater than one (no two distinct mutually reachable
nodes), and every edge removed during sanitization is recorded in the
report's `droppedEdges` with a reason among DEAD_REF, DOC_BLOCKER,
NO_OVERLAP. -/
theorem sanitizer_soundness (plan : List (Int × List (String × Json))) :
    ((sanitize_dependency_graph plan).2.2 = none →
      (∀ u : Int, ¬ planEdge (sanitize_dependency_graph plan).1 u u) ∧
      (∀ u v : Int, u ≠ v → planReach (sanitize_dependency_graph plan).1 u v →
        planReach (sanitize_dependency_graph plan).1 v u → False)) ∧
    (∀ e ∈ (sanitize_dependency_graph plan).2.1.1,
      e.reason = "DEAD_REF" ∨ e.reason = "DOC_BLOCKER" ∨ e.reason = "NO_OVERLAP") := by
  constructor
  · intro herr
    have hdet := detect_nil_of_err_none plan herr
    have hadjk := adjacencyOf_keys (sanPlan plan)
    have hpred := detect_filter_nil (sanPlan plan) hdet
    rcases tarjanRun_spec (adjacencyOf (sanPlan plan))
        (sortBy intLe ((sanPlan plan).map Prod.fst)) hadjk with hB | ⟨g, hstk, hallvis⟩
    · exfalso
      obtain ⟨c, hcm, hlen⟩ := hB
      have := hpred c hcm
      rw [if_pos (by omega)] at this
      cases this
    have hnoself : ∀ p, p < (tarjanRun (adjacencyOf (sanPlan plan))
        (sortBy intLe ((sanPlan plan).map Prod.fst))).comps.length →
        ∀ w, (tarjanRun (adjacencyOf (sanPlan plan))
          (sortBy intLe ((sanPlan plan).map Prod.fst))).comps.getD p [] = [w] →
        w ∉ adjGet (adjacencyOf (sanPlan plan)) w := by
      intro p hp w hw hmem
      have hcmem : (tarjanRun (adjacencyOf (sanPlan plan))
          (sortBy intLe ((sanPlan plan).map Prod.fst))).comps.getD p [] ∈
          (tarjanRun (adjacencyOf (sanPlan plan))
            (sortBy intLe ((sanPlan plan).map Prod.fst))).comps := by
        rw [List.getD_eq_getElem _ _ hp]
        exact List.getElem_mem hp
      have h2 := hpred _ hcmem
      rw [hw] at h2
      simp only [show ¬ (1 < ([w] : List Int).length) from by simp, if_false] at h2
      rw [show ((adjGet (adjacencyOf (sanPlan plan)) w).contains w) =
          decide (w ∈ adjGet (adjacencyOf (sanPlan plan)) w) from by
        simp [List.contains_iff_exists_mem_beq, List.elem_iff]] at h2
      simp only [decide_eq_false_iff_not] at h2
      exact h2 hmem
    constructor
    · intro u hedge
      have hadge := (sanPlan_edge_iff plan u u).mp hedge
      obtain ⟨p, hp, hcp⟩ := final_compAt g hstk hallvis u
        (adjacency_edge_key (sanPlan plan) u u hadge)
      exact hnoself p hp u hcp hadge
    · intro u v huv hru hrv
      exact no_mutual_reach g hstk hallvis
        (fun x w hw => adjacency_edge_key (sanPlan plan) x w hw) u v huv
        (Relation.ReflTransGen.mono
          (fun a b hab => (sanPlan_edge_iff plan a b).mp hab) hru)
        (Relation.ReflTransGen.mono
          (fun a b hab => (sanPlan_edge_iff plan a b).mp hab) hrv)
  · intro e he
    have he2 : e ∈ plan.flatMap fun iv => (sanitizeItem plan iv.1 iv.2).2 := he
    obtain ⟨iv, _, hee⟩ := List.mem_flatMap.mp he2
    obtain ⟨dep, _, hmatch⟩ := List.mem_filterMap.mp hee
    have hinl : sanitizeDep plan iv.1 (normalizeOwnsPaths iv.2)
        (isDocOnlyItemScope iv.2) dep = .inl e := by
      cases hsd : sanitizeDep plan iv.1 (normalizeOwnsPaths iv.2)
          (isDocOnlyItemScope iv.2) dep with
      | inl e2 =>
        rw [hsd] at hmatch
        cases hmatch
        rfl
      | inr d =>
        rw [hsd] at hmatch
        cases hmatch
    exact sanitizeDep_inl_reason hinl

/-- A small concrete scope plan: 1 depends on 2 with overlapping ownership. -/
def c5Plan : List (Int × List (String × Json)) :=
  [(1, [("depends_on", .arr [.num 2]), ("owns_paths", .arr [.str "src/a"]),
        ("touch_paths", .arr [.str "src/a/x.py"])]),
   (2, [("depends_on", .arr []), ("owns_paths", .arr [.str "src/a/b"]),
        ("touch_paths", .arr [.str "src/a/b/y.py"])])]

/-- Witness: the concrete plan sanitizes without a cycle error, and the
soundness theorem then yields the absence of self-loops. -/
theorem sanitizer_soundness_witness :
    (sanitize_dependency_graph c5Plan).2.2 = none ∧
    ¬ planEdge (sanitize_dependency_graph c5Plan).1 1 1 :=
  ⟨rfl, ((sanitizer_soundness c5Plan).1 rfl).1 1⟩
